import Mathlib

/-!
# Memory pool allocator (`mem_pool.c`): shallow embedding and verification

The C translation unit manages one byte arena per pool through three structures:
the node heap (an array of `node_t` slots linked by `next`/`prev`), the gap index
(an array of `gap_t` entries for the free nodes) and the counters of `pool_t`.

Modelling conventions.

* A pointer to a node is the address of the node, counted in node slots from the current
  start of the node heap: slot `i` of the heap has address `i`, and `none` is `NULL`.
  Reading or writing through an address at which the heap has no slot is undefined;
  comparing two addresses is defined (the lookups of lines 402-408 and 619-624 compare a
  pointer with the address of every slot).
* `realloc` of the node heap (line 563) either extends the array in place or copies it to a
  new array and frees the old one; the source updates no pointer after the call.  The
  outcome is a parameter (`realloc_t`) of `_mem_resize_node_heap` and of `mem_new_alloc`.
  When the array has moved, every pointer value from before the call (`next`, `prev`,
  `gap_ix[i].node`, a handle that the client holds) still is the address of a place in the
  freed array; counted from the new start of the heap it reads as `realloc_t.ptr`, an
  address at which the new heap has no slot.  The slots that `realloc` adds are initialised
  neither by the C library nor by the source: what they hold is part of the outcome.
* `alloc_record.mem` is the offset of the segment from `pool.mem`; `none` is `NULL`.
* Every function whose C execution can dereference `NULL` or a pointer into a freed array,
  index an array outside its storage, or hand `realloc` a pointer that no allocation
  function returned, yields `none` at that point: `none` is "no defined behaviour", `some`
  is a completed call.
* `size_t` is 64 bits wide and `int`/`unsigned` are 32 bits wide.  Subtractions and
  decrements wrap as in C; sums and increments are taken without wrap-around (sums of
  sizes stay below `2^64` and node counts below `2^32` in every pool of this file).
* The fill tests `(float) a / b > 0.75` are taken exactly, as `4 * a > 3 * b`.
* The allocation functions of the C library are taken to succeed.
-/

namespace MemPool

/-! ## Types (those of `mem_pool.h`) -/

/-- Modelled from the spec: the status codes of `mem_pool.h`, by the names the source uses. -/
inductive alloc_status where
  | ALLOC_OK
  | ALLOC_FAIL
  | ALLOC_CALLED_AGAIN
  | ALLOC_NOT_FREED
deriving DecidableEq, Repr

/-- Modelled from the spec: the placement policies of `mem_pool.h` (`FirstFit`, `BestFit`). -/
inductive alloc_policy where
  | FIRST_FIT
  | BEST_FIT
deriving DecidableEq, Repr

/-- The struct `node_t`: `alloc_record.size`, `alloc_record.mem`, `used`, `allocated`,
`next`, `prev`. -/
structure node_t where
  size : Nat
  mem : Option Nat
  used : Nat
  allocated : Nat
  next : Option Nat
  prev : Option Nat
deriving DecidableEq, Repr

/-- The struct `gap_t`: `size` and `node`. -/
structure gap_t where
  size : Nat
  node : Option Nat
deriving DecidableEq, Repr

/-- The struct `pool_mgr_t` with the fields of its embedded `pool_t` (`policy`, `total_size`,
`alloc_size`, `num_allocs`, `num_gaps`) flattened in.  `node_heap` and `gap_ix` are the
storage actually allocated; `total_nodes` and `gap_ix_capacity` are the recorded capacities. -/
structure pool_mgr_t where
  policy : alloc_policy
  total_size : Nat
  alloc_size : Nat
  num_allocs : Nat
  num_gaps : Nat
  node_heap : List node_t
  total_nodes : Nat
  used_nodes : Nat
  gap_ix : List gap_t
  gap_ix_capacity : Nat
deriving DecidableEq, Repr

/-! ## Constants -/

def MEM_NODE_HEAP_INIT_CAPACITY : Nat := 40

def MEM_GAP_IX_INIT_CAPACITY : Nat := 40

def MEM_POOL_STORE_INIT_CAPACITY : Nat := 20

def MEM_GAP_IX_EXPAND_FACTOR : Nat := 2

/-- A slot of the node heap as `calloc` leaves it. -/
def node_zero : node_t := ⟨0, none, 0, 0, none, none⟩

/-- An entry of the gap index as `calloc` leaves it. -/
def gap_zero : gap_t := ⟨0, none⟩

/-! ## C arithmetic -/

/-- Subtraction of two `size_t` values: wraps modulo `2^64` when the result would be negative. -/
def size_sub (a b : Nat) : Nat :=
  if b ≤ a then a - b else a + 18446744073709551616 - b

/-- The value of `(int) (a - b)` for `size_t` operands: the low 32 bits of the difference,
read as a two's complement number. -/
def size_dif (a b : Nat) : Int :=
  if size_sub a b % 4294967296 < 2147483648 then Int.ofNat (size_sub a b % 4294967296)
  else Int.ofNat (size_sub a b % 4294967296) - 4294967296

/-- The value of `x--` on an `unsigned`: wraps at zero. -/
def dec_unsigned (x : Nat) : Nat :=
  if x = 0 then 4294967295 else x - 1

/-- The C operator `!`. -/
def c_not (x : Nat) : Nat :=
  if x = 0 then 1 else 0

/-- Comparison `a < b` of two `alloc_record.mem` pointers; `NULL` is below every arena address. -/
def mem_lt : Option Nat → Option Nat → Bool
  | none, none => false
  | none, some _ => true
  | some _, none => false
  | some a, some b => decide (a < b)

/-! ## Array access and loops -/

/-- Store `v` at index `i` of an array; undefined outside the storage. -/
def set? {α : Type} (l : List α) (i : Nat) (v : α) : Option (List α) :=
  if i < l.length then some (l.set i v) else none

/-- Update the fields of the node in slot `i`; undefined outside the storage. -/
def upd (heap : List node_t) (i : Nat) (f : node_t → node_t) : Option (List node_t) :=
  match heap[i]? with
  | some n => some (heap.set i (f n))
  | none => none

/-- The guarded store `if (q != NULL) q->... = ...;` on the node that `q` points to. -/
def upd_opt (heap : List node_t) (q : Option Nat) (f : node_t → node_t) :
    Option (List node_t) :=
  match q with
  | some i => upd heap i f
  | none => some heap

/-- The loop `for (int i = lo; i < lo + n; i++) if (test i) { found = i; i = bound; }`:
the first index that passes the test, if any.  Undefined when a test is. -/
def scan_first (test : Nat → Option Bool) : Nat → Nat → Option (Option Nat)
  | 0, _ => some none
  | n + 1, lo =>
    match test lo with
    | none => none
    | some true => some (some lo)
    | some false => scan_first test n (lo + 1)

/-! ## Static functions: node heap and gap index -/

/-- The outcome of the `realloc` call of line 563, as far as the C library leaves it open.
With `shift = none` the array is extended in place.  With `shift = some d` the contents are
copied to a new array and the old array is freed; the old array starts `d` slots above the
end of the new one.  `fill` is what the added slots hold, from the first added slot on;
added slots beyond `fill` hold zero bytes. -/
structure realloc_t where
  shift : Option Nat
  fill : List node_t
deriving DecidableEq, Repr

/-- The outcome in which the array is extended in place and the added slots hold zero
bytes. -/
def realloc_in_place : realloc_t := ⟨none, []⟩

/-- The outcome in which the array moves to a new place right below the old one and the
added slots hold zero bytes. -/
def realloc_moved : realloc_t := ⟨some 0, []⟩

/-- A node slot whose bytes are all `0xFF`: every integer field has all bits set, and the
pointer fields are the address of no object. -/
def node_dirty : node_t :=
  ⟨18446744073709551615, some 18446744073709551615, 4294967295, 4294967295,
    some 18446744073709551615, some 18446744073709551615⟩

/-- The outcome in which the array moves to a new place right below the old one and the
added slots hold the bytes `0xFF`. -/
def realloc_moved_dirty : realloc_t := ⟨some 0, List.replicate 40 node_dirty⟩

/-- The reading of a node pointer after the `realloc` call of line 563 on a heap of
`total_nodes` slots: `r.ptr total_nodes a` is the address, counted from the start of the heap
after the call, of the place that had address `a` before the call.  In place it is `a`; after a
move it lies beyond the `total_nodes * 2` slots of the new array. -/
def realloc_t.ptr (r : realloc_t) (total_nodes : Nat) (a : Nat) : Nat :=
  match r.shift with
  | none => a
  | some d => a + (total_nodes * 2 + d)

/-- A node as `realloc` copies it: the bytes are kept, so `next` and `prev` still hold the
addresses they held, read from the new start of the heap. -/
def realloc_t.node (r : realloc_t) (total_nodes : Nat) (n : node_t) : node_t :=
  { n with next := n.next.map (r.ptr total_nodes), prev := n.prev.map (r.ptr total_nodes) }

/-- A gap index entry after the node heap has been reallocated: the entry is not touched, so
`node` still holds the address it held, read from the new start of the heap. -/
def realloc_t.gap (r : realloc_t) (total_nodes : Nat) (g : gap_t) : gap_t :=
  { g with node := g.node.map (r.ptr total_nodes) }

/-- Function `_mem_resize_node_heap` (lines 558-573): when more than three quarters of the node
heap are used, `realloc` is asked for twice as many slots and `total_nodes` is doubled.
Nothing else is stored: no added slot is initialised and no pointer into the array is
updated.  `r` is the outcome of the `realloc` call.  The status that the function returns is
ignored by its only caller. -/
def _mem_resize_node_heap (r : realloc_t) (p : pool_mgr_t) : pool_mgr_t :=
  if 4 * p.used_nodes > 3 * p.total_nodes then
    match r.shift with
    | none =>
      { p with
        node_heap :=
          (p.node_heap ++ (r.fill ++ List.replicate (p.total_nodes * 2) node_zero)).take
            (p.total_nodes * 2)
        total_nodes := p.total_nodes * 2 }
    | some _ =>
      { p with
        node_heap :=
          (p.node_heap.map (r.node p.total_nodes) ++
            (r.fill ++ List.replicate (p.total_nodes * 2) node_zero)).take (p.total_nodes * 2)
        gap_ix := p.gap_ix.map (r.gap p.total_nodes)
        total_nodes := p.total_nodes * 2 }
  else p

/-- Function `_mem_resize_gap_ix` (lines 575-590).  When more than three quarters of the index are
filled the function calls `realloc` on `&pool_mgr->gap_ix_capacity`, the address of a struct
field, for `num_gaps * 2` entries: that call has no defined behaviour.  Otherwise nothing
changes and the status is `ALLOC_OK` (`gap_ix` is never `NULL`). -/
def _mem_resize_gap_ix (p : pool_mgr_t) : Option (pool_mgr_t × alloc_status) :=
  if 4 * p.num_gaps > 3 * p.gap_ix_capacity then none
  else some (p, alloc_status.ALLOC_OK)

/-- The number of `gap_t` entries that the `realloc` call of line 580 asks for:
`sizeof(gap_t) * pool_mgr->pool.num_gaps * MEM_GAP_IX_EXPAND_FACTOR` bytes. -/
def _mem_resize_gap_ix_request (p : pool_mgr_t) : Nat :=
  p.num_gaps * MEM_GAP_IX_EXPAND_FACTOR

/-- The capacity that line 584 records after the `realloc` call:
`gap_ix_capacity * MEM_GAP_IX_EXPAND_FACTOR`. -/
def _mem_resize_gap_ix_recorded (p : pool_mgr_t) : Nat :=
  p.gap_ix_capacity * MEM_GAP_IX_EXPAND_FACTOR

/-- The loop of `_mem_sort_gap_ix` (lines 647-662).  `_mem_sort_gap_ix_loop heap k g` runs the
iterations `i = k, k - 1, ..., 1`; each compares `gap_ix[i]` with `gap_ix[i - 1]` through the
`int`-truncated difference of their sizes, then through the `mem` of their nodes. -/
def _mem_sort_gap_ix_loop (heap : List node_t) : Nat → List gap_t → Option (List gap_t)
  | 0, g => some g
  | i + 1, g =>
    match g[i + 1]?, g[i]? with
    | some cur, some prv =>
      if size_dif cur.size prv.size < 0 then
        _mem_sort_gap_ix_loop heap i ((g.set i cur).set (i + 1) prv)
      else if size_dif cur.size prv.size = 0 then
        match cur.node, prv.node with
        | some cn, some pn =>
          match heap[cn]?, heap[pn]? with
          | some cnode, some pnode =>
            if mem_lt cnode.mem pnode.mem then
              _mem_sort_gap_ix_loop heap i ((g.set i cur).set (i + 1) prv)
            else _mem_sort_gap_ix_loop heap i g
          | _, _ => none
        | _, _ => none
      else _mem_sort_gap_ix_loop heap i g
    | _, _ => none

/-- Function `_mem_sort_gap_ix` (lines 644-664): one bubbling pass from index `num_gaps - 1` down. -/
def _mem_sort_gap_ix (p : pool_mgr_t) : Option (pool_mgr_t × alloc_status) :=
  match _mem_sort_gap_ix_loop p.node_heap (p.num_gaps - 1) p.gap_ix with
  | some g => some ({ p with gap_ix := g }, alloc_status.ALLOC_OK)
  | none => none

/-- Function `_mem_add_to_gap_ix` (lines 592-611): resize, append at `num_gaps`, count, sort. -/
def _mem_add_to_gap_ix (p : pool_mgr_t) (size : Nat) (node : Nat) :
    Option (pool_mgr_t × alloc_status) :=
  match _mem_resize_gap_ix p with
  | none => none
  | some (p1, _) =>
    match set? p1.gap_ix p1.num_gaps ⟨size, some node⟩ with
    | none => none
    | some g =>
      match _mem_sort_gap_ix { p1 with gap_ix := g, num_gaps := p1.num_gaps + 1 } with
      | none => none
      | some (p2, alloc_status.ALLOC_FAIL) => some (p2, alloc_status.ALLOC_FAIL)
      | some (p2, _) => some (p2, alloc_status.ALLOC_OK)

/-- The copying loop of `_mem_remove_from_gap_ix` (lines 628-631): `shift_loop n i g` runs
`gap_ix[j] = gap_ix[j + 1]` for `j = i, ..., i + n - 1`. -/
def shift_loop : Nat → Nat → List gap_t → Option (List gap_t)
  | 0, _, g => some g
  | n + 1, i, g =>
    match g[i + 1]? with
    | some x =>
      match set? g i x with
      | some g1 => shift_loop n (i + 1) g1
      | none => none
    | none => none

/-- Function `_mem_remove_from_gap_ix` (lines 613-641).  The entry is looked up by node over the whole
capacity; when there is none, `nodeIndex` stays `-1`, which as an `unsigned` is not below
`gap_ix_capacity - 1`, so nothing is copied.  In both cases `num_gaps` is decremented and
the entry at the new `num_gaps` is zeroed.  The `size` argument is not used. -/
def _mem_remove_from_gap_ix (p : pool_mgr_t) (_size : Nat) (node : Nat) :
    Option (pool_mgr_t × alloc_status) :=
  match scan_first (fun i => (p.gap_ix[i]?).map (fun g => decide (g.node = some node)))
      p.gap_ix_capacity 0 with
  | none => none
  | some r =>
    match (match r with
      | none => some p.gap_ix
      | some k => shift_loop (p.gap_ix_capacity - 1 - k) k p.gap_ix) with
    | none => none
    | some g1 =>
      match set? g1 (dec_unsigned p.num_gaps) gap_zero with
      | none => none
      | some g2 =>
        some ({ p with gap_ix := g2, num_gaps := dec_unsigned p.num_gaps },
          alloc_status.ALLOC_OK)

/-! ## User-facing functions on one pool -/

/-- The pool manager that `mem_pool_open` builds (lines 153-211): one free node spanning the
arena in slot 0 of a zeroed node heap, one gap index entry for it, zeroed counters. -/
def pool_mgr_open (size : Nat) (policy : alloc_policy) : pool_mgr_t :=
  { policy := policy
    total_size := size
    alloc_size := 0
    num_allocs := 0
    num_gaps := 1
    node_heap :=
      (List.replicate MEM_NODE_HEAP_INIT_CAPACITY node_zero).set 0
        ⟨size, some 0, 1, 0, none, none⟩
    total_nodes := MEM_NODE_HEAP_INIT_CAPACITY
    used_nodes := 1
    gap_ix := (List.replicate MEM_GAP_IX_INIT_CAPACITY gap_zero).set 0 ⟨size, some 0⟩
    gap_ix_capacity := MEM_GAP_IX_INIT_CAPACITY }

/-- The test of the `FIRST_FIT` loop (lines 300-302) on slot `i`. -/
def first_fit_test (heap : List node_t) (size : Nat) (i : Nat) : Option Bool :=
  (heap[i]?).map (fun n => decide (n.used = 1) && decide (n.allocated = 0) && decide (size ≤ n.size))

/-- The test of the `BEST_FIT` loop (line 312) on entry `i`. -/
def best_fit_test (gap_ix : List gap_t) (size : Nat) (i : Nat) : Option Bool :=
  (gap_ix[i]?).map (fun g => decide (size ≤ g.size))

/-- The test of the unused-slot loop (line 346) on slot `i`. -/
def unused_test (heap : List node_t) (i : Nat) : Option Bool :=
  (heap[i]?).map (fun n => decide (n.used = 0))

/-- Lines 294-317 of `mem_new_alloc`: the node chosen by the policy, `none` for `NULL`.
`FIRST_FIT` takes the first sufficient free node in node heap slot order, `BEST_FIT` the node of
the first sufficient entry of the gap index. -/
def mem_new_alloc_select (p : pool_mgr_t) (size : Nat) : Option (Option Nat) :=
  match p.policy with
  | alloc_policy.FIRST_FIT => scan_first (first_fit_test p.node_heap size) p.total_nodes 0
  | alloc_policy.BEST_FIT =>
    match scan_first (best_fit_test p.gap_ix size) p.gap_ix_capacity 0 with
    | none => none
    | some none => some none
    | some (some i) =>
      match p.gap_ix[i]? with
      | some g => some g.node
      | none => none

/-- Lines 357-380 of `mem_new_alloc`: the unused slot `u` becomes the free remainder and is
linked right after `node`, then entered in the gap index. -/
def mem_new_alloc_split (p : pool_mgr_t) (size rem_size node u : Nat) :
    Option (pool_mgr_t × Option Nat) :=
  match p.node_heap[node]? with
  | none => none
  | some n =>
    match upd p.node_heap u (fun x =>
        { x with mem := n.mem.map (fun m => m + size), size := rem_size, used := 1,
                 allocated := 0, next := none, prev := none }) with
    | none => none
    | some h1 =>
      match h1[node]? with
      | none => none
      | some n1 =>
        match upd h1 u (fun x => { x with prev := some node, next := n1.next }) with
        | none => none
        | some h2 =>
          match h2[node]? with
          | none => none
          | some n2 =>
            match upd_opt h2 n2.next (fun x => { x with prev := some u }) with
            | none => none
            | some h3 =>
              match upd h3 node (fun x => { x with next := some u }) with
              | none => none
              | some h4 =>
                match _mem_add_to_gap_ix
                    { p with node_heap := h4, used_nodes := p.used_nodes + 1 } rem_size u with
                | none => none
                | some (p1, alloc_status.ALLOC_FAIL) => some (p1, none)
                | some (p1, _) => some (p1, some node)

/-- Lines 324-383 of `mem_new_alloc`, entered with the chosen `node`: count the allocation,
take the node out of the gap index, convert it, and split off the remainder if there is one.
The result `none` in the second component is the return of `NULL`. -/
def mem_new_alloc_commit (p : pool_mgr_t) (size : Nat) (node : Nat) :
    Option (pool_mgr_t × Option Nat) :=
  match p.node_heap[node]? with
  | none => none
  | some n =>
    match _mem_remove_from_gap_ix
        { p with num_allocs := p.num_allocs + 1, alloc_size := p.alloc_size + size } size node with
    | none => none
    | some (p1, _) =>
      match upd p1.node_heap node (fun x => { x with size := size, used := 1, allocated := 1 }) with
      | none => none
      | some h1 =>
        if 0 < size_sub n.size size then
          match scan_first (unused_test h1) p1.total_nodes 0 with
          | none => none
          | some none => some ({ p1 with node_heap := h1 }, none)
          | some (some u) =>
            mem_new_alloc_split { p1 with node_heap := h1 } size (size_sub n.size size) node u
        else some ({ p1 with node_heap := h1 }, some node)

/-- Function `mem_new_alloc` (lines 277-384); `r` is the outcome of the `realloc` call of
`_mem_resize_node_heap`, should the node heap have to grow.  The second component of the
result is the handle returned, `none` for `NULL`. -/
def mem_new_alloc (r : realloc_t) (p : pool_mgr_t) (size : Nat) :
    Option (pool_mgr_t × Option Nat) :=
  if p.num_gaps = 0 then some (p, none)
  else if (_mem_resize_node_heap r p).total_nodes ≤ (_mem_resize_node_heap r p).used_nodes then
    some (_mem_resize_node_heap r p, none)
  else
    match mem_new_alloc_select (_mem_resize_node_heap r p) size with
    | none => none
    | some none => some (_mem_resize_node_heap r p, none)
    | some (some node) => mem_new_alloc_commit (_mem_resize_node_heap r p) size node

/-- Lines 433-435 and 441-447 of `mem_del_alloc`: the node `nx` after `node` is marked unused
and the list is made to skip it. -/
def mem_del_alloc_unlink_next (heap : List node_t) (node nx : Nat) : Option (List node_t) :=
  match upd heap nx (fun x => { x with size := 0, mem := none, used := 0 }) with
  | none => none
  | some h1 =>
    match h1[nx]? with
    | none => none
    | some nxn =>
      match nxn.next with
      | some nn =>
        match upd h1 nn (fun x => { x with prev := some node }) with
        | none => none
        | some h2 => upd h2 node (fun x => { x with next := some nn })
      | none =>
        match upd h1 nx (fun x => { x with prev := none }) with
        | none => none
        | some h2 => upd h2 node (fun x => { x with next := none })

/-- Lines 423-448 of `mem_del_alloc`: when the next node of the list is a gap, its size is
added to `node`, it leaves the gap index, its slot is retired and the list skips it. -/
def mem_del_alloc_merge_next (p : pool_mgr_t) (node : Nat) : Option pool_mgr_t :=
  match p.node_heap[node]? with
  | none => none
  | some n =>
    match n.next with
    | none => some p
    | some nx =>
      match p.node_heap[nx]? with
      | none => none
      | some nxn =>
        if nxn.allocated = 0 then
          match upd p.node_heap node (fun x => { x with size := x.size + nxn.size }) with
          | none => none
          | some h1 =>
            match _mem_remove_from_gap_ix { p with node_heap := h1 } nxn.size nx with
            | none => none
            | some (p1, _) =>
              match mem_del_alloc_unlink_next p1.node_heap node nx with
              | none => none
              | some h2 =>
                some { p1 with node_heap := h2, used_nodes := dec_unsigned p1.used_nodes }
        else some p

/-- Lines 466-468 and 474-482 of `mem_del_alloc`: `node` is marked unused and the list is made
to skip it; the result carries `node->prev`, the node that line 482 continues with. -/
def mem_del_alloc_unlink_self (heap : List node_t) (node : Nat) :
    Option (List node_t × Nat) :=
  match upd heap node (fun x => { x with used := 0, size := 0, mem := none }) with
  | none => none
  | some h1 =>
    match h1[node]? with
    | none => none
    | some n =>
      match n.prev with
      | none => none
      | some pv =>
        match n.next with
        | some nx =>
          match upd h1 pv (fun x => { x with next := some nx }) with
          | none => none
          | some h2 =>
            match upd h2 nx (fun x => { x with prev := some pv }) with
            | none => none
            | some h3 => some (h3, pv)
        | none =>
          match upd h1 pv (fun x => { x with next := none }) with
          | none => none
          | some h2 => some (h2, pv)

/-- Lines 449-483 of `mem_del_alloc`: when the previous node of the list is a gap, the size
of `node` is added to it, its old entry leaves the gap index, the slot of `node` is retired
and the list skips it.  The result carries the node that line 485 enters in the gap index,
and `ALLOC_FAIL` when line 462 returns. -/
def mem_del_alloc_merge_prev (p : pool_mgr_t) (node : Nat) :
    Option (pool_mgr_t × Nat × alloc_status) :=
  match p.node_heap[node]? with
  | none => none
  | some n =>
    match n.prev with
    | none => some (p, node, alloc_status.ALLOC_OK)
    | some pv =>
      match p.node_heap[pv]? with
      | none => none
      | some pvn =>
        if pvn.allocated = 0 then
          match upd p.node_heap pv (fun x => { x with size := x.size + n.size }) with
          | none => none
          | some h1 =>
            match h1[pv]?, h1[node]? with
            | some pvn1, some n1 =>
              match _mem_remove_from_gap_ix { p with node_heap := h1 }
                  (size_sub pvn1.size n1.size) pv with
              | none => none
              | some (p1, alloc_status.ALLOC_FAIL) => some (p1, node, alloc_status.ALLOC_FAIL)
              | some (p1, _) =>
                match mem_del_alloc_unlink_self p1.node_heap node with
                | none => none
                | some (h2, pv2) =>
                  some ({ p1 with node_heap := h2, used_nodes := dec_unsigned p1.used_nodes },
                    pv2, alloc_status.ALLOC_OK)
            | _, _ => none
        else some (p, node, alloc_status.ALLOC_OK)

/-- Function `mem_del_alloc` (lines 394-490).  A handle is the address of a node, so the lookup
loop of lines 403-408, which compares it with the address of every slot, finds it exactly
when it is below `total_nodes`. -/
def mem_del_alloc (p : pool_mgr_t) (alloc : Option Nat) : Option (pool_mgr_t × alloc_status) :=
  match alloc with
  | none => some (p, alloc_status.ALLOC_FAIL)
  | some node =>
    if p.total_nodes ≤ node then some (p, alloc_status.ALLOC_FAIL)
    else
      match upd p.node_heap node (fun x => { x with used := 1, allocated := 0 }) with
      | none => none
      | some h1 =>
        match h1[node]? with
        | none => none
        | some n1 =>
          match mem_del_alloc_merge_next
              { p with node_heap := h1, num_allocs := dec_unsigned p.num_allocs,
                       alloc_size := size_sub p.alloc_size n1.size } node with
          | none => none
          | some p1 =>
            match mem_del_alloc_merge_prev p1 node with
            | none => none
            | some (p2, _, alloc_status.ALLOC_FAIL) => some (p2, alloc_status.ALLOC_FAIL)
            | some (p2, node2, _) =>
              match p2.node_heap[node2]? with
              | none => none
              | some n2 =>
                match _mem_add_to_gap_ix p2 n2.size node2 with
                | none => none
                | some (p3, _) => some (p3, alloc_status.ALLOC_OK)

/-! ## The pool store -/

/-- The static variables `pool_store`, `pool_store_size` and `pool_store_capacity`.  The
store is `none` when the pointer is `NULL`; a slot holds the pool manager it points to, or
`none` for a `NULL` slot.  A pool handle (`pool_pt`) is the index of the slot that points
to its manager. -/
structure mem_store where
  pool_store : Option (List (Option pool_mgr_t))
  pool_store_size : Nat
  pool_store_capacity : Nat
deriving DecidableEq, Repr

/-- The static variables as initialised at lines 65-67. -/
def mem_store_start : mem_store := ⟨none, 0, 0⟩

/-- Function `mem_init` (lines 96-110). -/
def mem_init (s : mem_store) : mem_store × alloc_status :=
  match s.pool_store with
  | none =>
    ({ pool_store := some (List.replicate MEM_POOL_STORE_INIT_CAPACITY none)
       pool_store_size := 0
       pool_store_capacity := MEM_POOL_STORE_INIT_CAPACITY }, alloc_status.ALLOC_OK)
  | some _ => (s, alloc_status.ALLOC_CALLED_AGAIN)

/-- Function `mem_free` (lines 115-136). -/
def mem_free (s : mem_store) : Option (mem_store × alloc_status) :=
  match s.pool_store with
  | none => some (s, alloc_status.ALLOC_CALLED_AGAIN)
  | some store =>
    match scan_first (fun i => (store[i]?).map (fun x => x.isSome)) s.pool_store_size 0 with
    | none => none
    | some (some _) => some (s, alloc_status.ALLOC_FAIL)
    | some none => some (⟨none, 0, 0⟩, alloc_status.ALLOC_OK)

/-- Function `_mem_resize_pool_store` (lines 542-556) on a store that is not `NULL`: the array is
doubled when more than three quarters of it are filled; the slots added hold `NULL`. -/
def _mem_resize_pool_store (s : mem_store) (store : List (Option pool_mgr_t)) : mem_store :=
  if 4 * s.pool_store_size > 3 * s.pool_store_capacity then
    { s with
      pool_store := some ((store ++ List.replicate (s.pool_store_capacity * 2) none).take
        (s.pool_store_capacity * 2))
      pool_store_capacity := s.pool_store_capacity * 2 }
  else s

/-- Function `mem_pool_open` (lines 143-219).  The result carries the handle of the new pool, `none`
for `NULL`. -/
def mem_pool_open (s : mem_store) (size : Nat) (policy : alloc_policy) :
    Option (mem_store × Option Nat) :=
  match s.pool_store with
  | none => some (s, none)
  | some store =>
    match (_mem_resize_pool_store s store).pool_store with
    | none => none
    | some store1 =>
      match set? store1 (_mem_resize_pool_store s store).pool_store_size
          (some (pool_mgr_open size policy)) with
      | none => none
      | some store2 =>
        some ({ _mem_resize_pool_store s store with
                pool_store := some store2
                pool_store_size := (_mem_resize_pool_store s store).pool_store_size + 1 },
          some (_mem_resize_pool_store s store).pool_store_size)

/-- The tests of lines 236-244 of `mem_pool_close` on the manager of the pool.  In C the
operator `!` binds tighter than `==`, so `!pool->num_gaps == 1` is `(!num_gaps) == 1` and
`!pool->num_allocs == 0` is `(!num_allocs) == 0`. -/
def mem_pool_close_check (mgr : pool_mgr_t) : alloc_status :=
  if c_not mgr.num_gaps = 1 then alloc_status.ALLOC_NOT_FREED
  else if c_not mgr.num_allocs = 0 then alloc_status.ALLOC_NOT_FREED
  else alloc_status.ALLOC_OK

/-- Function `mem_pool_close` (lines 227-269).  When the tests pass, the arena, the node heap, the gap
index and the manager are released and the slot of the store that points to the manager is
set to `NULL`. -/
def mem_pool_close (s : mem_store) (pool : Option Nat) : Option (mem_store × alloc_status) :=
  match pool with
  | none => some (s, alloc_status.ALLOC_NOT_FREED)
  | some i =>
    match s.pool_store with
    | none => none
    | some store =>
      match store[i]? with
      | some (some mgr) =>
        match mem_pool_close_check mgr with
        | alloc_status.ALLOC_OK =>
          if i < s.pool_store_capacity then
            some ({ s with pool_store := some (store.set i none) }, alloc_status.ALLOC_OK)
          else some (s, alloc_status.ALLOC_OK)
        | st => some (s, st)
      | _ => none

/-! ## Inspection -/

/-- Modelled from the spec: the record `pool_segment_t` of `mem_pool.h` that
`mem_inspect_pool` fills, by the fields the source writes: `size` and `allocated`. -/
structure pool_segment_t where
  size : Nat
  allocated : Nat
deriving DecidableEq, Repr

/-- The loop of `mem_inspect_pool` (lines 518-525), entered at the node `node` with
`segs_count = k` and the array `pool_segs`.  Each pass stores into `pool_segs[segs_count]`,
which is undefined outside the array; `room` is the number of elements of the array from
index `segs_count` on, so with no room left a further pass has no defined behaviour. -/
def mem_inspect_pool_loop (heap : List node_t) :
    Nat → Option Nat → Nat → List pool_segment_t → Option (List pool_segment_t)
  | _, none, _, pool_segs => some pool_segs
  | 0, some _, _, _ => none
  | room + 1, some i, k, pool_segs =>
    match heap[i]? with
    | none => none
    | some n =>
      match set? pool_segs k ⟨n.size, n.allocated⟩ with
      | none => none
      | some pool_segs1 => mem_inspect_pool_loop heap room n.next (k + 1) pool_segs1

/-- Function `mem_inspect_pool` (lines 499-530): the array of `used_nodes` zeroed records that
`calloc` returns is filled along the list from `node_heap[0]`; the result is the pair of the
values stored through `segments` and `num_segments`.  The function stores nothing in the
pool. -/
def mem_inspect_pool (p : pool_mgr_t) : Option (List pool_segment_t × Nat) :=
  match mem_inspect_pool_loop p.node_heap p.used_nodes (some 0) 0
      (List.replicate p.used_nodes ⟨0, 0⟩) with
  | none => none
  | some pool_segs => some (pool_segs, p.used_nodes)

/-! ## Calls through a pool handle -/

/-- The pool manager that the pool handle `pool` points to, when it points to one. -/
def store_mgr (s : mem_store) (pool : Nat) : Option pool_mgr_t :=
  match s.pool_store with
  | none => none
  | some store =>
    match store[pool]? with
    | some (some mgr) => some mgr
    | _ => none

/-- The store after a call has changed the manager behind the handle `pool` in place, into
`mgr`: `mem_new_alloc` and `mem_del_alloc` work on the manager that the handle points to. -/
def store_with (s : mem_store) (pool : Nat) (mgr : pool_mgr_t) : mem_store :=
  { s with pool_store := s.pool_store.map (fun store => store.set pool (some mgr)) }

/-! ## Representation predicates -/

/-- An entry whose node pointer can be dereferenced in the node heap. -/
def GapValid (heap : List node_t) (e : gap_t) : Prop :=
  ∃ s n, e.node = some s ∧ heap[s]? = some n

/-- The gap index of `p` holds the entries `fl` in some order in its first `num_gaps` places
and zeroed entries behind them, in a storage of 40 entries. -/
def GapIx (p : pool_mgr_t) (fl : List gap_t) : Prop :=
  ∃ entries, p.gap_ix = entries ++ List.replicate (40 - entries.length) gap_zero ∧
    entries.length = p.num_gaps ∧ entries.Perm fl ∧ p.gap_ix_capacity = 40 ∧ p.num_gaps ≤ 31

/-- A segment of the arena: the node heap slot that describes it, its start offset, its size
and whether it is allocated. -/
structure Seg where
  slot : Nat
  start : Nat
  size : Nat
  alloc : Bool
deriving DecidableEq, Repr

/-- The node record of a segment that is linked between `prev` and `next`. -/
def Seg.node (g : Seg) (prev next : Option Nat) : node_t :=
  ⟨g.size, some g.start, 1, if g.alloc then 1 else 0, next, prev⟩

/-- The slot of the first segment of a list, `d` when the list is empty. -/
def headSlot : List Seg → Option Nat → Option Nat
  | [], d => d
  | g :: _, _ => some g.slot

/-- The slot of the last segment of a list, `d` when the list is empty. -/
def lastSlot : List Seg → Option Nat → Option Nat
  | [], d => d
  | g :: r, _ => lastSlot r (some g.slot)

/-- The node heap links the segments of the list in order: the first has `prev` as its
previous pointer, the last has `nxt` as its next pointer. -/
def Chain (heap : List node_t) : Option Nat → List Seg → Option Nat → Prop
  | _, [], _ => True
  | prev, g :: rest, nxt =>
    heap[g.slot]? = some (g.node prev (headSlot rest nxt)) ∧ Chain heap (some g.slot) rest nxt

/-- The segments of the list are adjacent and cover the offsets from `st` to `en`. -/
def Contig : Nat → List Seg → Nat → Prop
  | st, [], en => st = en
  | st, g :: rest, en => g.start = st ∧ Contig (st + g.size) rest en

/-- The gap index entries of the free segments of a list. -/
def free_entries (segs : List Seg) : List gap_t :=
  (segs.filter (fun g => !g.alloc)).map (fun g => ⟨g.size, some g.slot⟩)

/-- The node heap represents the segment list `segs`: slot 0 is the head, the used slots are
exactly the slots of the list, linked in order and covering `[0, total_size)`. -/
structure HeapOk (heap : List node_t) (total_nodes used_nodes total_size : Nat)
    (segs : List Seg) : Prop where
  heap_len : heap.length = total_nodes
  head : headSlot segs none = some 0
  chain : Chain heap none segs none
  nodup : (segs.map Seg.slot).Nodup
  unused : ∀ i n, heap[i]? = some n → i ∉ segs.map Seg.slot → n.used = 0
  contig : Contig 0 segs total_size
  used_eq : used_nodes = segs.length

/-- What `mem_new_alloc_commit` establishes when it is entered with a free segment `N` of a
represented pool: the call returns the handle of `N` and the pool represents the list in
which `N` is allocated with the requested size, followed by the free remainder if any. -/
def AllocPost (p p2 : pool_mgr_t) (size : Nat) (pre post : List Seg) (N : Seg)
    (segs2 : List Seg) : Prop :=
  HeapOk p2.node_heap p2.total_nodes p2.used_nodes p2.total_size segs2 ∧
    GapIx p2 (free_entries segs2) ∧
    p2.num_allocs = p.num_allocs + 1 ∧ p2.alloc_size = p.alloc_size + size ∧
    p2.policy = p.policy ∧ p2.total_size = p.total_size ∧ p2.total_nodes = p.total_nodes ∧
    ((N.size = size ∧ segs2 = pre ++ ⟨N.slot, N.start, size, true⟩ :: post ∧
        p2.num_gaps + 1 = p.num_gaps) ∨
      (size < N.size ∧ p2.num_gaps = p.num_gaps ∧
        ∃ u, segs2 = pre ++ ⟨N.slot, N.start, size, true⟩ ::
          ⟨u, N.start + size, N.size - size, false⟩ :: post))

/-- The segment being freed and the segments behind it after the forward merge of
`mem_del_alloc`: a free successor is absorbed. -/
def merge_next_segs (A : Seg) (post : List Seg) : Seg × List Seg :=
  match post with
  | [] => (A, [])
  | F :: rest => if F.alloc then (A, F :: rest) else ({ A with size := A.size + F.size }, rest)

/-- The segments before the segment being freed and the segment that stays after the backward
merge of `mem_del_alloc`: a free predecessor absorbs the segment. -/
def merge_prev_segs (pre : List Seg) (A : Seg) : List Seg × Seg :=
  match pre.getLast? with
  | none => (pre, A)
  | some F => if F.alloc then (pre, A) else (pre.dropLast, { F with size := F.size + A.size })

/-- The segment list after `mem_del_alloc` frees the allocated segment `A` that stands
between `pre` and `post`: `A` becomes free and absorbs a free successor, then a free
predecessor absorbs the result. -/
def del_segs (pre : List Seg) (A : Seg) (post : List Seg) : List Seg :=
  (merge_prev_segs pre (merge_next_segs { A with alloc := false } post).1).1 ++
    (merge_prev_segs pre (merge_next_segs { A with alloc := false } post).1).2 ::
    (merge_next_segs { A with alloc := false } post).2

/-- The invariant of a pool: its node heap represents the segment list `segs`, its gap
index holds exactly the entries of the free segments, its counters count the allocated
segments, no two neighbours are both free, the node heap has room, and the segments have
positive sizes (or the pool is the single empty segment of an arena of size 0). -/
structure Inv (p : pool_mgr_t) (segs : List Seg) : Prop where
  heap : HeapOk p.node_heap p.total_nodes p.used_nodes p.total_size segs
  gap : GapIx p (free_entries segs)
  num_allocs : p.num_allocs = (segs.filter (fun g => g.alloc)).length
  alloc_size : p.alloc_size = ((segs.filter (fun g => g.alloc)).map Seg.size).sum
  no_adj : List.Chain' (fun a b => a.alloc = true ∨ b.alloc = true) segs
  cap : 4 * p.used_nodes ≤ 3 * p.total_nodes + 4
  total_ge : 40 ≤ p.total_nodes
  pos : (∀ g ∈ segs, 0 < g.size) ∨ (∃ s, segs = [⟨s, 0, 0, false⟩])

/-- The pools that `mem_pool_open` followed by calls of `mem_new_alloc` with positive sizes
and calls of `mem_del_alloc` on handles of allocated nodes produce, as long as every
`realloc` of the node heap extends the array in place and adds zeroed slots
(`realloc_in_place`).  These are in particular the pools of the runs in which the node heap
never has to grow, where `mem_new_alloc` does not depend on the outcome of `realloc`.  A call
belongs to a run when it is defined (its model returns `some`). -/
inductive Reachable : pool_mgr_t → Prop where
  | opened (size : Nat) (policy : alloc_policy) : Reachable (pool_mgr_open size policy)
  | alloc {p p2 : pool_mgr_t} {size : Nat} {r : Option Nat} :
      Reachable p → 0 < size → mem_new_alloc realloc_in_place p size = some (p2, r) →
      Reachable p2
  | del {p p2 : pool_mgr_t} {h : Nat} {n : node_t} {st : alloc_status} :
      Reachable p → p.node_heap[h]? = some n → n.used = 1 → n.allocated = 1 →
      mem_del_alloc p (some h) = some (p2, st) → Reachable p2

/-- The invariant of a pool without the condition on the sizes of its segments: the part
that also holds when `mem_new_alloc` has been called with size 0. -/
structure InvW (p : pool_mgr_t) (segs : List Seg) : Prop where
  heap : HeapOk p.node_heap p.total_nodes p.used_nodes p.total_size segs
  gap : GapIx p (free_entries segs)
  num_allocs : p.num_allocs = (segs.filter (fun g => g.alloc)).length
  alloc_size : p.alloc_size = ((segs.filter (fun g => g.alloc)).map Seg.size).sum
  no_adj : List.Chain' (fun a b => a.alloc = true ∨ b.alloc = true) segs
  cap : 4 * p.used_nodes ≤ 3 * p.total_nodes + 4
  total_ge : 40 ≤ p.total_nodes

/-- The pools that `mem_pool_open` followed by calls of `mem_new_alloc` with any size, zero
included, and calls of `mem_del_alloc` on handles of allocated nodes produce, as long as
every `realloc` of the node heap extends the array in place and adds zeroed slots
(`realloc_in_place`).  A call belongs to a run when it is defined (its model returns
`some`). -/
inductive ReachableAnySize : pool_mgr_t → Prop where
  | opened (size : Nat) (policy : alloc_policy) : ReachableAnySize (pool_mgr_open size policy)
  | alloc {p p2 : pool_mgr_t} {size : Nat} {r : Option Nat} :
      ReachableAnySize p → mem_new_alloc realloc_in_place p size = some (p2, r) →
      ReachableAnySize p2
  | del {p p2 : pool_mgr_t} {h : Nat} {n : node_t} {st : alloc_status} :
      ReachableAnySize p → p.node_heap[h]? = some n → n.used = 1 → n.allocated = 1 →
      mem_del_alloc p (some h) = some (p2, st) → ReachableAnySize p2

/-- A call of the allocation interface on one pool. -/
inductive pool_op where
  | new_alloc (size : Nat)
  | del_alloc (handle : Nat)
deriving DecidableEq, Repr

/-- The pool after a sequence of calls, each of which must be defined; `new_alloc` must ask
for a positive size and `del_alloc` must pass the handle of a used, allocated node.  Where a
call has to grow the node heap, `realloc` extends the array in place and adds zeroed slots
(`realloc_in_place`); a run with other outcomes is a `run_calls`. -/
def run_ops : pool_mgr_t → List pool_op → Option pool_mgr_t
  | p, [] => some p
  | p, pool_op.new_alloc size :: rest =>
    if 0 < size then
      match mem_new_alloc realloc_in_place p size with
      | some (p2, _) => run_ops p2 rest
      | none => none
    else none
  | p, pool_op.del_alloc h :: rest =>
    match p.node_heap[h]? with
    | some n =>
      if n.used = 1 ∧ n.allocated = 1 then
        match mem_del_alloc p (some h) with
        | some (p2, _) => run_ops p2 rest
        | none => none
      else none
    | none => none

/-- The traversal `while (node != NULL) { ...; node = node->next; }` of lines 518-525 from
the node `cur`: the nodes visited, in order.  The fuel bounds the number of nodes visited;
the walk is undefined when it runs out or when a pointer leaves the node heap. -/
def pool_walk (heap : List node_t) : Nat → Option Nat → Option (List node_t)
  | _, none => some []
  | 0, some _ => none
  | fuel + 1, some i =>
    match heap[i]? with
    | none => none
    | some n =>
      match pool_walk heap fuel n.next with
      | none => none
      | some l => some (n :: l)

/-- The traversal of the linked list from the node `cur`, by the slots it visits, in order.
The fuel bounds the number of nodes visited; the walk is undefined when it runs out or
when a pointer leaves the node heap. -/
def pool_walk_slots (heap : List node_t) : Nat → Option Nat → Option (List Nat)
  | _, none => some []
  | 0, some _ => none
  | fuel + 1, some i =>
    match heap[i]? with
    | none => none
    | some n =>
      match pool_walk_slots heap fuel n.next with
      | none => none
      | some l => some (i :: l)

/-- The linked segment sequence of a pool: the walk from the head `node_heap[0]`.  A walk
over more than `total_nodes` nodes would visit a slot twice. -/
def pool_segments (p : pool_mgr_t) : Option (List node_t) :=
  pool_walk p.node_heap p.total_nodes (some 0)

/-- The node records of a linked segment list, in order. -/
def seg_nodes : Option Nat → List Seg → List node_t
  | _, [] => []
  | prev, g :: rest => g.node prev (headSlot rest none) :: seg_nodes (some g.slot) rest

/-- The pool after a run of calls from `mem_pool_open`, for runs that are defined. -/
def sample_pool (size : Nat) (policy : alloc_policy) (ops : List pool_op) : pool_mgr_t :=
  (run_ops (pool_mgr_open size policy) ops).getD (pool_mgr_open size policy)

/-- The pool after a sequence of calls in which `new_alloc` may ask for any size, zero
included; each call must be defined and `del_alloc` must pass the handle of a used,
allocated node.  Where a call has to grow the node heap, `realloc` extends the array in
place and adds zeroed slots (`realloc_in_place`). -/
def run_ops_any_size : pool_mgr_t → List pool_op → Option pool_mgr_t
  | p, [] => some p
  | p, pool_op.new_alloc size :: rest =>
    match mem_new_alloc realloc_in_place p size with
    | some (p2, _) => run_ops_any_size p2 rest
    | none => none
  | p, pool_op.del_alloc h :: rest =>
    match p.node_heap[h]? with
    | some n =>
      if n.used = 1 ∧ n.allocated = 1 then
        match mem_del_alloc p (some h) with
        | some (p2, _) => run_ops_any_size p2 rest
        | none => none
      else none
    | none => none

/-- A call of the allocation interface on one pool, with the outcome of the `realloc` call of
line 563 for the case that the call has to grow the node heap. -/
inductive pool_call where
  | new_alloc (r : realloc_t) (size : Nat)
  | del_alloc (handle : Nat)
deriving DecidableEq, Repr

/-- The pool after a sequence of calls, each of which must be defined.  A handle is passed
as the address it is at the time of the call, counted from the start of the node heap. -/
def run_calls : pool_mgr_t → List pool_call → Option pool_mgr_t
  | p, [] => some p
  | p, pool_call.new_alloc r size :: rest =>
    match mem_new_alloc r p size with
    | some (p2, _) => run_calls p2 rest
    | none => none
  | p, pool_call.del_alloc h :: rest =>
    match mem_del_alloc p (some h) with
    | some (p2, _) => run_calls p2 rest
    | none => none

/-- The start address of the node of a gap index entry, `none` when the entry has no node
in the node heap. -/
def gap_mem (heap : List node_t) (e : gap_t) : Option Nat :=
  match e.node with
  | none => none
  | some i =>
    match heap[i]? with
    | none => none
    | some n => n.mem

/-- The order of the gap index on two entries: ascending by size, and by the start address
of the node among entries of one size. -/
def gap_le (heap : List node_t) (a b : gap_t) : Bool :=
  decide (a.size < b.size) ||
    (decide (a.size = b.size) && !mem_lt (gap_mem heap b) (gap_mem heap a))

/-- A list of gap index entries is in ascending order: each entry stands before its
successor in the order of the index. -/
def gap_sorted (heap : List node_t) : List gap_t → Bool
  | [] => true
  | [_] => true
  | a :: b :: rest => gap_le heap a b && gap_sorted heap (b :: rest)

/-- A run that fills the gap index of a pool up to the fill factor: 62 allocations of one
byte, which take the node heap slots 0 to 61 in address order, then the release of the
handles 0, 2, ..., 58.  The pool then has 31 gaps.  The node heap grows twice in this run;
as a `run_ops` it is the run in which `realloc` extends the array in place both times. -/
def gap31_ops : List pool_op :=
  List.replicate 62 (pool_op.new_alloc 1) ++
    (List.range 30).map (fun i => pool_op.del_alloc (2 * i))

/-- The capacity of the node heap after `k` allocations of the run `gap31_ops`. -/
def fill_capacity (k : Nat) : Nat := if k ≤ 30 then 40 else if k ≤ 60 then 80 else 160

/-- The pool after the first `k` allocations of the run `gap31_ops`, written out: the nodes
0 to `k - 1` are allocated segments of one byte in address order and node `k` is the free
remainder.  The steps of the run are checked against these states below. -/
def fill_state (k : Nat) : pool_mgr_t :=
  { policy := alloc_policy.FIRST_FIT
    total_size := 1000
    alloc_size := k
    num_allocs := k
    num_gaps := 1
    node_heap :=
      (List.range k).map (fun i =>
        ⟨1, some i, 1, 1, some (i + 1), if i = 0 then none else some (i - 1)⟩) ++
      ⟨1000 - k, some k, 1, 0, none, if k = 0 then none else some (k - 1)⟩ ::
        List.replicate (fill_capacity k - k - 1) node_zero
    total_nodes := fill_capacity k
    used_nodes := k + 1
    gap_ix := ⟨1000 - k, some k⟩ :: List.replicate 39 gap_zero
    gap_ix_capacity := 40 }

/-- The pool after the 62 allocations and the first `j` releases of the run `gap31_ops`,
written out: the nodes 0, 2, ..., `2 * j - 2` are free, and the gap index holds their
entries in address order before the entry of the remainder, node 62. -/
def free_state (j : Nat) : pool_mgr_t :=
  { policy := alloc_policy.FIRST_FIT
    total_size := 1000
    alloc_size := 62 - j
    num_allocs := 62 - j
    num_gaps := j + 1
    node_heap :=
      (List.range 62).map (fun i =>
        ⟨1, some i, 1, if i % 2 = 0 ∧ i < 2 * j then 0 else 1, some (i + 1),
          if i = 0 then none else some (i - 1)⟩) ++
      ⟨938, some 62, 1, 0, none, some 61⟩ :: List.replicate 97 node_zero
    total_nodes := 160
    used_nodes := 63
    gap_ix :=
      (List.range j).map (fun i => ⟨1, some (2 * i)⟩) ++
        ⟨938, some 62⟩ :: List.replicate (39 - j) gap_zero
    gap_ix_capacity := 40 }

/-- The pool after `k` allocations of one byte in a fresh pool of 1000 bytes, for `k` from 31
to 39, when the `realloc` of the 31st allocation has moved the node heap to a place right
below the old one and the 40 added slots hold `fill`, written out: the nodes 0 to 29 hold
the addresses that their neighbours had in the freed array (`i + 1 + 80` and `i - 1 + 80`),
node 30 holds the old address of node 29 as its `prev`, the nodes from 30 on are linked
inside the new array, and node `k` is the free remainder.  The steps of the run are checked
against these states below. -/
def moved_state (fill : node_t) (k : Nat) : pool_mgr_t :=
  { policy := alloc_policy.FIRST_FIT
    total_size := 1000
    alloc_size := k
    num_allocs := k
    num_gaps := 1
    node_heap :=
      (List.range 30).map (fun i =>
        ⟨1, some i, 1, 1, some (i + 81), if i = 0 then none else some (i + 79)⟩) ++
      ⟨1, some 30, 1, 1, some 31, some 109⟩ ::
        ((List.range' 31 (k - 31)).map (fun i =>
          ⟨1, some i, 1, 1, some (i + 1), some (i - 1)⟩) ++
        ⟨1000 - k, some k, 1, 0, none, some (k - 1)⟩ ::
          (List.replicate (39 - k) node_zero ++ List.replicate 40 fill))
    total_nodes := 80
    used_nodes := k + 1
    gap_ix := ⟨1000 - k, some k⟩ :: List.replicate 39 gap_zero
    gap_ix_capacity := 40 }

/-- The allocations number 32 to 39 of that run, each from its written-out state, give the
next written-out state and the handle of the node they allocate. -/
def moved_steps_ok (r : realloc_t) (fill : node_t) : Bool :=
  (List.range' 31 8).all (fun k =>
    decide (mem_new_alloc r (moved_state fill k) 1 = some (moved_state fill (k + 1), some k)))

/-- The allocations number `a` to `a + n - 1` of the run, each from its written-out state,
give the next written-out state and the handle of the node they allocate. -/
def fill_steps_ok (a n : Nat) : Bool :=
  (List.range' a n).all (fun k =>
    decide (mem_new_alloc realloc_in_place (fill_state k) 1 = some (fill_state (k + 1), some k)))

/-- The releases number `a` to `a + n - 1` of the run, each from its written-out state, are
releases of a used, allocated node and give the next written-out state. -/
def free_steps_ok (a n : Nat) : Bool :=
  (List.range' a n).all (fun j =>
    decide ((free_state j).node_heap[2 * j]? =
        some ⟨1, some (2 * j), 1, 1, some (2 * j + 1),
          if j = 0 then none else some (2 * j - 1)⟩ ∧
      mem_del_alloc (free_state j) (some (2 * j)) =
        some (free_state (j + 1), alloc_status.ALLOC_OK)))

/-! ## Loops and array lemmas -/

theorem scan_first_found (test : Nat → Option Bool) :
    ∀ (n lo k : Nat), lo ≤ k → k < lo + n → test k = some true →
      (∀ j, lo ≤ j → j < k → test j = some false) → scan_first test n lo = some (some k) := by
  intro n
  induction n with
  | zero => intro lo k h1 h2; omega
  | succ n ih =>
    intro lo k h1 h2 hk hlt
    unfold scan_first
    by_cases e : lo = k
    · subst e; simp [hk]
    · have h0 := hlt lo (le_refl _) (by omega)
      simp only [h0]
      exact ih (lo + 1) k (by omega) (by omega) hk (fun j a b => hlt j (by omega) b)

theorem scan_first_none (test : Nat → Option Bool) :
    ∀ (n lo : Nat), (∀ j, lo ≤ j → j < lo + n → test j = some false) →
      scan_first test n lo = some none := by
  intro n
  induction n with
  | zero => intro lo _; rfl
  | succ n ih =>
    intro lo h
    unfold scan_first
    simp only [h lo (le_refl _) (by omega)]
    exact ih (lo + 1) (fun j a b => h j (by omega) (by omega))

theorem scan_first_some_spec (test : Nat → Option Bool) :
    ∀ (n lo k : Nat), scan_first test n lo = some (some k) →
      lo ≤ k ∧ k < lo + n ∧ test k = some true ∧ ∀ j, lo ≤ j → j < k → test j = some false := by
  intro n
  induction n with
  | zero => intro lo k h; simp [scan_first] at h
  | succ n ih =>
    intro lo k h
    unfold scan_first at h
    cases ht : test lo with
    | none => simp [ht] at h
    | some b =>
      cases b with
      | true =>
        simp [ht] at h
        subst h
        exact ⟨le_refl _, by omega, ht, fun j a b => by omega⟩
      | false =>
        simp only [ht] at h
        obtain ⟨a, b, c, d⟩ := ih (lo + 1) k h
        refine ⟨by omega, by omega, c, fun j hj1 hj2 => ?_⟩
        by_cases e : j = lo
        · subst e; exact ht
        · exact d j (by omega) hj2

theorem scan_first_none_spec (test : Nat → Option Bool) :
    ∀ (n lo : Nat), scan_first test n lo = some none →
      ∀ j, lo ≤ j → j < lo + n → test j = some false := by
  intro n
  induction n with
  | zero => intro lo _ j h1 h2; omega
  | succ n ih =>
    intro lo h j hj1 hj2
    unfold scan_first at h
    cases ht : test lo with
    | none => simp [ht] at h
    | some b =>
      cases b with
      | true => simp [ht] at h
      | false =>
        simp only [ht] at h
        by_cases e : j = lo
        · subst e; exact ht
        · exact ih (lo + 1) h j (by omega) (by omega)

theorem scan_first_defined (test : Nat → Option Bool) :
    ∀ (n lo : Nat), (∀ j, lo ≤ j → j < lo + n → ∃ b, test j = some b) →
      ∃ r, scan_first test n lo = some r := by
  intro n
  induction n with
  | zero => intro lo _; exact ⟨none, rfl⟩
  | succ n ih =>
    intro lo h
    unfold scan_first
    obtain ⟨b, hb⟩ := h lo (le_refl _) (by omega)
    cases b with
    | true => exact ⟨some lo, by simp [hb]⟩
    | false =>
      simp only [hb]
      exact ih (lo + 1) (fun j a b => h j (by omega) (by omega))

theorem getElem?_append_cons_length {α : Type} (a : List α) (x : α) (t : List α) :
    (a ++ x :: t)[a.length]? = some x := by
  rw [List.getElem?_append_right (le_refl _)]; simp

theorem getElem?_append_cons_succ {α : Type} (a : List α) (x y : α) (t : List α) :
    (a ++ x :: y :: t)[a.length + 1]? = some y := by
  rw [List.getElem?_append_right (by omega)]; simp

theorem set_append_cons_length {α : Type} (a : List α) (x v : α) (t : List α) :
    (a ++ x :: t).set a.length v = a ++ v :: t := by
  simp [List.set_append_right]

theorem set_append_cons_succ {α : Type} (a : List α) (x y v : α) (t : List α) :
    (a ++ x :: y :: t).set (a.length + 1) v = a ++ x :: v :: t := by
  simp [List.set_append_right]

theorem shift_loop_eq : ∀ (l2 l1 : List gap_t) (e z : gap_t),
    shift_loop (l2.length + 1) l1.length (l1 ++ e :: (l2 ++ [z])) = some (l1 ++ (l2 ++ [z, z])) := by
  intro l2
  induction l2 with
  | nil =>
    intro l1 e z
    simp only [shift_loop, List.length_nil, List.nil_append, getElem?_append_cons_succ, set?,
      List.length_append, List.length_cons, set_append_cons_length]
    rw [if_pos (by omega)]
  | cons x l2 ih =>
    intro l1 e z
    have h := ih (l1 ++ [x]) x z
    simp only [List.length_append, List.length_singleton, List.append_assoc,
      List.singleton_append] at h
    unfold shift_loop
    simp only [List.length_cons, List.cons_append, getElem?_append_cons_succ, set?,
      List.length_append, set_append_cons_length]
    rw [if_pos (by omega)]
    simpa using h

/-! ## The gap index as a list of live entries followed by zeroed entries -/

theorem GapIx.perm {p : pool_mgr_t} {fl fl2 : List gap_t} (h : GapIx p fl) (hp : fl.Perm fl2) :
    GapIx p fl2 := by
  obtain ⟨entries, h1, h2, h3, h4⟩ := h
  exact ⟨entries, h1, h2, h3.trans hp, h4⟩

theorem sort_loop_perm (heap : List node_t) : ∀ (a : List gap_t) (x : gap_t) (t : List gap_t),
    (∀ e ∈ a ++ [x], GapValid heap e) →
    ∃ l, _mem_sort_gap_ix_loop heap a.length (a ++ x :: t) = some (l ++ t) ∧
      l.Perm (a ++ [x]) ∧ l.length = a.length + 1 := by
  intro a
  induction a using List.reverseRecOn with
  | nil =>
    intro x t _
    exact ⟨[x], by simp [_mem_sort_gap_ix_loop], List.Perm.refl _, rfl⟩
  | append_singleton a w ih =>
    intro x t hv
    have hvx : GapValid heap x := hv x (by simp)
    have hvw : GapValid heap w := hv w (by simp)
    have hva : ∀ e ∈ a, GapValid heap e := fun e he => hv e (by simp [he])
    obtain ⟨l1, e1, q1, n1⟩ := ih x (w :: t) (by
      intro e he
      rcases List.mem_append.1 he with h | h
      · exact hva e h
      · simp at h; subst h; exact hvx)
    obtain ⟨l2, e2, q2, n2⟩ := ih w (x :: t) (by
      intro e he
      rcases List.mem_append.1 he with h | h
      · exact hva e h
      · simp at h; subst h; exact hvw)
    have swap_res : ∃ l, _mem_sort_gap_ix_loop heap a.length (a ++ x :: w :: t) = some (l ++ t) ∧
        l.Perm (a ++ [w, x]) ∧ l.length = a.length + 1 + 1 := by
      refine ⟨l1 ++ [w], by simpa using e1, ?_, by simp [n1]⟩
      have : (a ++ [x] ++ [w]).Perm (a ++ [w, x]) := by
        simp only [List.append_assoc]
        exact List.Perm.append_left a (List.Perm.swap _ _ _)
      exact (List.Perm.append_right [w] q1).trans this
    have keep_res : ∃ l, _mem_sort_gap_ix_loop heap a.length (a ++ w :: x :: t) = some (l ++ t) ∧
        l.Perm (a ++ [w, x]) ∧ l.length = a.length + 1 + 1 := by
      refine ⟨l2 ++ [x], by simpa using e2, ?_, by simp [n2]⟩
      have := List.Perm.append_right [x] q2
      simpa using this
    obtain ⟨sx, nx, hsx, hnx⟩ := hvx
    obtain ⟨sw, nw, hsw, hnw⟩ := hvw
    have hlen : (a ++ [w]).length = a.length + 1 := by simp
    rw [hlen]
    unfold _mem_sort_gap_ix_loop
    simp only [List.append_assoc, List.singleton_append, getElem?_append_cons_succ,
      getElem?_append_cons_length, set_append_cons_length, set_append_cons_succ]
    by_cases c1 : size_dif x.size w.size < 0
    · simp only [c1, if_true]; exact swap_res
    · simp only [c1, if_false]
      by_cases c2 : size_dif x.size w.size = 0
      · simp only [c2, if_true, hsx, hsw, hnx, hnw]
        by_cases c3 : mem_lt nx.mem nw.mem = true
        · simp only [c3, if_true]; exact swap_res
        · simp only [c3]; exact keep_res
      · simp only [c2, if_false]; exact keep_res

theorem exists_first_split {α : Type} (P : α → Prop) :
    ∀ (l : List α), (∃ x ∈ l, P x) →
      ∃ l1 e l2, l = l1 ++ e :: l2 ∧ P e ∧ ∀ x ∈ l1, ¬ P x := by
  intro l
  induction l with
  | nil => intro h; obtain ⟨x, hx, _⟩ := h; simp at hx
  | cons a l ih =>
    intro h
    by_cases ha : P a
    · exact ⟨[], a, l, rfl, ha, by simp⟩
    · obtain ⟨x, hx, hpx⟩ := h
      have hxl : x ∈ l := by
        rcases List.mem_cons.1 hx with e | e
        · subst e; exact absurd hpx ha
        · exact e
      obtain ⟨l1, e, l2, h1, h2, h3⟩ := ih ⟨x, hxl, hpx⟩
      refine ⟨a :: l1, e, l2, by simp [h1], h2, ?_⟩
      intro y hy
      rcases List.mem_cons.1 hy with e | e
      · subst e; exact ha
      · exact h3 y e

theorem remove_eq (p : pool_mgr_t) (sz nd : Nat) (l1 l2 : List gap_t) (e : gap_t) (k : Nat)
    (hg : p.gap_ix = l1 ++ e :: (l2 ++ List.replicate (k + 1) gap_zero))
    (hc : p.gap_ix_capacity = p.gap_ix.length)
    (hn : p.num_gaps = l1.length + 1 + l2.length)
    (he : e.node = some nd) (hl1 : ∀ x ∈ l1, x.node ≠ some nd) :
    _mem_remove_from_gap_ix p sz nd =
      some ({ p with gap_ix := l1 ++ (l2 ++ List.replicate (k + 2) gap_zero),
                     num_gaps := l1.length + l2.length }, alloc_status.ALLOC_OK) := by
  have hcap : p.gap_ix_capacity = l1.length + 1 + l2.length + (k + 1) := by
    rw [hc, hg]; simp; omega
  have hscan : scan_first (fun i => (p.gap_ix[i]?).map (fun g => decide (g.node = some nd)))
      p.gap_ix_capacity 0 = some (some l1.length) := by
    apply scan_first_found
    · omega
    · omega
    · rw [hg, getElem?_append_cons_length]; simp [he]
    · intro j _ hj
      rw [hg, List.getElem?_append_left hj, List.getElem?_eq_getElem hj]
      simp [hl1 _ (List.getElem_mem hj)]
  have hshift : shift_loop (p.gap_ix_capacity - 1 - l1.length) l1.length p.gap_ix =
      some (l1 ++ ((l2 ++ List.replicate k gap_zero) ++ [gap_zero, gap_zero])) := by
    have := shift_loop_eq (l2 ++ List.replicate k gap_zero) l1 e gap_zero
    rw [hg, List.replicate_succ', ← List.append_assoc l2]
    have e2 : p.gap_ix_capacity - 1 - l1.length = (l2 ++ List.replicate k gap_zero).length + 1 := by
      rw [hcap]; simp; omega
    rw [e2]; exact this
  have hdec : dec_unsigned p.num_gaps = l1.length + l2.length := by
    unfold dec_unsigned; rw [if_neg (by omega)]; omega
  have hrep : (l2 ++ List.replicate k gap_zero) ++ [gap_zero, gap_zero] =
      l2 ++ List.replicate (k + 2) gap_zero := by
    rw [List.append_assoc]
    congr 1
    have : [gap_zero, gap_zero] = List.replicate 2 gap_zero := rfl
    rw [this, ← List.replicate_add]
  unfold _mem_remove_from_gap_ix
  have hset : set? (l1 ++ (l2 ++ List.replicate (k + 2) gap_zero)) (l1.length + l2.length) gap_zero
      = some (l1 ++ (l2 ++ List.replicate (k + 2) gap_zero)) := by
    unfold set?
    rw [if_pos (by simp)]
    have : l1 ++ (l2 ++ List.replicate (k + 2) gap_zero) =
        (l1 ++ l2) ++ gap_zero :: List.replicate (k + 1) gap_zero := by
      rw [List.append_assoc]; rfl
    rw [this]
    have hl : l1.length + l2.length = (l1 ++ l2).length := by simp
    rw [hl, set_append_cons_length]
  simp only [hscan, hshift, hdec, hrep, hset]

theorem GapIx_remove (p : pool_mgr_t) (e : gap_t) (rest : List gap_t) (sz nd : Nat)
    (h : GapIx p (e :: rest)) (he : e.node = some nd) (hr : ∀ x ∈ rest, x.node ≠ some nd) :
    ∃ g, _mem_remove_from_gap_ix p sz nd =
        some ({ p with gap_ix := g, num_gaps := p.num_gaps - 1 }, alloc_status.ALLOC_OK) ∧
      GapIx { p with gap_ix := g, num_gaps := p.num_gaps - 1 } rest ∧ 1 ≤ p.num_gaps := by
  obtain ⟨entries, h1, h2, h3, h4, h5⟩ := h
  have hmem : ∃ x ∈ entries, x.node = some nd := ⟨e, h3.symm.subset (by simp), he⟩
  obtain ⟨l1, e', l2, hsplit, he', hl1⟩ := exists_first_split (fun x => x.node = some nd) entries hmem
  have hee : e' = e := by
    have : e' ∈ e :: rest := h3.subset (by rw [hsplit]; simp)
    rcases List.mem_cons.1 this with h | h
    · exact h
    · exact absurd he' (hr _ h)
  subst hee
  have hlen : entries.length = l1.length + 1 + l2.length := by rw [hsplit]; simp; omega
  have hperm : (l1 ++ l2).Perm rest := by
    have : (e' :: (l1 ++ l2)).Perm (e' :: rest) := by
      rw [hsplit] at h3
      exact (List.perm_middle.symm).trans h3
    exact this.cons_inv
  have hk : 40 - entries.length = (39 - entries.length) + 1 := by omega
  have hgap : p.gap_ix = l1 ++ e' :: (l2 ++ List.replicate ((39 - entries.length) + 1) gap_zero) := by
    rw [h1, hk]; rw [hsplit]; simp
  have hc : p.gap_ix_capacity = p.gap_ix.length := by
    rw [h4, h1]; simp; omega
  have := remove_eq p sz nd l1 l2 e' (39 - entries.length) hgap hc (by omega) he' hl1
  have hn : l1.length + l2.length = p.num_gaps - 1 := by omega
  rw [hn] at this
  refine ⟨_, this, ⟨l1 ++ l2, ?_, ?_, hperm, h4, ?_⟩, by omega⟩
  · simp only [List.append_assoc, List.length_append]
    congr 2
    congr 1
    omega
  · simp; omega
  · simp; omega

theorem GapIx_add (p : pool_mgr_t) (fl : List gap_t) (sz nd : Nat)
    (h : GapIx p fl) (hle : p.num_gaps ≤ 30) (hv : ∀ e ∈ fl, GapValid p.node_heap e)
    (hnd : ∃ n, p.node_heap[nd]? = some n) :
    ∃ g, _mem_add_to_gap_ix p sz nd =
        some ({ p with gap_ix := g, num_gaps := p.num_gaps + 1 }, alloc_status.ALLOC_OK) ∧
      GapIx { p with gap_ix := g, num_gaps := p.num_gaps + 1 } (⟨sz, some nd⟩ :: fl) := by
  obtain ⟨entries, h1, h2, h3, h4, h5⟩ := h
  have hk : 40 - entries.length = (39 - entries.length) + 1 := by omega
  have hvalid : ∀ e ∈ entries ++ [⟨sz, some nd⟩], GapValid p.node_heap e := by
    intro e he
    rcases List.mem_append.1 he with h | h
    · exact hv e (h3.subset h)
    · simp at h; subst h
      obtain ⟨n, hn⟩ := hnd
      exact ⟨nd, n, rfl, hn⟩
  obtain ⟨l, hl, hperm, hlen⟩ := sort_loop_perm p.node_heap entries ⟨sz, some nd⟩
    (List.replicate (39 - entries.length) gap_zero) hvalid
  refine ⟨l ++ List.replicate (39 - entries.length) gap_zero, ?_, ⟨l, ?_, ?_, ?_, h4, ?_⟩⟩
  · unfold _mem_add_to_gap_ix _mem_resize_gap_ix
    rw [if_neg (by omega)]
    simp only
    have hset : set? p.gap_ix p.num_gaps ⟨sz, some nd⟩ =
        some (entries ++ ⟨sz, some nd⟩ :: List.replicate (39 - entries.length) gap_zero) := by
      unfold set?
      rw [if_pos (by rw [h1]; simp; omega), h1, hk, List.replicate_succ, ← h2,
        set_append_cons_length]
    simp only [hset]
    unfold _mem_sort_gap_ix
    simp only [Nat.add_sub_cancel, ← h2, hl]
  · simp only [hlen]
    congr 2
    omega
  · simp [hlen, h2]
  · exact hperm.trans ((List.perm_append_comm).trans (List.Perm.cons _ h3))
  · simp; omega

theorem add_undefined (p : pool_mgr_t) (sz nd : Nat) (hc : p.gap_ix_capacity = 40)
    (hn : 31 ≤ p.num_gaps) : _mem_add_to_gap_ix p sz nd = none := by
  unfold _mem_add_to_gap_ix _mem_resize_gap_ix
  rw [if_pos (by omega)]

/-! ## The linked segment sequence, abstractly -/

theorem headSlot_append (l1 l2 : List Seg) (d : Option Nat) :
    headSlot (l1 ++ l2) d = headSlot l1 (headSlot l2 d) := by
  cases l1 <;> rfl

theorem lastSlot_append (l1 l2 : List Seg) (d : Option Nat) :
    lastSlot (l1 ++ l2) d = lastSlot l2 (lastSlot l1 d) := by
  induction l1 generalizing d with
  | nil => rfl
  | cons g l1 ih => simp [lastSlot, ih]

theorem Chain_append (heap : List node_t) (l1 l2 : List Seg) (p nx : Option Nat) :
    Chain heap p (l1 ++ l2) nx ↔
      Chain heap p l1 (headSlot l2 nx) ∧ Chain heap (lastSlot l1 p) l2 nx := by
  induction l1 generalizing p with
  | nil => simp [Chain, headSlot, lastSlot]
  | cons g l1 ih =>
    simp only [List.cons_append, Chain, List.append_eq, lastSlot, headSlot_append, ih, and_assoc]

theorem Contig_append (l1 l2 : List Seg) (st en : Nat) :
    Contig st (l1 ++ l2) en ↔ ∃ mid, Contig st l1 mid ∧ Contig mid l2 en := by
  induction l1 generalizing st with
  | nil => simp [Contig]
  | cons g l1 ih =>
    simp only [List.cons_append, Contig, List.append_eq, ih]
    constructor
    · rintro ⟨h1, mid, h2, h3⟩; exact ⟨mid, ⟨h1, h2⟩, h3⟩
    · rintro ⟨mid, ⟨h1, h2⟩, h3⟩; exact ⟨h1, mid, h2, h3⟩

theorem Contig_sum : ∀ (l : List Seg) (st en : Nat), Contig st l en →
    st + (l.map Seg.size).sum = en := by
  intro l
  induction l with
  | nil => intro st en h; simpa [Contig] using h
  | cons g l ih =>
    intro st en h
    obtain ⟨_, h2⟩ := h
    have := ih _ _ h2
    simp only [List.map_cons, List.sum_cons]
    omega

theorem Chain_frame (heap heap2 : List node_t) :
    ∀ (l : List Seg) (p nx : Option Nat), (∀ g ∈ l, heap2[g.slot]? = heap[g.slot]?) →
      Chain heap p l nx → Chain heap2 p l nx := by
  intro l
  induction l with
  | nil => intro p nx _ _; trivial
  | cons g l ih =>
    intro p nx hf hc
    obtain ⟨h1, h2⟩ := hc
    refine ⟨?_, ih _ _ (fun r hr => hf r (List.mem_cons_of_mem _ hr)) h2⟩
    rw [hf g (List.mem_cons_self _ _)]; exact h1

theorem Chain_slot_lt (heap : List node_t) :
    ∀ (l : List Seg) (p nx : Option Nat), Chain heap p l nx → ∀ g ∈ l, g.slot < heap.length := by
  intro l
  induction l with
  | nil => intro p nx _ g hg; simp at hg
  | cons a l ih =>
    intro p nx hc g hg
    obtain ⟨h1, h2⟩ := hc
    rcases List.mem_cons.1 hg with e | e
    · subst e
      exact (List.getElem?_eq_some.1 h1).1
    · exact ih _ _ h2 g e

theorem Chain_used (heap : List node_t) :
    ∀ (l : List Seg) (p nx : Option Nat), Chain heap p l nx → ∀ g ∈ l,
      ∃ n, heap[g.slot]? = some n ∧ n.used = 1 ∧ n.size = g.size ∧ n.mem = some g.start ∧
        n.allocated = (if g.alloc then 1 else 0) := by
  intro l
  induction l with
  | nil => intro p nx _ g hg; simp at hg
  | cons a l ih =>
    intro p nx hc g hg
    obtain ⟨h1, h2⟩ := hc
    rcases List.mem_cons.1 hg with e | e
    · subst e
      exact ⟨_, h1, rfl, rfl, rfl, rfl⟩
    · exact ih _ _ h2 g e

theorem exists_not_mem_of_length_lt (l : List Nat) (n : Nat) (h : l.length < n) :
    ∃ j, j < n ∧ j ∉ l := by
  by_contra hc
  push_neg at hc
  have hsub : List.range n ⊆ l := fun j hj => hc j (List.mem_range.1 hj)
  have := (List.subperm_of_subset (List.nodup_range n) hsub).length_le
  simp at this
  omega

theorem upd_some {heap : List node_t} {i : Nat} {n : node_t} (f : node_t → node_t)
    (h : heap[i]? = some n) : upd heap i f = some (heap.set i (f n)) := by
  simp [upd, h]

theorem getElem?_upd {heap h2 : List node_t} {i : Nat} {f : node_t → node_t}
    (h : upd heap i f = some h2) (j : Nat) :
    h2[j]? = if j = i then (heap[i]?).map f else heap[j]? := by
  unfold upd at h
  cases hi : heap[i]? with
  | none => simp [hi] at h
  | some n =>
    simp only [hi, Option.some.injEq] at h
    subst h
    have hlt : i < heap.length := (List.getElem?_eq_some.1 hi).1
    by_cases e : j = i
    · subst e; simp [hlt]
    · rw [List.getElem?_set_ne (fun h => e h.symm)]; simp [e]

theorem upd_spec {heap : List node_t} {i : Nat} {n : node_t} (f : node_t → node_t)
    (h : heap[i]? = some n) :
    ∃ h2, upd heap i f = some h2 ∧ h2.length = heap.length ∧
      ∀ j, h2[j]? = if j = i then some (f n) else heap[j]? := by
  refine ⟨_, upd_some f h, by simp, fun j => ?_⟩
  rw [getElem?_upd (upd_some f h) j, h]
  rfl

theorem upd_opt_spec {heap : List node_t} {q : Option Nat} (f : node_t → node_t)
    (h : ∀ i, q = some i → i < heap.length) :
    ∃ h2, upd_opt heap q f = some h2 ∧ h2.length = heap.length ∧
      ∀ j, h2[j]? = if q = some j then (heap[j]?).map f else heap[j]? := by
  cases q with
  | none => exact ⟨heap, rfl, rfl, fun j => by simp⟩
  | some i =>
    have hi := h i rfl
    obtain ⟨h2, e, l, g⟩ := upd_spec f (List.getElem?_eq_getElem hi)
    refine ⟨h2, e, l, fun j => ?_⟩
    rw [g]
    by_cases c : j = i
    · subst c; simp [List.getElem?_eq_getElem hi]
    · have : ¬ (some i = some j) := fun h => c (Option.some.inj h).symm
      simp [c, this]

/-- Moving the `prev` pointer of the first node of a linked run. -/
theorem Chain_reprev (heap heap2 : List node_t) (l : List Seg) (q q2 nx : Option Nat)
    (hnd : (l.map Seg.slot).Nodup) (hc : Chain heap q l nx)
    (hf : ∀ g ∈ l, heap2[g.slot]? =
      if headSlot l none = some g.slot then (heap[g.slot]?).map (fun x => { x with prev := q2 })
      else heap[g.slot]?) :
    Chain heap2 q2 l nx := by
  cases l with
  | nil => trivial
  | cons P rest =>
    obtain ⟨h1, h2⟩ := hc
    refine ⟨?_, ?_⟩
    · rw [hf P (List.mem_cons_self _ _)]
      simp [headSlot, h1, Seg.node]
    · apply Chain_frame heap _ _ _ _ _ h2
      intro r hr
      rw [hf r (List.mem_cons_of_mem _ hr)]
      have : P.slot ≠ r.slot := by
        intro e
        simp only [List.map_cons, List.nodup_cons, List.mem_map] at hnd
        exact hnd.1 ⟨r, hr, e.symm⟩
      simp [headSlot, this]

theorem headSlot_mem {l : List Seg} {d : Option Nat} {i : Nat} (h : headSlot l none = some i) :
    (∃ g ∈ l, g.slot = i) ∧ headSlot l d = some i := by
  cases l with
  | nil => simp [headSlot] at h
  | cons P rest =>
    simp only [headSlot, Option.some.injEq] at h
    exact ⟨⟨P, List.mem_cons_self _ _, h⟩, by simp [headSlot, h]⟩

theorem length_upd {heap h2 : List node_t} {i : Nat} {f : node_t → node_t}
    (h : upd heap i f = some h2) : h2.length = heap.length := by
  unfold upd at h
  cases hi : heap[i]? with
  | none => simp [hi] at h
  | some n =>
    simp only [hi, Option.some.injEq] at h
    subst h
    simp

theorem free_entries_append (l1 l2 : List Seg) :
    free_entries (l1 ++ l2) = free_entries l1 ++ free_entries l2 := by
  simp [free_entries]

theorem free_entries_cons_free (g : Seg) (l : List Seg) (h : g.alloc = false) :
    free_entries (g :: l) = ⟨g.size, some g.slot⟩ :: free_entries l := by
  simp [free_entries, h]

theorem free_entries_cons_alloc (g : Seg) (l : List Seg) (h : g.alloc = true) :
    free_entries (g :: l) = free_entries l := by
  simp [free_entries, h]

theorem mem_free_entries {e : gap_t} {l : List Seg} (h : e ∈ free_entries l) :
    ∃ g ∈ l, g.alloc = false ∧ e = ⟨g.size, some g.slot⟩ := by
  simp only [free_entries, List.mem_map, List.mem_filter] at h
  obtain ⟨g, ⟨hg, ha⟩, he⟩ := h
  exact ⟨g, hg, by simpa using ha, he.symm⟩

theorem nodup_split {pre post : List Seg} {N : Seg}
    (h : ((pre ++ N :: post).map Seg.slot).Nodup) :
    (∀ g ∈ pre, g.slot ≠ N.slot) ∧ (∀ g ∈ post, g.slot ≠ N.slot) ∧
      (∀ g ∈ pre, ∀ r ∈ post, g.slot ≠ r.slot) ∧ (pre.map Seg.slot).Nodup ∧
      (post.map Seg.slot).Nodup := by
  simp only [List.map_append, List.map_cons, List.nodup_append, List.nodup_cons, List.mem_map,
    List.mem_cons, List.Disjoint] at h
  obtain ⟨h1, ⟨h2, h3⟩, h4⟩ := h
  refine ⟨?_, ?_, ?_, h1, h3⟩
  · intro g hg e
    exact h4 ⟨g, hg, rfl⟩ (Or.inl e)
  · intro g hg e
    exact h2 ⟨g, hg, e⟩
  · intro g hg r hr e
    exact h4 ⟨g, hg, rfl⟩ (Or.inr ⟨r, hr, e.symm⟩)

theorem nodup_cons_split {post : List Seg} {N : Seg}
    (h : ((N :: post).map Seg.slot).Nodup) :
    (∀ g ∈ post, g.slot ≠ N.slot) ∧ (post.map Seg.slot).Nodup := by
  simp only [List.map_cons, List.nodup_cons, List.mem_map] at h
  exact ⟨fun g hg e => h.1 ⟨g, hg, e⟩, h.2⟩

theorem split_facts {heap : List node_t} {tn un ts : Nat} {pre post : List Seg} {N : Seg}
    (hH : HeapOk heap tn un ts (pre ++ N :: post)) :
    Chain heap none pre (some N.slot) ∧
      heap[N.slot]? = some (N.node (lastSlot pre none) (headSlot post none)) ∧
      Chain heap (some N.slot) post none := by
  have h := hH.chain
  rw [Chain_append] at h
  obtain ⟨h1, h2, h3⟩ := h
  exact ⟨h1, h2, h3⟩

theorem mem_slots_split {pre post : List Seg} {N : Seg} {i : Nat} :
    i ∈ (pre ++ N :: post).map Seg.slot ↔
      (∃ g ∈ pre, g.slot = i) ∨ i = N.slot ∨ (∃ g ∈ post, g.slot = i) := by
  simp only [List.map_append, List.map_cons, List.mem_append, List.mem_cons, List.mem_map]

/-- In a represented heap a slot whose node has `used = 1` belongs to the segment list. -/
theorem used_mem_slots {heap : List node_t} {tn un ts : Nat} {segs : List Seg}
    (hH : HeapOk heap tn un ts segs) {i : Nat} {n : node_t} (hi : heap[i]? = some n)
    (hu : n.used = 1) : ∃ pre N post, segs = pre ++ N :: post ∧ N.slot = i := by
  have hmem : i ∈ segs.map Seg.slot := by
    by_contra hc
    have := hH.unused i n hi hc
    omega
  obtain ⟨N, hN, hs⟩ := List.mem_map.1 hmem
  obtain ⟨pre, post, e⟩ := List.append_of_mem hN
  exact ⟨pre, N, post, e, hs⟩

theorem gap_rest_ne {pre post : List Seg} {N : Seg}
    (h : ((pre ++ N :: post).map Seg.slot).Nodup) :
    ∀ x ∈ free_entries pre ++ free_entries post, x.node ≠ some N.slot := by
  obtain ⟨h1, h2, _⟩ := nodup_split h
  intro x hx e
  rcases List.mem_append.1 hx with hx | hx
  · obtain ⟨g, hg, _, he⟩ := mem_free_entries hx
    subst he
    simp at e
    exact h1 g hg e
  · obtain ⟨g, hg, _, he⟩ := mem_free_entries hx
    subst he
    simp at e
    exact h2 g hg e

theorem gap_valid_of_lt {heap : List node_t} {l : List Seg}
    (h : ∀ g ∈ l, g.slot < heap.length) : ∀ e ∈ free_entries l, GapValid heap e := by
  intro e he
  obtain ⟨g, hg, _, hx⟩ := mem_free_entries he
  subst hx
  exact ⟨g.slot, _, rfl, List.getElem?_eq_getElem (h g hg)⟩

/-! ## Allocation on a represented pool -/

theorem alloc_commit_exact (p : pool_mgr_t) (size : Nat) (pre post : List Seg) (N : Seg)
    (hH : HeapOk p.node_heap p.total_nodes p.used_nodes p.total_size (pre ++ N :: post))
    (hG : GapIx p (free_entries (pre ++ N :: post)))
    (hNf : N.alloc = false) (hsz : N.size = size) :
    ∃ p2 segs2, mem_new_alloc_commit p size N.slot = some (p2, some N.slot) ∧
      AllocPost p p2 size pre post N segs2 := by
  obtain ⟨hpre, hN, hpost⟩ := split_facts hH
  obtain ⟨nd1, nd2, nd3, nd4, nd5⟩ := nodup_split hH.nodup
  -- the gap index without the entry of `N`
  have hG1 : GapIx { p with num_allocs := p.num_allocs + 1, alloc_size := p.alloc_size + size }
      (⟨N.size, some N.slot⟩ :: (free_entries pre ++ free_entries post)) := by
    have : GapIx p (⟨N.size, some N.slot⟩ :: (free_entries pre ++ free_entries post)) := by
      apply hG.perm
      rw [free_entries_append, free_entries_cons_free N post hNf]
      exact List.perm_middle
    exact this
  obtain ⟨g, hrem, hG2, hge⟩ := GapIx_remove _ _ _ size N.slot hG1 rfl (gap_rest_ne hH.nodup)
  dsimp only at hrem hG2 hge
  obtain ⟨h1, hupd, hlen1, hget⟩ :=
    upd_spec (fun x => { x with size := size, used := 1, allocated := 1 }) hN
  refine ⟨{ p with num_allocs := p.num_allocs + 1, alloc_size := p.alloc_size + size,
                    gap_ix := g, num_gaps := p.num_gaps - 1, node_heap := h1 },
    pre ++ ⟨N.slot, N.start, size, true⟩ :: post, ?_, ?_⟩
  · unfold mem_new_alloc_commit
    simp only [hN, hrem, hupd]
    have : size_sub (N.node (lastSlot pre none) (headSlot post none)).size size = 0 := by
      simp [Seg.node, size_sub, hsz]
    rw [this]
    simp
  · refine ⟨⟨?_, ?_, ?_, ?_, ?_, ?_, ?_⟩, ?_, rfl, rfl, rfl, rfl, rfl, Or.inl ⟨hsz, rfl, ?_⟩⟩
    · dsimp only; rw [hlen1, hH.heap_len]
    · have := hH.head
      rw [headSlot_append] at this ⊢
      cases pre <;> simpa [headSlot] using this
    · dsimp only
      rw [Chain_append]
      refine ⟨?_, ?_, ?_⟩
      · apply Chain_frame p.node_heap _ _ _ _ _ hpre
        intro r hr
        rw [hget, if_neg (nd1 r hr)]
      · rw [hget, if_pos rfl]
        simp [Seg.node, hNf]
      · apply Chain_frame p.node_heap _ _ _ _ _ hpost
        intro r hr
        rw [hget, if_neg (nd2 r hr)]
    · have := hH.nodup
      simpa using this
    · dsimp only
      intro i n hi hni
      have hni2 : i ∉ (pre ++ N :: post).map Seg.slot := by simpa using hni
      have hne : i ≠ N.slot := by
        intro e; apply hni2; rw [mem_slots_split]; exact Or.inr (Or.inl e)
      rw [hget, if_neg hne] at hi
      exact hH.unused i n hi hni2
    · have := hH.contig
      rw [Contig_append] at this ⊢
      obtain ⟨mid, c1, c2, c3⟩ := this
      exact ⟨mid, c1, c2, by simpa [hsz] using c3⟩
    · have := hH.used_eq
      simpa using this
    · apply hG2.perm
      rw [free_entries_append, free_entries_cons_alloc _ post rfl]
    · show p.num_gaps - 1 + 1 = p.num_gaps
      omega

theorem nodup_insert_after {pre post : List Seg} {N N2 U : Seg}
    (h : ((pre ++ N :: post).map Seg.slot).Nodup) (hs : N2.slot = N.slot)
    (hu : U.slot ∉ (pre ++ N :: post).map Seg.slot) :
    ((pre ++ N2 :: U :: post).map Seg.slot).Nodup := by
  have hp : ((pre ++ N2 :: U :: post).map Seg.slot).Perm
      (U.slot :: (pre ++ N :: post).map Seg.slot) := by
    simp only [List.map_append, List.map_cons, hs]
    have : (List.map Seg.slot pre ++ N.slot :: U.slot :: List.map Seg.slot post) =
        (List.map Seg.slot pre ++ [N.slot]) ++ U.slot :: List.map Seg.slot post := by simp
    rw [this]
    refine List.perm_middle.trans ?_
    simp
  rw [hp.nodup_iff]
  exact List.nodup_cons.2 ⟨hu, h⟩

theorem alloc_commit_split (p : pool_mgr_t) (size : Nat) (pre post : List Seg) (N : Seg)
    (hH : HeapOk p.node_heap p.total_nodes p.used_nodes p.total_size (pre ++ N :: post))
    (hG : GapIx p (free_entries (pre ++ N :: post)))
    (hNf : N.alloc = false) (hsz : size < N.size) (hcap : p.used_nodes < p.total_nodes) :
    ∃ p2 segs2, mem_new_alloc_commit p size N.slot = some (p2, some N.slot) ∧
      AllocPost p p2 size pre post N segs2 := by
  obtain ⟨hpre, hN, hpost⟩ := split_facts hH
  obtain ⟨nd1, nd2, nd3, nd4, nd5⟩ := nodup_split hH.nodup
  have hlt := Chain_slot_lt _ _ _ _ hH.chain
  have hG1 : GapIx { p with num_allocs := p.num_allocs + 1, alloc_size := p.alloc_size + size }
      (⟨N.size, some N.slot⟩ :: (free_entries pre ++ free_entries post)) := by
    have : GapIx p (⟨N.size, some N.slot⟩ :: (free_entries pre ++ free_entries post)) := by
      apply hG.perm
      rw [free_entries_append, free_entries_cons_free N post hNf]
      exact List.perm_middle
    exact this
  obtain ⟨g, hrem, hG2, hge⟩ := GapIx_remove _ _ _ size N.slot hG1 rfl (gap_rest_ne hH.nodup)
  dsimp only at hrem hG2 hge
  obtain ⟨h1, hupd, hlen1, hget1⟩ :=
    upd_spec (fun x => { x with size := size, used := 1, allocated := 1 }) hN
  -- the search for an unused slot
  have hdef : ∀ j, 0 ≤ j → j < 0 + p.total_nodes → ∃ b, unused_test h1 j = some b := by
    intro j _ hj
    have : j < h1.length := by rw [hlen1, hH.heap_len]; omega
    rw [unused_test, List.getElem?_eq_getElem this]
    exact ⟨_, rfl⟩
  obtain ⟨r, hr⟩ := scan_first_defined _ _ _ hdef
  have hused : ∀ i, i ∈ (pre ++ N :: post).map Seg.slot → ∃ n, h1[i]? = some n ∧ n.used = 1 := by
    intro i hi
    by_cases e : i = N.slot
    · subst e; exact ⟨_, by rw [hget1, if_pos rfl], rfl⟩
    · obtain ⟨s, hs, hsi⟩ := List.mem_map.1 hi
      obtain ⟨n, hn, hnu, _⟩ := Chain_used _ _ _ _ hH.chain s hs
      subst hsi
      exact ⟨n, by rw [hget1, if_neg e]; exact hn, hnu⟩
  obtain ⟨u, hru⟩ : ∃ u, r = some u := by
    cases r with
    | some u => exact ⟨u, rfl⟩
    | none =>
      exfalso
      have hall := scan_first_none_spec _ _ _ hr
      obtain ⟨j, hj, hjn⟩ := exists_not_mem_of_length_lt ((pre ++ N :: post).map Seg.slot)
        p.total_nodes (by have := hH.used_eq; simp at this ⊢; omega)
      have hjl : j < p.node_heap.length := by rw [hH.heap_len]; exact hj
      have hj0 := hH.unused j _ (List.getElem?_eq_getElem hjl) hjn
      have hne : j ≠ N.slot := by
        intro e; apply hjn; rw [mem_slots_split]; exact Or.inr (Or.inl e)
      have := hall j (Nat.zero_le _) (by omega)
      simp [unused_test, hget1, hne, List.getElem?_eq_getElem hjl, hj0] at this
  subst hru
  obtain ⟨_, hu_lt, hu_test, _⟩ := scan_first_some_spec _ _ _ _ hr
  obtain ⟨nu, hnu, hnu0⟩ : ∃ nu, h1[u]? = some nu ∧ nu.used = 0 := by
    simp only [unused_test, Option.map_eq_some'] at hu_test
    obtain ⟨nu, h, hd⟩ := hu_test
    exact ⟨nu, h, by simpa using hd⟩
  have hu_nmem : u ∉ (pre ++ N :: post).map Seg.slot := by
    intro hm
    obtain ⟨n, hn, hn1⟩ := hused u hm
    rw [hnu] at hn
    cases hn
    omega
  have hua : u ≠ N.slot := by
    intro e; apply hu_nmem; rw [mem_slots_split]; exact Or.inr (Or.inl e)
  have hu_pre : ∀ s ∈ pre, s.slot ≠ u := by
    intro s hs e; apply hu_nmem; rw [mem_slots_split]; exact Or.inl ⟨s, hs, e⟩
  have hu_post : ∀ s ∈ post, s.slot ≠ u := by
    intro s hs e; apply hu_nmem; rw [mem_slots_split]; exact Or.inr (Or.inr ⟨s, hs, e⟩)
  -- the stores of the split
  obtain ⟨h2, hupd2, hlen2, hget2⟩ := upd_spec (fun x =>
    { x with mem := (some N.start).map (fun m => m + size), size := N.size - size, used := 1,
             allocated := 0, next := none, prev := none }) hnu
  have hu2 : h2[u]? = some ⟨N.size - size, some (N.start + size), 1, 0, none, none⟩ := by
    rw [hget2, if_pos rfl]; rfl
  obtain ⟨h3, hupd3, hlen3, hget3⟩ := upd_spec (fun x =>
    { x with prev := some N.slot, next := headSlot post none }) hu2
  have ha1 : h1[N.slot]? =
      some ⟨size, some N.start, 1, 1, headSlot post none, lastSlot pre none⟩ := by
    rw [hget1, if_pos rfl]; rfl
  have ha2 : h2[N.slot]? =
      some ⟨size, some N.start, 1, 1, headSlot post none, lastSlot pre none⟩ := by
    rw [hget2, if_neg (Ne.symm hua), ha1]
  have ha3 : h3[N.slot]? =
      some ⟨size, some N.start, 1, 1, headSlot post none, lastSlot pre none⟩ := by
    rw [hget3, if_neg (Ne.symm hua), ha2]
  have hpost_lt : ∀ i, headSlot post none = some i → i < h3.length := by
    intro i hi
    obtain ⟨⟨s, hs, hsi⟩, _⟩ := headSlot_mem (d := none) hi
    rw [hlen3, hlen2, hlen1, ← hsi]
    exact hlt s (by simp [hs])
  obtain ⟨h4, hupd4, hlen4, hget4⟩ :=
    upd_opt_spec (fun x => { x with prev := some u }) hpost_lt
  have hhp_a : headSlot post none ≠ some N.slot := by
    intro e
    obtain ⟨⟨s, hs, hsi⟩, _⟩ := headSlot_mem (d := none) e
    exact nd2 s hs hsi
  have ha4 : h4[N.slot]? =
      some ⟨size, some N.start, 1, 1, headSlot post none, lastSlot pre none⟩ := by
    rw [hget4, if_neg hhp_a, ha3]
  obtain ⟨h5, hupd5, hlen5, hget5⟩ := upd_spec (fun x => { x with next := some u }) ha4
  have hlen : h5.length = p.node_heap.length := by
    rw [hlen5, hlen4, hlen3, hlen2, hlen1]
  -- the gap index entry of the remainder
  have hsub : size_sub N.size size = N.size - size := by
    unfold size_sub; rw [if_pos (by omega)]
  have hG3 : GapIx
      { p with num_allocs := p.num_allocs + 1, alloc_size := p.alloc_size + size,
               gap_ix := g, num_gaps := p.num_gaps - 1, node_heap := h5,
               used_nodes := p.used_nodes + 1 }
      (free_entries pre ++ free_entries post) := hG2
  have hle : p.num_gaps ≤ 31 := by
    obtain ⟨_, _, _, _, _, h⟩ := hG; exact h
  have hvalid : ∀ e ∈ free_entries pre ++ free_entries post, GapValid h5 e := by
    rw [← free_entries_append]
    apply gap_valid_of_lt
    intro s hs
    rw [hlen]
    apply hlt
    rcases List.mem_append.1 hs with h | h
    · simp [h]
    · simp [h]
  obtain ⟨g2, hadd, hG4⟩ := GapIx_add _ _ (N.size - size) u hG3 (by dsimp only; omega) hvalid
    ⟨_, List.getElem?_eq_getElem (by rw [hlen, hH.heap_len]; omega)⟩
  dsimp only at hadd hG4
  refine ⟨{ p with num_allocs := p.num_allocs + 1, alloc_size := p.alloc_size + size,
                    gap_ix := g2, num_gaps := p.num_gaps - 1 + 1, node_heap := h5,
                    used_nodes := p.used_nodes + 1 },
    pre ++ ⟨N.slot, N.start, size, true⟩ :: ⟨u, N.start + size, N.size - size, false⟩ :: post,
    ?_, ?_⟩
  · unfold mem_new_alloc_commit
    simp only [hN, hrem, hupd]
    have hpos : 0 < size_sub (N.node (lastSlot pre none) (headSlot post none)).size size := by
      simp only [Seg.node, hsub]; omega
    rw [if_pos hpos]
    simp only [hr]
    unfold mem_new_alloc_split
    simp only [ha1, Seg.node, hupd2, ha2, hupd3, ha3, hupd4, hupd5, hsub, hadd]
  · have hj5 : ∀ j, j ≠ N.slot → j ≠ u → h5[j]? =
        if headSlot post none = some j then
          (p.node_heap[j]?).map (fun x => { x with prev := some u })
        else p.node_heap[j]? := by
      intro j hja hju
      rw [hget5, if_neg hja, hget4, hget3, if_neg hju, hget2, if_neg hju, hget1, if_neg hja]
    have hj5f : ∀ j, j ≠ N.slot → j ≠ u → headSlot post none ≠ some j →
        h5[j]? = p.node_heap[j]? := by
      intro j hja hju hjp
      rw [hj5 j hja hju, if_neg hjp]
    refine ⟨⟨?_, ?_, ?_, ?_, ?_, ?_, ?_⟩, ?_, rfl, rfl, rfl, rfl, rfl,
      Or.inr ⟨hsz, ?_, u, rfl⟩⟩
    · dsimp only; rw [hlen, hH.heap_len]
    · have := hH.head
      rw [headSlot_append] at this ⊢
      cases pre <;> simpa [headSlot] using this
    · dsimp only
      rw [Chain_append]
      refine ⟨?_, ?_, ?_, ?_⟩
      · apply Chain_frame p.node_heap _ _ _ _ _ hpre
        intro r hr
        apply hj5f _ (nd1 r hr) (hu_pre r hr)
        intro e
        obtain ⟨⟨s, hs, hsi⟩, _⟩ := headSlot_mem (d := none) e
        exact nd3 r hr s hs hsi.symm
      · rw [hget5, if_pos rfl]
        simp [Seg.node, headSlot]
      · show h5[u]? = _
        rw [hget5, if_neg hua, hget4, if_neg, hget3, if_pos rfl]
        · simp [Seg.node, headSlot]
        · intro e
          obtain ⟨⟨s, hs, hsi⟩, _⟩ := headSlot_mem (d := none) e
          exact hu_post s hs hsi
      · apply Chain_reprev p.node_heap h5 post (some N.slot) (some u) none nd5 hpost
        intro s hs
        exact hj5 _ (nd2 s hs) (hu_post s hs)
    · exact nodup_insert_after hH.nodup rfl hu_nmem
    · dsimp only
      intro i n hi hni
      have hni2 : i ∉ (pre ++ N :: post).map Seg.slot := by
        intro hm; apply hni
        simp only [List.map_append, List.map_cons, List.mem_append, List.mem_cons] at hm ⊢
        tauto
      have hne : i ≠ N.slot := by
        intro e; apply hni2; rw [mem_slots_split]; exact Or.inr (Or.inl e)
      have hnu : i ≠ u := by
        intro e; apply hni; simp [e]
      have hnp : headSlot post none ≠ some i := by
        intro e
        obtain ⟨⟨s, hs, hsi⟩, _⟩ := headSlot_mem (d := none) e
        apply hni2; rw [mem_slots_split]; exact Or.inr (Or.inr ⟨s, hs, hsi⟩)
      rw [hj5f i hne hnu hnp] at hi
      exact hH.unused i n hi hni2
    · have := hH.contig
      rw [Contig_append] at this ⊢
      obtain ⟨mid, c1, c2, c3⟩ := this
      refine ⟨mid, c1, c2, ?_, ?_⟩
      · simp [c2]
      · have e : mid + size + (N.size - size) = mid + N.size := by omega
        show Contig (mid + size + (N.size - size)) post p.total_size
        rw [e]; exact c3
    · have := hH.used_eq
      simp at this ⊢
      omega
    · apply hG4.perm
      rw [free_entries_append, free_entries_cons_alloc _ _ rfl, free_entries_cons_free _ _ rfl]
      exact List.perm_middle.symm
    · show p.num_gaps - 1 + 1 = p.num_gaps
      omega

/-! ## Deallocation on a represented pool -/

theorem unlink_next_spec (heap : List node_t) (a f : Nat) (na nf : node_t)
    (ha : heap[a]? = some na) (hf : heap[f]? = some nf) (haf : a ≠ f)
    (hq : ∀ i, nf.next = some i → i ≠ a ∧ i ≠ f ∧ i < heap.length) :
    ∃ h4, mem_del_alloc_unlink_next heap a f = some h4 ∧ h4.length = heap.length ∧
      h4[a]? = some { na with next := nf.next } ∧ (∃ n, h4[f]? = some n ∧ n.used = 0) ∧
      ∀ j, j ≠ a → j ≠ f → h4[j]? =
        if nf.next = some j then (heap[j]?).map (fun x => { x with prev := some a })
        else heap[j]? := by
  obtain ⟨h1, e1, l1, g1⟩ := upd_spec (fun x => { x with size := 0, mem := none, used := 0 }) hf
  have hf1 : h1[f]? = some { nf with size := 0, mem := none, used := 0 } := by
    rw [g1, if_pos rfl]
  have ha1 : h1[a]? = some na := by rw [g1, if_neg haf, ha]
  cases hnx : nf.next with
  | some nn =>
    obtain ⟨hna, hnf, hnl⟩ := hq nn hnx
    obtain ⟨nnn, hnnn⟩ : ∃ n, heap[nn]? = some n := ⟨_, List.getElem?_eq_getElem hnl⟩
    have hnn1 : h1[nn]? = some nnn := by rw [g1, if_neg hnf, hnnn]
    obtain ⟨h2, e2, l2, g2⟩ := upd_spec (fun x => { x with prev := some a }) hnn1
    have ha2 : h2[a]? = some na := by rw [g2, if_neg (Ne.symm hna), ha1]
    obtain ⟨h3, e3, l3, g3⟩ := upd_spec (fun x => { x with next := some nn }) ha2
    refine ⟨h3, ?_, by rw [l3, l2, l1], ?_, ?_, ?_⟩
    · unfold mem_del_alloc_unlink_next
      simp only [e1, hf1, hnx, e2, e3]
    · rw [g3, if_pos rfl]
    · refine ⟨{ nf with size := 0, mem := none, used := 0 }, ?_, rfl⟩
      rw [g3, if_neg (Ne.symm haf), g2, if_neg (Ne.symm hnf), hf1]
    · intro j hja hjf
      rw [g3, if_neg hja, g2]
      by_cases c : j = nn
      · subst c
        rw [if_pos rfl, if_pos rfl, hnnn]
        rfl
      · rw [if_neg c, if_neg (fun h => c (Option.some.inj h).symm), g1, if_neg hjf]
  | none =>
    obtain ⟨h2, e2, l2, g2⟩ := upd_spec (fun x => { x with prev := none }) hf1
    have ha2 : h2[a]? = some na := by rw [g2, if_neg haf, ha1]
    obtain ⟨h3, e3, l3, g3⟩ := upd_spec (fun x => { x with next := none }) ha2
    refine ⟨h3, ?_, by rw [l3, l2, l1], ?_, ?_, ?_⟩
    · unfold mem_del_alloc_unlink_next
      simp only [e1, hf1, hnx, e2, e3]
    · rw [g3, if_pos rfl]
    · refine ⟨{ nf with size := 0, mem := none, used := 0, prev := none }, ?_, rfl⟩
      rw [g3, if_neg (Ne.symm haf), g2, if_pos rfl]
    · intro j hja hjf
      rw [g3, if_neg hja, g2, if_neg hjf, g1, if_neg hjf]
      simp

theorem unlink_self_spec (heap : List node_t) (a fp : Nat) (na nfp : node_t)
    (ha : heap[a]? = some na) (hf : heap[fp]? = some nfp) (haf : a ≠ fp)
    (hpv : na.prev = some fp)
    (hq : ∀ i, na.next = some i → i ≠ a ∧ i ≠ fp ∧ i < heap.length) :
    ∃ h4, mem_del_alloc_unlink_self heap a = some (h4, fp) ∧ h4.length = heap.length ∧
      h4[fp]? = some { nfp with next := na.next } ∧ (∃ n, h4[a]? = some n ∧ n.used = 0) ∧
      ∀ j, j ≠ a → j ≠ fp → h4[j]? =
        if na.next = some j then (heap[j]?).map (fun x => { x with prev := some fp })
        else heap[j]? := by
  obtain ⟨h1, e1, l1, g1⟩ := upd_spec (fun x => { x with used := 0, size := 0, mem := none }) ha
  have ha1 : h1[a]? = some { na with used := 0, size := 0, mem := none } := by
    rw [g1, if_pos rfl]
  have hf1 : h1[fp]? = some nfp := by rw [g1, if_neg (Ne.symm haf), hf]
  cases hnx : na.next with
  | some nn =>
    obtain ⟨hna, hnf, hnl⟩ := hq nn hnx
    obtain ⟨h2, e2, l2, g2⟩ := upd_spec (fun x => { x with next := some nn }) hf1
    obtain ⟨nnn, hnnn⟩ : ∃ n, heap[nn]? = some n := ⟨_, List.getElem?_eq_getElem hnl⟩
    have hnn2 : h2[nn]? = some nnn := by rw [g2, if_neg hnf, g1, if_neg hna, hnnn]
    obtain ⟨h3, e3, l3, g3⟩ := upd_spec (fun x => { x with prev := some fp }) hnn2
    refine ⟨h3, ?_, by rw [l3, l2, l1], ?_, ?_, ?_⟩
    · unfold mem_del_alloc_unlink_self
      simp only [e1, ha1, hnx, hpv, e2, e3]
    · rw [g3, if_neg (Ne.symm hnf), g2, if_pos rfl]
    · refine ⟨{ na with used := 0, size := 0, mem := none }, ?_, rfl⟩
      rw [g3, if_neg (Ne.symm hna), g2, if_neg haf, ha1]
    · intro j hja hjf
      rw [g3]
      by_cases c : j = nn
      · subst c
        rw [if_pos rfl, if_pos rfl, hnnn]
        rfl
      · rw [if_neg c, if_neg (fun h => c (Option.some.inj h).symm), g2, if_neg hjf, g1, if_neg hja]
  | none =>
    obtain ⟨h2, e2, l2, g2⟩ := upd_spec (fun x => { x with next := none }) hf1
    refine ⟨h2, ?_, by rw [l2, l1], ?_, ?_, ?_⟩
    · unfold mem_del_alloc_unlink_self
      simp only [e1, ha1, hnx, hpv, e2]
    · rw [g2, if_pos rfl]
    · refine ⟨{ na with used := 0, size := 0, mem := none }, ?_, rfl⟩
      rw [g2, if_neg haf, ha1]
    · intro j hja hjf
      rw [g2, if_neg hjf, g1, if_neg hja]
      simp

theorem merge_next_free (p : pool_mgr_t) (pre post : List Seg) (A F : Seg)
    (hH : HeapOk p.node_heap p.total_nodes p.used_nodes p.total_size (pre ++ A :: F :: post))
    (hG : GapIx p (free_entries pre ++ free_entries (F :: post))) (hF : F.alloc = false) :
    ∃ p1, mem_del_alloc_merge_next p A.slot = some p1 ∧
      HeapOk p1.node_heap p1.total_nodes p1.used_nodes p1.total_size
        (pre ++ { A with size := A.size + F.size } :: post) ∧
      GapIx p1 (free_entries pre ++ free_entries post) ∧
      p1.policy = p.policy ∧ p1.total_size = p.total_size ∧ p1.total_nodes = p.total_nodes ∧
      p1.num_allocs = p.num_allocs ∧ p1.alloc_size = p.alloc_size ∧
      p1.num_gaps + 1 = p.num_gaps ∧ p1.used_nodes + 1 = p.used_nodes := by
  obtain ⟨hpre, hN, hpost⟩ := split_facts hH
  obtain ⟨nd1, nd2, nd3, nd4, nd5⟩ := nodup_split hH.nodup
  obtain ⟨ne2, ne5⟩ := nodup_cons_split nd5
  obtain ⟨hFn, hpost2⟩ := hpost
  have haf : A.slot ≠ F.slot := fun e => nd2 F (List.mem_cons_self _ _) e.symm
  have hlt := Chain_slot_lt _ _ _ _ hH.chain
  simp only [headSlot] at hN
  obtain ⟨h1, e1, l1, g1⟩ := upd_spec (fun x => { x with size := x.size + F.size }) hN
  have hG1 : GapIx { p with node_heap := h1 }
      (⟨F.size, some F.slot⟩ :: (free_entries pre ++ free_entries post)) := by
    have : GapIx p (⟨F.size, some F.slot⟩ :: (free_entries pre ++ free_entries post)) := by
      apply hG.perm
      rw [free_entries_cons_free F post hF]
      exact List.perm_middle
    exact this
  have hrest : ∀ x ∈ free_entries pre ++ free_entries post, x.node ≠ some F.slot := by
    intro x hx e
    rcases List.mem_append.1 hx with hx | hx
    · obtain ⟨s, hs, _, he⟩ := mem_free_entries hx
      subst he
      simp at e
      exact nd3 s hs F (List.mem_cons_self _ _) e
    · obtain ⟨s, hs, _, he⟩ := mem_free_entries hx
      subst he
      simp at e
      exact ne2 s hs e
  obtain ⟨g, hrem, hG2, hge⟩ := GapIx_remove _ _ _ F.size F.slot hG1 rfl hrest
  dsimp only at hrem hG2 hge
  have ha1 : h1[A.slot]? = some ⟨A.size + F.size, some A.start, 1, if A.alloc then 1 else 0,
      some F.slot, lastSlot pre none⟩ := by
    rw [g1, if_pos rfl]; rfl
  have hf1 : h1[F.slot]? = some (F.node (some A.slot) (headSlot post none)) := by
    rw [g1, if_neg (Ne.symm haf), hFn]
  have hq : ∀ i, (F.node (some A.slot) (headSlot post none)).next = some i →
      i ≠ A.slot ∧ i ≠ F.slot ∧ i < h1.length := by
    intro i hi
    obtain ⟨⟨s, hs, hsi⟩, _⟩ := headSlot_mem (d := none) (show headSlot post none = some i from hi)
    subst hsi
    refine ⟨nd2 s (List.mem_cons_of_mem _ hs), ne2 s hs, ?_⟩
    rw [l1]; exact hlt s (by simp [hs])
  obtain ⟨h4, e4, l4, ha4, ⟨nf4, hf4, hf4u⟩, hj4⟩ := unlink_next_spec h1 A.slot F.slot _ _ ha1 hf1 haf hq
  have hused : 2 ≤ p.used_nodes := by
    have := hH.used_eq
    simp at this; omega
  have hdec : dec_unsigned p.used_nodes = p.used_nodes - 1 := by
    unfold dec_unsigned; rw [if_neg (by omega)]
  refine ⟨{ p with node_heap := h4, gap_ix := g, num_gaps := p.num_gaps - 1,
                    used_nodes := p.used_nodes - 1 }, ?_, ⟨?_, ?_, ?_, ?_, ?_, ?_, ?_⟩, hG2,
    rfl, rfl, rfl, rfl, rfl, ?_, ?_⟩
  · unfold mem_del_alloc_merge_next
    simp only [hN, Seg.node, hFn, hF, e1, hrem, e4, hdec]
    simp
  · dsimp only; rw [l4, l1, hH.heap_len]
  · have := hH.head
    rw [headSlot_append] at this ⊢
    cases pre <;> simpa [headSlot] using this
  · dsimp only
    have hj : ∀ j, j ≠ A.slot → j ≠ F.slot → h4[j]? =
        if headSlot post none = some j then
          (p.node_heap[j]?).map (fun x => { x with prev := some A.slot })
        else p.node_heap[j]? := by
      intro j hja hjf
      rw [hj4 j hja hjf, g1, if_neg hja]
      rfl
    rw [Chain_append]
    refine ⟨?_, ?_, ?_⟩
    · apply Chain_frame p.node_heap _ _ _ _ _ hpre
      intro r hr
      rw [hj _ (nd1 r hr) (nd3 r hr F (List.mem_cons_self _ _)), if_neg]
      intro e
      obtain ⟨⟨s, hs, hsi⟩, _⟩ := headSlot_mem (d := none) e
      exact nd3 r hr s (List.mem_cons_of_mem _ hs) hsi.symm
    · rw [ha4]; rfl
    · apply Chain_reprev p.node_heap h4 post (some F.slot) (some A.slot) none ne5 hpost2
      intro s hs
      exact hj _ (nd2 s (List.mem_cons_of_mem _ hs)) (ne2 s hs)
  · have := hH.nodup
    apply List.Nodup.sublist _ this
    simp only [List.map_append, List.map_cons]
    apply List.Sublist.append_left
    apply List.Sublist.cons₂
    apply List.sublist_cons_self
  · dsimp only
    intro i n hi hni
    by_cases hif : i = F.slot
    · subst hif
      rw [hf4] at hi
      cases hi
      exact hf4u
    · have hia : i ≠ A.slot := by
        intro e; apply hni; simp [e]
      have hni2 : i ∉ (pre ++ A :: F :: post).map Seg.slot := by
        intro hm; apply hni
        simp only [List.map_append, List.map_cons, List.mem_append, List.mem_cons] at hm ⊢
        tauto
      rw [hj4 i hia hif, g1, if_neg hia, if_neg] at hi
      · exact hH.unused i n hi hni2
      · intro e
        obtain ⟨⟨s, hs, hsi⟩, _⟩ := headSlot_mem (d := none) (show headSlot post none = some i from e)
        apply hni; simp only [List.map_append, List.map_cons, List.mem_append, List.mem_cons,
          List.mem_map]
        exact Or.inr (Or.inr ⟨s, hs, hsi⟩)
  · have := hH.contig
    rw [Contig_append] at this ⊢
    obtain ⟨mid, c1, c2, c3, c4⟩ := this
    refine ⟨mid, c1, c2, ?_⟩
    have e : mid + (A.size + F.size) = mid + A.size + F.size := by omega
    show Contig (mid + (A.size + F.size)) post p.total_size
    rw [e]; exact c4
  · have := hH.used_eq
    simp at this ⊢
    omega
  · show p.num_gaps - 1 + 1 = p.num_gaps
    omega
  · show p.used_nodes - 1 + 1 = p.used_nodes
    omega

theorem merge_prev_free (p : pool_mgr_t) (pre post : List Seg) (A F : Seg)
    (hH : HeapOk p.node_heap p.total_nodes p.used_nodes p.total_size
      ((pre ++ [F]) ++ A :: post))
    (hG : GapIx p (free_entries (pre ++ [F]) ++ free_entries post)) (hF : F.alloc = false) :
    ∃ p1, mem_del_alloc_merge_prev p A.slot = some (p1, F.slot, alloc_status.ALLOC_OK) ∧
      HeapOk p1.node_heap p1.total_nodes p1.used_nodes p1.total_size
        (pre ++ { F with size := F.size + A.size } :: post) ∧
      GapIx p1 (free_entries pre ++ free_entries post) ∧
      p1.policy = p.policy ∧ p1.total_size = p.total_size ∧ p1.total_nodes = p.total_nodes ∧
      p1.num_allocs = p.num_allocs ∧ p1.alloc_size = p.alloc_size ∧
      p1.num_gaps + 1 = p.num_gaps ∧ p1.used_nodes + 1 = p.used_nodes := by
  have hH2 : HeapOk p.node_heap p.total_nodes p.used_nodes p.total_size
      (pre ++ F :: A :: post) := by simpa using hH
  obtain ⟨hpre, hFn, hpost⟩ := split_facts hH2
  obtain ⟨nd1, nd2, nd3, nd4, nd5⟩ := nodup_split hH2.nodup
  obtain ⟨ne2, ne5⟩ := nodup_cons_split nd5
  obtain ⟨hN, hpost2⟩ := hpost
  have haf : A.slot ≠ F.slot := nd2 A (List.mem_cons_self _ _)
  have hlt := Chain_slot_lt _ _ _ _ hH2.chain
  simp only [headSlot] at hFn
  obtain ⟨h1, e1, l1, g1⟩ := upd_spec (fun x => { x with size := x.size + A.size }) hFn
  have hG1 : GapIx { p with node_heap := h1 }
      (⟨F.size, some F.slot⟩ :: (free_entries pre ++ free_entries post)) := by
    have : GapIx p (⟨F.size, some F.slot⟩ :: (free_entries pre ++ free_entries post)) := by
      apply hG.perm
      rw [free_entries_append, free_entries_cons_free F [] hF]
      simp only [free_entries, List.filter_nil, List.map_nil, List.append_assoc,
        List.singleton_append]
      exact List.perm_middle
    exact this
  have hrest : ∀ x ∈ free_entries pre ++ free_entries post, x.node ≠ some F.slot := by
    intro x hx e
    rcases List.mem_append.1 hx with hx | hx
    · obtain ⟨s, hs, _, he⟩ := mem_free_entries hx
      subst he
      simp at e
      exact nd1 s hs e
    · obtain ⟨s, hs, _, he⟩ := mem_free_entries hx
      subst he
      simp at e
      exact nd2 s (List.mem_cons_of_mem _ hs) e
  have ha1 : h1[A.slot]? = some (A.node (some F.slot) (headSlot post none)) := by
    rw [g1, if_neg haf, hN]
  have hf1 : h1[F.slot]? = some ⟨F.size + A.size, some F.start, 1, if F.alloc then 1 else 0,
      some A.slot, lastSlot pre none⟩ := by
    rw [g1, if_pos rfl]; rfl
  obtain ⟨g, hrem, hG2, hge⟩ := GapIx_remove _ _ _
    (size_sub (F.size + A.size) A.size) F.slot hG1 rfl hrest
  dsimp only at hrem hG2 hge
  have hq : ∀ i, (A.node (some F.slot) (headSlot post none)).next = some i →
      i ≠ A.slot ∧ i ≠ F.slot ∧ i < h1.length := by
    intro i hi
    obtain ⟨⟨s, hs, hsi⟩, _⟩ := headSlot_mem (d := none) (show headSlot post none = some i from hi)
    subst hsi
    refine ⟨ne2 s hs, nd2 s (List.mem_cons_of_mem _ hs), ?_⟩
    rw [l1]; exact hlt s (by simp [hs])
  obtain ⟨h4, e4, l4, hf4, ⟨na4, ha4, ha4u⟩, hj4⟩ :=
    unlink_self_spec h1 A.slot F.slot _ _ ha1 hf1 haf rfl hq
  have hused : 2 ≤ p.used_nodes := by
    have := hH2.used_eq
    simp at this; omega
  have hdec : dec_unsigned p.used_nodes = p.used_nodes - 1 := by
    unfold dec_unsigned; rw [if_neg (by omega)]
  refine ⟨{ p with node_heap := h4, gap_ix := g, num_gaps := p.num_gaps - 1,
                    used_nodes := p.used_nodes - 1 }, ?_, ⟨?_, ?_, ?_, ?_, ?_, ?_, ?_⟩, hG2,
    rfl, rfl, rfl, rfl, rfl, ?_, ?_⟩
  · unfold mem_del_alloc_merge_prev
    simp only [hN, Seg.node, hFn, hF, e1, hf1, ha1, hrem, e4, hdec]
    simp
  · dsimp only; rw [l4, l1, hH.heap_len]
  · have := hH2.head
    rw [headSlot_append] at this ⊢
    cases pre <;> simpa [headSlot] using this
  · dsimp only
    have hj : ∀ j, j ≠ A.slot → j ≠ F.slot → h4[j]? =
        if headSlot post none = some j then
          (p.node_heap[j]?).map (fun x => { x with prev := some F.slot })
        else p.node_heap[j]? := by
      intro j hja hjf
      rw [hj4 j hja hjf, g1, if_neg hjf]
      rfl
    rw [Chain_append]
    refine ⟨?_, ?_, ?_⟩
    · apply Chain_frame p.node_heap _ _ _ _ _ hpre
      intro r hr
      rw [hj _ (nd3 r hr A (List.mem_cons_self _ _)) (nd1 r hr), if_neg]
      intro e
      obtain ⟨⟨s, hs, hsi⟩, _⟩ := headSlot_mem (d := none) e
      exact nd3 r hr s (List.mem_cons_of_mem _ hs) hsi.symm
    · rw [hf4]; rfl
    · apply Chain_reprev p.node_heap h4 post (some A.slot) (some F.slot) none ne5 hpost2
      intro s hs
      exact hj _ (ne2 s hs) (nd2 s (List.mem_cons_of_mem _ hs))
  · have := hH2.nodup
    apply List.Nodup.sublist _ this
    simp only [List.map_append, List.map_cons]
    apply List.Sublist.append_left
    apply List.Sublist.cons₂
    apply List.sublist_cons_self
  · dsimp only
    intro i n hi hni
    by_cases hia : i = A.slot
    · subst hia
      rw [ha4] at hi
      cases hi
      exact ha4u
    · have hif : i ≠ F.slot := by
        intro e; apply hni; simp [e]
      have hni2 : i ∉ (pre ++ F :: A :: post).map Seg.slot := by
        intro hm; apply hni
        simp only [List.map_append, List.map_cons, List.mem_append, List.mem_cons] at hm ⊢
        tauto
      rw [hj4 i hia hif, g1, if_neg hif, if_neg] at hi
      · exact hH2.unused i n hi hni2
      · intro e
        obtain ⟨⟨s, hs, hsi⟩, _⟩ := headSlot_mem (d := none) (show headSlot post none = some i from e)
        apply hni; simp only [List.map_append, List.map_cons, List.mem_append, List.mem_cons,
          List.mem_map]
        exact Or.inr (Or.inr ⟨s, hs, hsi⟩)
  · have := hH2.contig
    rw [Contig_append] at this ⊢
    obtain ⟨mid, c1, c2, c3, c4⟩ := this
    refine ⟨mid, c1, c2, ?_⟩
    have e : mid + (F.size + A.size) = mid + F.size + A.size := by omega
    show Contig (mid + (F.size + A.size)) post p.total_size
    rw [e]; exact c4
  · have := hH2.used_eq
    simp at this ⊢
    omega
  · show p.num_gaps - 1 + 1 = p.num_gaps
    omega
  · show p.used_nodes - 1 + 1 = p.used_nodes
    omega

theorem merge_next_spec (p : pool_mgr_t) (pre post : List Seg) (A : Seg)
    (hH : HeapOk p.node_heap p.total_nodes p.used_nodes p.total_size (pre ++ A :: post))
    (hG : GapIx p (free_entries pre ++ free_entries post)) :
    ∃ p1, mem_del_alloc_merge_next p A.slot = some p1 ∧
      HeapOk p1.node_heap p1.total_nodes p1.used_nodes p1.total_size
        (pre ++ (merge_next_segs A post).1 :: (merge_next_segs A post).2) ∧
      GapIx p1 (free_entries pre ++ free_entries (merge_next_segs A post).2) ∧
      p1.policy = p.policy ∧ p1.total_size = p.total_size ∧ p1.total_nodes = p.total_nodes ∧
      p1.num_allocs = p.num_allocs ∧ p1.alloc_size = p.alloc_size := by
  obtain ⟨hpre, hN, hpost⟩ := split_facts hH
  cases post with
  | nil =>
    refine ⟨p, ?_, hH, hG, rfl, rfl, rfl, rfl, rfl⟩
    unfold mem_del_alloc_merge_next
    simp [hN, Seg.node, headSlot]
  | cons F rest =>
    by_cases hF : F.alloc = true
    · refine ⟨p, ?_, by simpa [merge_next_segs, hF] using hH,
        by simpa [merge_next_segs, hF] using hG, rfl, rfl, rfl, rfl, rfl⟩
      obtain ⟨hFn, _⟩ := hpost
      unfold mem_del_alloc_merge_next
      simp [hN, Seg.node, headSlot, hFn, hF]
    · have hF2 : F.alloc = false := by simpa using hF
      obtain ⟨p1, h1, h2, h3, h4, h5, h6, h7, h8, _, _⟩ := merge_next_free p pre rest A F hH hG hF2
      exact ⟨p1, h1, by simpa [merge_next_segs, hF2] using h2,
        by simp [merge_next_segs, hF2, h3], h4, h5, h6, h7, h8⟩

theorem merge_prev_spec (p : pool_mgr_t) (pre post : List Seg) (A : Seg)
    (hH : HeapOk p.node_heap p.total_nodes p.used_nodes p.total_size (pre ++ A :: post))
    (hG : GapIx p (free_entries pre ++ free_entries post)) :
    ∃ p1, mem_del_alloc_merge_prev p A.slot =
        some (p1, (merge_prev_segs pre A).2.slot, alloc_status.ALLOC_OK) ∧
      HeapOk p1.node_heap p1.total_nodes p1.used_nodes p1.total_size
        ((merge_prev_segs pre A).1 ++ (merge_prev_segs pre A).2 :: post) ∧
      GapIx p1 (free_entries (merge_prev_segs pre A).1 ++ free_entries post) ∧
      p1.policy = p.policy ∧ p1.total_size = p.total_size ∧ p1.total_nodes = p.total_nodes ∧
      p1.num_allocs = p.num_allocs ∧ p1.alloc_size = p.alloc_size := by
  obtain ⟨hpre, hN, hpost⟩ := split_facts hH
  rcases List.eq_nil_or_concat pre with e | ⟨L, F, e⟩
  · subst e
    refine ⟨p, ?_, hH, hG, rfl, rfl, rfl, rfl, rfl⟩
    unfold mem_del_alloc_merge_prev
    simp [hN, Seg.node, lastSlot, merge_prev_segs]
  · rw [List.concat_eq_append] at e
    subst e
    have hlast : lastSlot (L ++ [F]) none = some F.slot := by
      rw [lastSlot_append]; rfl
    rw [hlast] at hN
    have hFn : p.node_heap[F.slot]? = some (F.node (lastSlot L none) (some A.slot)) := by
      rw [Chain_append] at hpre
      exact hpre.2.1
    by_cases hF : F.alloc = true
    · refine ⟨p, ?_, by simpa [merge_prev_segs, hF] using hH,
        by simpa [merge_prev_segs, hF] using hG, rfl, rfl, rfl, rfl, rfl⟩
      unfold mem_del_alloc_merge_prev
      simp [hN, Seg.node, hFn, hF, merge_prev_segs]
    · have hF2 : F.alloc = false := by simpa using hF
      obtain ⟨p1, h1, h2, h3, h4, h5, h6, h7, h8, _, _⟩ := merge_prev_free p L post A F hH hG hF2
      exact ⟨p1, by simpa [merge_prev_segs, hF2] using h1,
        by simpa [merge_prev_segs, hF2] using h2,
        by simpa [merge_prev_segs, hF2] using h3, h4, h5, h6, h7, h8⟩

theorem merge_next_segs_alloc (A : Seg) (post : List Seg) :
    (merge_next_segs A post).1.alloc = A.alloc ∧ (merge_next_segs A post).1.slot = A.slot ∧
      (merge_next_segs A post).1.start = A.start := by
  unfold merge_next_segs
  cases post with
  | nil => exact ⟨rfl, rfl, rfl⟩
  | cons F rest => by_cases h : F.alloc = true <;> simp [h]

theorem merge_prev_segs_alloc (pre : List Seg) (A : Seg) (hA : A.alloc = false) :
    (merge_prev_segs pre A).2.alloc = false := by
  unfold merge_prev_segs
  cases h : pre.getLast? with
  | none => exact hA
  | some F =>
    by_cases c : F.alloc = true
    · simp [c, hA]
    · simp [c]

/-- The pool between the merges and the final insertion into the gap index. -/
theorem del_reduce (p : pool_mgr_t) (pre post : List Seg) (A : Seg)
    (hH : HeapOk p.node_heap p.total_nodes p.used_nodes p.total_size (pre ++ A :: post))
    (hG : GapIx p (free_entries (pre ++ A :: post))) (hA : A.alloc = true)
    (hn : 1 ≤ p.num_allocs) (hs : A.size ≤ p.alloc_size) :
    ∃ p2, mem_del_alloc p (some A.slot) =
        (match _mem_add_to_gap_ix p2
            (merge_prev_segs pre (merge_next_segs { A with alloc := false } post).1).2.size
            (merge_prev_segs pre (merge_next_segs { A with alloc := false } post).1).2.slot with
          | none => none
          | some (p3, _) => some (p3, alloc_status.ALLOC_OK)) ∧
      HeapOk p2.node_heap p2.total_nodes p2.used_nodes p2.total_size (del_segs pre A post) ∧
      GapIx p2 (free_entries
          (merge_prev_segs pre (merge_next_segs { A with alloc := false } post).1).1 ++
        free_entries (merge_next_segs { A with alloc := false } post).2) ∧
      p2.policy = p.policy ∧ p2.total_size = p.total_size ∧ p2.total_nodes = p.total_nodes ∧
      p2.num_allocs = p.num_allocs - 1 ∧ p2.alloc_size = p.alloc_size - A.size := by
  obtain ⟨hpre, hN, hpost⟩ := split_facts hH
  obtain ⟨nd1, nd2, nd3, nd4, nd5⟩ := nodup_split hH.nodup
  have hlt := Chain_slot_lt _ _ _ _ hH.chain
  have halt : A.slot < p.total_nodes := by
    rw [← hH.heap_len]; exact hlt A (by simp)
  obtain ⟨h1, e1, l1, g1⟩ := upd_spec (fun x => { x with used := 1, allocated := 0 }) hN
  have ha1 : h1[A.slot]? =
      some (Seg.node { A with alloc := false } (lastSlot pre none) (headSlot post none)) := by
    rw [g1, if_pos rfl]; rfl
  have hdec : dec_unsigned p.num_allocs = p.num_allocs - 1 := by
    unfold dec_unsigned; rw [if_neg (by omega)]
  have hsub : size_sub p.alloc_size A.size = p.alloc_size - A.size := by
    unfold size_sub; rw [if_pos hs]
  have hH0 : HeapOk h1 p.total_nodes p.used_nodes p.total_size
      (pre ++ { A with alloc := false } :: post) := by
    refine ⟨?_, ?_, ?_, ?_, ?_, ?_, ?_⟩
    · rw [l1, hH.heap_len]
    · have := hH.head
      rw [headSlot_append] at this ⊢
      cases pre <;> simpa [headSlot] using this
    · rw [Chain_append]
      refine ⟨?_, ?_, ?_⟩
      · apply Chain_frame p.node_heap _ _ _ _ _ hpre
        intro r hr
        rw [g1, if_neg (nd1 r hr)]
      · exact ha1
      · apply Chain_frame p.node_heap _ _ _ _ _ hpost
        intro r hr
        rw [g1, if_neg (nd2 r hr)]
    · simpa using hH.nodup
    · intro i n hi hni
      have hni2 : i ∉ (pre ++ A :: post).map Seg.slot := by simpa using hni
      have hne : i ≠ A.slot := by
        intro e; apply hni2; rw [mem_slots_split]; exact Or.inr (Or.inl e)
      rw [g1, if_neg hne] at hi
      exact hH.unused i n hi hni2
    · have := hH.contig
      rw [Contig_append] at this ⊢
      obtain ⟨mid, c1, c2, c3⟩ := this
      exact ⟨mid, c1, c2, c3⟩
    · simpa using hH.used_eq
  have hG0 : GapIx { p with node_heap := h1, num_allocs := p.num_allocs - 1,
                            alloc_size := p.alloc_size - A.size }
      (free_entries pre ++ free_entries post) := by
    have : GapIx p (free_entries pre ++ free_entries post) := by
      apply hG.perm
      rw [free_entries_append, free_entries_cons_alloc A post hA]
    exact this
  obtain ⟨p1, hm1, hH1, hG1, f1, f2, f3, f4, f5⟩ :=
    merge_next_spec _ pre post { A with alloc := false } hH0 hG0
  dsimp only at hm1 f1 f2 f3 f4 f5
  obtain ⟨q1, q2, q3⟩ := merge_next_segs_alloc { A with alloc := false } post
  dsimp only at q1 q2 q3
  obtain ⟨p2, hm2, hH2, hG2, k1, k2, k3, k4, k5⟩ := merge_prev_spec p1 pre _ _ hH1 hG1
  rw [q2] at hm2
  obtain ⟨_, hM, _⟩ := split_facts hH2
  refine ⟨p2, ?_, hH2, hG2, by rw [k1, f1], by rw [k2, f2], by rw [k3, f3], by rw [k4, f4],
    by rw [k5, f5]⟩
  unfold mem_del_alloc
  simp only [if_neg (not_le.2 halt), e1, ha1, Seg.node, hdec, hsub, hm1, hm2, hM]

/-! ## The invariant holds in every reachable pool -/

theorem getElem?_set_replicate_zero {α : Type} (n : Nat) (z v : α) (j : Nat) (hn : 0 < n) :
    ((List.replicate n z).set 0 v)[j]? = if j = 0 then some v else if j < n then some z else none := by
  rw [List.getElem?_set]
  by_cases c : j = 0
  · subst c; simp [hn]
  · rw [if_neg (fun h => c h.symm), if_neg c, List.getElem?_replicate]

theorem open_inv (size : Nat) (policy : alloc_policy) :
    Inv (pool_mgr_open size policy) [⟨0, 0, size, false⟩] := by
  have hget : ∀ j, (pool_mgr_open size policy).node_heap[j]? =
      if j = 0 then some ⟨size, some 0, 1, 0, none, none⟩
      else if j < 40 then some node_zero else none := by
    intro j
    exact getElem?_set_replicate_zero 40 node_zero _ j (by decide)
  refine ⟨⟨?_, rfl, ?_, by simp, ?_, ?_, rfl⟩, ?_, rfl, rfl, by simp,
    by simp [pool_mgr_open, MEM_NODE_HEAP_INIT_CAPACITY],
    by simp [pool_mgr_open, MEM_NODE_HEAP_INIT_CAPACITY], ?_⟩
  · simp [pool_mgr_open, MEM_NODE_HEAP_INIT_CAPACITY]
  · exact ⟨by rw [hget]; rfl, trivial⟩
  · intro i n hi hni
    have hi0 : i ≠ 0 := by simpa using hni
    rw [hget, if_neg hi0] at hi
    by_cases c : i < 40
    · rw [if_pos c] at hi
      cases hi
      rfl
    · rw [if_neg c] at hi
      cases hi
  · exact ⟨rfl, by simp [Contig, pool_mgr_open]⟩
  · refine ⟨[⟨size, some 0⟩], ?_, rfl, ?_, rfl, by simp [pool_mgr_open]⟩
    · rfl
    · simp [free_entries]
  · by_cases c : size = 0
    · subst c; exact Or.inr ⟨0, rfl⟩
    · left
      intro g hg
      simp at hg
      subst hg
      exact Nat.pos_of_ne_zero c

/-- With the array extended in place and zeroed slots added, `_mem_resize_node_heap` appends
zeroed slots and doubles `total_nodes`. -/
theorem resize_in_place (p : pool_mgr_t) :
    _mem_resize_node_heap realloc_in_place p =
      if 4 * p.used_nodes > 3 * p.total_nodes then
        { p with
          node_heap :=
            (p.node_heap ++ List.replicate (p.total_nodes * 2) node_zero).take (p.total_nodes * 2)
          total_nodes := p.total_nodes * 2 }
      else p := rfl

/-- When at most three quarters of the node heap are used, `_mem_resize_node_heap` does not call
`realloc`: the pool is unchanged whatever the outcome would have been. -/
theorem resize_no_growth (r : realloc_t) (p : pool_mgr_t)
    (h : ¬ 4 * p.used_nodes > 3 * p.total_nodes) : _mem_resize_node_heap r p = p := by
  unfold _mem_resize_node_heap
  rw [if_neg h]

/-- When at most three quarters of the node heap are used, `mem_new_alloc` does not depend on
the outcome of `realloc`. -/
theorem mem_new_alloc_no_growth (r1 r2 : realloc_t) (p : pool_mgr_t) (size : Nat)
    (h : ¬ 4 * p.used_nodes > 3 * p.total_nodes) :
    mem_new_alloc r1 p size = mem_new_alloc r2 p size := by
  unfold mem_new_alloc
  rw [resize_no_growth r1 p h, resize_no_growth r2 p h]

theorem resize_heap_get (p : pool_mgr_t) (hlen : p.node_heap.length = p.total_nodes) (j : Nat) :
    ((p.node_heap ++ List.replicate (p.total_nodes * 2) node_zero).take (p.total_nodes * 2))[j]? =
      if j < p.total_nodes then p.node_heap[j]?
      else if j < p.total_nodes * 2 then some node_zero else none := by
  rw [List.getElem?_take]
  by_cases c1 : j < p.total_nodes
  · rw [if_pos (by omega), if_pos c1, List.getElem?_append_left (by omega)]
  · rw [if_neg c1]
    by_cases c2 : j < p.total_nodes * 2
    · rw [if_pos c2, if_pos c2, List.getElem?_append_right (by omega), List.getElem?_replicate,
        if_pos (by omega)]
    · rw [if_neg c2, if_neg c2]

theorem resize_heapOk (p : pool_mgr_t) (segs : List Seg)
    (hH : HeapOk p.node_heap p.total_nodes p.used_nodes p.total_size segs) :
    HeapOk (_mem_resize_node_heap realloc_in_place p).node_heap (_mem_resize_node_heap realloc_in_place p).total_nodes
      (_mem_resize_node_heap realloc_in_place p).used_nodes (_mem_resize_node_heap realloc_in_place p).total_size segs := by
  rw [resize_in_place]
  by_cases c : 4 * p.used_nodes > 3 * p.total_nodes
  · rw [if_pos c]
    have hlt := Chain_slot_lt _ _ _ _ hH.chain
    have hg := resize_heap_get p hH.heap_len
    refine ⟨?_, hH.head, ?_, hH.nodup, ?_, hH.contig, hH.used_eq⟩
    · simp [hH.heap_len]
    · apply Chain_frame p.node_heap _ _ _ _ _ hH.chain
      intro g hgm
      dsimp only
      rw [hg, if_pos (by rw [← hH.heap_len]; exact hlt g hgm)]
    · dsimp only
      intro i n hi hni
      rw [hg] at hi
      by_cases c1 : i < p.total_nodes
      · rw [if_pos c1] at hi
        exact hH.unused i n hi hni
      · rw [if_neg c1] at hi
        by_cases c2 : i < p.total_nodes * 2
        · rw [if_pos c2] at hi
          cases hi
          rfl
        · rw [if_neg c2] at hi
          cases hi
  · rw [if_neg c]
    exact hH

theorem resize_fields (p : pool_mgr_t) :
    (_mem_resize_node_heap realloc_in_place p).policy = p.policy ∧
    (_mem_resize_node_heap realloc_in_place p).total_size = p.total_size ∧
    (_mem_resize_node_heap realloc_in_place p).alloc_size = p.alloc_size ∧
    (_mem_resize_node_heap realloc_in_place p).num_allocs = p.num_allocs ∧
    (_mem_resize_node_heap realloc_in_place p).num_gaps = p.num_gaps ∧
    (_mem_resize_node_heap realloc_in_place p).used_nodes = p.used_nodes ∧
    (_mem_resize_node_heap realloc_in_place p).gap_ix = p.gap_ix ∧
    (_mem_resize_node_heap realloc_in_place p).gap_ix_capacity = p.gap_ix_capacity := by
  rw [resize_in_place]
  by_cases c : 4 * p.used_nodes > 3 * p.total_nodes
  · rw [if_pos c]; exact ⟨rfl, rfl, rfl, rfl, rfl, rfl, rfl, rfl⟩
  · rw [if_neg c]; exact ⟨rfl, rfl, rfl, rfl, rfl, rfl, rfl, rfl⟩

theorem resize_room (p : pool_mgr_t) (h1 : 4 * p.used_nodes ≤ 3 * p.total_nodes + 4)
    (h2 : 40 ≤ p.total_nodes) :
    4 * (_mem_resize_node_heap realloc_in_place p).used_nodes ≤ 3 * (_mem_resize_node_heap realloc_in_place p).total_nodes ∧
      40 ≤ (_mem_resize_node_heap realloc_in_place p).total_nodes := by
  rw [resize_in_place]
  by_cases c : 4 * p.used_nodes > 3 * p.total_nodes
  · rw [if_pos c]; dsimp only; omega
  · rw [if_neg c]; omega

theorem resize_gapIx (p : pool_mgr_t) (fl : List gap_t) (h : GapIx p fl) :
    GapIx (_mem_resize_node_heap realloc_in_place p) fl := by
  obtain ⟨e1, e2, e3, e4, e5, e6, e7, e8⟩ := resize_fields p
  obtain ⟨entries, h1, h2, h3, h4, h5⟩ := h
  exact ⟨entries, by rw [e7, h1], by rw [e5, h2], h3, by rw [e8, h4], by rw [e5]; exact h5⟩

theorem Inv.weak {p : pool_mgr_t} {segs : List Seg} (h : Inv p segs) : InvW p segs :=
  ⟨h.heap, h.gap, h.num_allocs, h.alloc_size, h.no_adj, h.cap, h.total_ge⟩

theorem resize_invW (p : pool_mgr_t) (segs : List Seg) (h : InvW p segs) :
    InvW (_mem_resize_node_heap realloc_in_place p) segs := by
  obtain ⟨e1, e2, e3, e4, e5, e6, e7, e8⟩ := resize_fields p
  obtain ⟨r1, r2⟩ := resize_room p h.cap h.total_ge
  exact ⟨resize_heapOk p segs h.heap, resize_gapIx p _ h.gap, by rw [e4]; exact h.num_allocs,
    by rw [e3]; exact h.alloc_size, h.no_adj, by omega, r2⟩

theorem resize_inv (p : pool_mgr_t) (segs : List Seg) (h : Inv p segs) :
    Inv (_mem_resize_node_heap realloc_in_place p) segs := by
  obtain ⟨e1, e2, e3, e4, e5, e6, e7, e8⟩ := resize_fields p
  obtain ⟨r1, r2⟩ := resize_room p h.cap h.total_ge
  exact ⟨resize_heapOk p segs h.heap, resize_gapIx p _ h.gap, by rw [e4]; exact h.num_allocs,
    by rw [e3]; exact h.alloc_size, h.no_adj, by omega, r2, h.pos⟩

/-- The node that the policy selects in a represented pool is a free segment of the list
that is large enough. -/
theorem select_spec (p : pool_mgr_t) (segs : List Seg) (size : Nat)
    (hH : HeapOk p.node_heap p.total_nodes p.used_nodes p.total_size segs)
    (hG : GapIx p (free_entries segs)) (hg0 : p.num_gaps ≠ 0) :
    ∃ r, mem_new_alloc_select p size = some r ∧
      ∀ h, r = some h → ∃ pre N post, segs = pre ++ N :: post ∧ N.slot = h ∧
        N.alloc = false ∧ size ≤ N.size := by
  unfold mem_new_alloc_select
  cases hpol : p.policy with
  | FIRST_FIT =>
    dsimp only
    have hdef : ∀ j, 0 ≤ j → j < 0 + p.total_nodes →
        ∃ b, first_fit_test p.node_heap size j = some b := by
      intro j _ hj
      have : j < p.node_heap.length := by rw [hH.heap_len]; omega
      rw [first_fit_test, List.getElem?_eq_getElem this]
      exact ⟨_, rfl⟩
    obtain ⟨r, hr⟩ := scan_first_defined _ _ _ hdef
    refine ⟨r, hr, ?_⟩
    intro h hrh
    subst hrh
    obtain ⟨_, _, ht, _⟩ := scan_first_some_spec _ _ _ _ hr
    simp only [first_fit_test, Option.map_eq_some'] at ht
    obtain ⟨n, hn, hc⟩ := ht
    simp only [Bool.and_eq_true, decide_eq_true_eq] at hc
    obtain ⟨⟨hu, ha⟩, hs⟩ := hc
    obtain ⟨pre, N, post, e, hslot⟩ := used_mem_slots hH hn hu
    subst e
    obtain ⟨_, hN, _⟩ := split_facts hH
    rw [hslot, hn] at hN
    cases hN
    refine ⟨pre, N, post, rfl, hslot, ?_, hs⟩
    by_cases c : N.alloc = true
    · simp [Seg.node, c] at ha
    · simpa using c
  | BEST_FIT =>
    dsimp only
    obtain ⟨entries, h1, h2, h3, h4, h5⟩ := hG
    have hlen : p.gap_ix.length = 40 := by rw [h1]; simp; omega
    have hdef : ∀ j, 0 ≤ j → j < 0 + p.gap_ix_capacity →
        ∃ b, best_fit_test p.gap_ix size j = some b := by
      intro j _ hj
      have : j < p.gap_ix.length := by rw [hlen]; omega
      rw [best_fit_test, List.getElem?_eq_getElem this]
      exact ⟨_, rfl⟩
    obtain ⟨r, hr⟩ := scan_first_defined _ _ _ hdef
    cases r with
    | none => exact ⟨none, by simp [hr], by intro h hh; cases hh⟩
    | some i =>
      obtain ⟨_, hi, ht, hfirst⟩ := scan_first_some_spec _ _ _ _ hr
      simp only [best_fit_test, Option.map_eq_some'] at ht
      obtain ⟨e, he, hc⟩ := ht
      simp only [decide_eq_true_eq] at hc
      have hpos : 0 < entries.length := by omega
      have hilt : i < entries.length := by
        by_contra hge
        have hz : e = gap_zero := by
          rw [h1, List.getElem?_append_right (by omega), List.getElem?_replicate] at he
          split at he
          · cases he; rfl
          · cases he
        have hs0 : size = 0 := by rw [hz] at hc; simpa [gap_zero] using hc
        have h0 := hfirst 0 (le_refl _) (by omega)
        rw [best_fit_test, h1, List.getElem?_append_left hpos,
          List.getElem?_eq_getElem hpos] at h0
        simp [hs0] at h0
      have hmem : e ∈ free_entries segs := by
        apply h3.subset
        rw [h1, List.getElem?_append_left hilt] at he
        exact List.getElem?_mem he
      obtain ⟨N, hN, hNa, hNe⟩ := mem_free_entries hmem
      obtain ⟨pre, post, hsplit⟩ := List.append_of_mem hN
      refine ⟨e.node, by simp [hr, he], ?_⟩
      intro h hh
      subst hNe
      simp only [Option.some.injEq] at hh
      exact ⟨pre, N, post, hsplit, hh, hNa, hc⟩

theorem chain_noadj_insert {pre post : List Seg} {N : Seg} (N2 U : Seg)
    (h : List.Chain' (fun a b : Seg => a.alloc = true ∨ b.alloc = true) (pre ++ N :: post))
    (hN : N.alloc = false) (hN2 : N2.alloc = true) :
    List.Chain' (fun a b : Seg => a.alloc = true ∨ b.alloc = true) (pre ++ N2 :: post) ∧
    List.Chain' (fun a b : Seg => a.alloc = true ∨ b.alloc = true) (pre ++ N2 :: U :: post) := by
  rw [List.chain'_split] at h
  obtain ⟨h1, h2⟩ := h
  rw [List.chain'_append] at h1
  obtain ⟨h1a, _, _⟩ := h1
  have hpost : List.Chain' (fun a b : Seg => a.alloc = true ∨ b.alloc = true) post :=
    (List.chain'_cons'.1 h2).2
  have hhead : ∀ y ∈ post.head?, y.alloc = true := by
    intro y hy
    rcases (List.chain'_cons'.1 h2).1 y hy with h | h
    · rw [hN] at h; cases h
    · exact h
  have hpre2 : List.Chain' (fun a b : Seg => a.alloc = true ∨ b.alloc = true) (pre ++ [N2]) := by
    rw [List.chain'_append]
    refine ⟨h1a, List.chain'_singleton _, ?_⟩
    intro x _ y hy
    simp at hy
    subst hy
    exact Or.inr hN2
  constructor
  · rw [List.chain'_split]
    refine ⟨hpre2, List.chain'_cons'.2 ⟨fun y _ => Or.inl hN2, hpost⟩⟩
  · rw [List.chain'_split]
    refine ⟨hpre2, List.chain'_cons'.2 ⟨fun y _ => Or.inl hN2, ?_⟩⟩
    exact List.chain'_cons'.2 ⟨fun y hy => Or.inr (hhead y hy), hpost⟩

theorem alloc_commit_invW (p p2 : pool_mgr_t) (size : Nat) (pre post : List Seg) (N : Seg)
    (segs2 : List Seg) (h : InvW p (pre ++ N :: post)) (hN : N.alloc = false)
    (hroom : 4 * p.used_nodes ≤ 3 * p.total_nodes)
    (hpost : AllocPost p p2 size pre post N segs2) : InvW p2 segs2 := by
  obtain ⟨hH, hG, a1, a2, a3, a4, a5, hcase⟩ := hpost
  obtain ⟨c1, c2⟩ := chain_noadj_insert ⟨N.slot, N.start, size, true⟩
    ⟨0, 0, 0, false⟩ h.no_adj hN rfl
  have hu := h.heap.used_eq
  have hu2 := hH.used_eq
  have hna := h.num_allocs
  have hsa := h.alloc_size
  rcases hcase with ⟨e, hsegs, _⟩ | ⟨e, _, u, hsegs⟩
  · subst hsegs
    refine ⟨hH, hG, ?_, ?_, c1, ?_, by rw [a5]; exact h.total_ge⟩
    · rw [a1, hna]; simp [List.filter_append, List.filter_cons, hN]; omega
    · rw [a2, hsa]; simp [List.filter_append, List.filter_cons, hN]; omega
    · rw [a5]; simp at hu hu2; omega
  · subst hsegs
    have c2b : List.Chain' (fun a b : Seg => a.alloc = true ∨ b.alloc = true)
        (pre ++ ⟨N.slot, N.start, size, true⟩ :: ⟨u, N.start + size, N.size - size, false⟩ ::
          post) :=
      (chain_noadj_insert ⟨N.slot, N.start, size, true⟩
        ⟨u, N.start + size, N.size - size, false⟩ h.no_adj hN rfl).2
    refine ⟨hH, hG, ?_, ?_, c2b, ?_, by rw [a5]; exact h.total_ge⟩
    · rw [a1, hna]; simp [List.filter_append, List.filter_cons, hN]; omega
    · rw [a2, hsa]; simp [List.filter_append, List.filter_cons, hN]; omega
    · rw [a5]; simp at hu hu2; omega

theorem alloc_commit_inv (p p2 : pool_mgr_t) (size : Nat) (pre post : List Seg) (N : Seg)
    (segs2 : List Seg) (h : Inv p (pre ++ N :: post)) (hN : N.alloc = false) (hs : 0 < size)
    (hroom : 4 * p.used_nodes ≤ 3 * p.total_nodes)
    (hpost : AllocPost p p2 size pre post N segs2) : Inv p2 segs2 := by
  have hw := alloc_commit_invW p p2 size pre post N segs2 h.weak hN hroom hpost
  obtain ⟨hH, hG, a1, a2, a3, a4, a5, hcase⟩ := hpost
  have hpos : ∀ g ∈ pre ++ N :: post, 0 < g.size := by
    rcases h.pos with hp | ⟨s, hp⟩
    · exact hp
    · exfalso
      have hl : (pre ++ N :: post).length = 1 := by rw [hp]; rfl
      have hpre : pre = [] := by
        cases pre with
        | nil => rfl
        | cons a l => simp at hl
      subst hpre
      simp at hp
      rcases hcase with ⟨e, _, _⟩ | ⟨e, _, _⟩
      · rw [hp.1] at e; simp at e; omega
      · rw [hp.1] at e; simp at e
  refine ⟨hw.heap, hw.gap, hw.num_allocs, hw.alloc_size, hw.no_adj, hw.cap, hw.total_ge,
    Or.inl ?_⟩
  rcases hcase with ⟨e, hsegs, _⟩ | ⟨e, _, u, hsegs⟩
  · subst hsegs
    intro g hg
    simp only [List.mem_append, List.mem_cons] at hg
    rcases hg with hg | hg | hg
    · exact hpos g (by simp [hg])
    · subst hg; exact hs
    · exact hpos g (by simp [hg])
  · subst hsegs
    intro g hg
    simp only [List.mem_append, List.mem_cons] at hg
    rcases hg with hg | hg | hg | hg
    · exact hpos g (by simp [hg])
    · subst hg; exact hs
    · subst hg; show 0 < N.size - size; omega
    · exact hpos g (by simp [hg])

/-- A call of `mem_new_alloc` with any size on a pool that satisfies the invariant: either
it fails and leaves the pool as the node heap resize left it, or it commits a free segment of
the list. -/
theorem alloc_casesW (p p2 : pool_mgr_t) (segs : List Seg) (size : Nat) (r : Option Nat)
    (h : InvW p segs) (hr : mem_new_alloc realloc_in_place p size = some (p2, r)) :
    (r = none ∧ (p2 = p ∨ p2 = _mem_resize_node_heap realloc_in_place p)) ∨
    (∃ pre N post segs2, segs = pre ++ N :: post ∧ N.alloc = false ∧ size ≤ N.size ∧
      r = some N.slot ∧
      mem_new_alloc_select (_mem_resize_node_heap realloc_in_place p) size = some (some N.slot) ∧
      AllocPost (_mem_resize_node_heap realloc_in_place p) p2 size pre post N segs2) := by
  have hq := resize_invW p segs h
  obtain ⟨r1, r2⟩ := resize_room p h.cap h.total_ge
  unfold mem_new_alloc at hr
  by_cases c0 : p.num_gaps = 0
  · rw [if_pos c0] at hr
    cases hr
    exact Or.inl ⟨rfl, Or.inl rfl⟩
  · rw [if_neg c0] at hr
    by_cases c1 : (_mem_resize_node_heap realloc_in_place p).total_nodes ≤ (_mem_resize_node_heap realloc_in_place p).used_nodes
    · rw [if_pos c1] at hr
      cases hr
      exact Or.inl ⟨rfl, Or.inr rfl⟩
    · rw [if_neg c1] at hr
      have hg0 : (_mem_resize_node_heap realloc_in_place p).num_gaps ≠ 0 := by
        rw [(resize_fields p).2.2.2.2.1]; exact c0
      obtain ⟨sel, hsel, hspec⟩ := select_spec _ segs size hq.heap hq.gap hg0
      rw [hsel] at hr
      cases sel with
      | none =>
        cases hr
        exact Or.inl ⟨rfl, Or.inr rfl⟩
      | some node =>
        obtain ⟨pre, N, post, e, hslot, hNf, hsz⟩ := hspec node rfl
        subst e
        subst hslot
        dsimp only at hr
        right
        by_cases ce : N.size = size
        · obtain ⟨q, segs2, hc, hp⟩ := alloc_commit_exact _ size pre post N hq.heap hq.gap hNf ce
          rw [hc] at hr
          cases hr
          exact ⟨pre, N, post, segs2, rfl, hNf, hsz, rfl, hsel, hp⟩
        · obtain ⟨q, segs2, hc, hp⟩ := alloc_commit_split _ size pre post N hq.heap hq.gap hNf
            (by omega) (by omega)
          rw [hc] at hr
          cases hr
          exact ⟨pre, N, post, segs2, rfl, hNf, hsz, rfl, hsel, hp⟩

/-- A call of `mem_new_alloc` on a pool that satisfies the invariant: either it fails and
leaves the pool as the node heap resize left it, or it commits a free segment of the list. -/
theorem alloc_cases (p p2 : pool_mgr_t) (segs : List Seg) (size : Nat) (r : Option Nat)
    (h : Inv p segs) (hr : mem_new_alloc realloc_in_place p size = some (p2, r)) :
    (r = none ∧ (p2 = p ∨ p2 = _mem_resize_node_heap realloc_in_place p)) ∨
    (∃ pre N post segs2, segs = pre ++ N :: post ∧ N.alloc = false ∧ size ≤ N.size ∧
      r = some N.slot ∧
      mem_new_alloc_select (_mem_resize_node_heap realloc_in_place p) size = some (some N.slot) ∧
      AllocPost (_mem_resize_node_heap realloc_in_place p) p2 size pre post N segs2) :=
  alloc_casesW p p2 segs size r h.weak hr

theorem alloc_invW (p p2 : pool_mgr_t) (segs : List Seg) (size : Nat) (r : Option Nat)
    (h : InvW p segs) (hr : mem_new_alloc realloc_in_place p size = some (p2, r)) :
    ∃ segs2, InvW p2 segs2 := by
  rcases alloc_casesW p p2 segs size r h hr with
    ⟨_, e | e⟩ | ⟨pre, N, post, segs2, e, hN, _, _, _, hp⟩
  · subst e; exact ⟨segs, h⟩
  · subst e; exact ⟨segs, resize_invW p segs h⟩
  · subst e
    exact ⟨segs2, alloc_commit_invW _ p2 size pre post N segs2 (resize_invW p _ h) hN
      (resize_room p h.cap h.total_ge).1 hp⟩

theorem alloc_inv (p p2 : pool_mgr_t) (segs : List Seg) (size : Nat) (r : Option Nat)
    (h : Inv p segs) (hs : 0 < size) (hr : mem_new_alloc realloc_in_place p size = some (p2, r)) :
    ∃ segs2, Inv p2 segs2 := by
  rcases alloc_cases p p2 segs size r h hr with ⟨_, e | e⟩ | ⟨pre, N, post, segs2, e, hN, _, _, _, hp⟩
  · subst e; exact ⟨segs, h⟩
  · subst e; exact ⟨segs, resize_inv p segs h⟩
  · subst e
    exact ⟨segs2, alloc_commit_inv _ p2 size pre post N segs2 (resize_inv p _ h) hN hs
      (resize_room p h.cap h.total_ge).1 hp⟩

theorem merge_next_segs_nil (X : Seg) : merge_next_segs X [] = (X, []) := rfl

theorem merge_next_segs_alloc_cons (X F : Seg) (rest : List Seg) (hF : F.alloc = true) :
    merge_next_segs X (F :: rest) = (X, F :: rest) := by
  simp [merge_next_segs, hF]

theorem merge_next_segs_free_cons (X F : Seg) (rest : List Seg) (hF : F.alloc = false) :
    merge_next_segs X (F :: rest) = ({ X with size := X.size + F.size }, rest) := by
  simp [merge_next_segs, hF]

theorem merge_prev_segs_nil (Y : Seg) : merge_prev_segs [] Y = ([], Y) := rfl

theorem merge_prev_segs_alloc_concat (L : List Seg) (F Y : Seg) (hF : F.alloc = true) :
    merge_prev_segs (L ++ [F]) Y = (L ++ [F], Y) := by
  simp [merge_prev_segs, hF]

theorem merge_prev_segs_free_concat (L : List Seg) (F Y : Seg) (hF : F.alloc = false) :
    merge_prev_segs (L ++ [F]) Y = (L, { F with size := F.size + Y.size }) := by
  simp [merge_prev_segs, hF]

theorem merge_next_segs_props (X : Seg) (post : List Seg)
    (hc : List.Chain' (fun a b : Seg => a.alloc = true ∨ b.alloc = true) post) :
    (merge_next_segs X post).2.filter (fun g => g.alloc) = post.filter (fun g => g.alloc) ∧
    List.Chain' (fun a b : Seg => a.alloc = true ∨ b.alloc = true) (merge_next_segs X post).2 ∧
    (∀ y ∈ (merge_next_segs X post).2.head?, y.alloc = true) ∧
    X.size ≤ (merge_next_segs X post).1.size ∧
    (∀ g ∈ (merge_next_segs X post).2, g ∈ post) ∧
    (merge_next_segs X post).2.length ≤ post.length := by
  cases post with
  | nil => simp [merge_next_segs]
  | cons F rest =>
    by_cases hF : F.alloc = true
    · rw [merge_next_segs_alloc_cons X F rest hF]
      refine ⟨rfl, hc, ?_, le_refl _, fun g hg => hg, le_refl _⟩
      intro y hy
      simp only [List.head?_cons, Option.mem_def, Option.some.injEq] at hy
      subst hy
      exact hF
    · have hF2 : F.alloc = false := by simpa using hF
      rw [merge_next_segs_free_cons X F rest hF2]
      refine ⟨?_, (List.chain'_cons'.1 hc).2, ?_, ?_, fun g hg => List.mem_cons_of_mem _ hg, ?_⟩
      · simp [List.filter_cons, hF2]
      · intro y hy
        rcases (List.chain'_cons'.1 hc).1 y hy with h | h
        · rw [hF2] at h; cases h
        · exact h
      · simp
      · simp

theorem merge_prev_segs_props (pre : List Seg) (Y : Seg)
    (hc : List.Chain' (fun a b : Seg => a.alloc = true ∨ b.alloc = true) pre) :
    (merge_prev_segs pre Y).1.filter (fun g => g.alloc) = pre.filter (fun g => g.alloc) ∧
    List.Chain' (fun a b : Seg => a.alloc = true ∨ b.alloc = true) (merge_prev_segs pre Y).1 ∧
    (∀ x ∈ (merge_prev_segs pre Y).1.getLast?, x.alloc = true) ∧
    Y.size ≤ (merge_prev_segs pre Y).2.size ∧
    (∀ g ∈ (merge_prev_segs pre Y).1, g ∈ pre) ∧
    (merge_prev_segs pre Y).1.length ≤ pre.length := by
  rcases List.eq_nil_or_concat pre with e | ⟨L, F, e⟩
  · subst e
    simp [merge_prev_segs]
  · rw [List.concat_eq_append] at e
    subst e
    by_cases hF : F.alloc = true
    · rw [merge_prev_segs_alloc_concat L F Y hF]
      refine ⟨rfl, hc, ?_, le_refl _, fun g hg => hg, le_refl _⟩
      intro x hx
      simp only [List.getLast?_concat, Option.mem_def, Option.some.injEq] at hx
      subst hx
      exact hF
    · have hF2 : F.alloc = false := by simpa using hF
      rw [merge_prev_segs_free_concat L F Y hF2]
      rw [List.chain'_append] at hc
      obtain ⟨hL, _, hlast⟩ := hc
      refine ⟨?_, hL, ?_, ?_, fun g hg => List.mem_append_left _ hg, ?_⟩
      · simp [List.filter_append, List.filter_cons, hF2]
      · intro x hx
        rcases hlast x hx F (by simp) with h | h
        · exact h
        · rw [hF2] at h; cases h
      · simp
      · simp

theorem free_entries_length_le (l : List Seg) : (free_entries l).length ≤ l.length := by
  unfold free_entries
  rw [List.length_map]
  exact List.length_filter_le _ _

/-- The result of `mem_del_alloc` on an allocated segment of a pool that satisfies the
invariant, when the call is defined. -/
theorem del_postW (p p3 : pool_mgr_t) (pre post : List Seg) (A : Seg) (st : alloc_status)
    (h : InvW p (pre ++ A :: post)) (hA : A.alloc = true)
    (hr : mem_del_alloc p (some A.slot) = some (p3, st)) :
    st = alloc_status.ALLOC_OK ∧ InvW p3 (del_segs pre A post) ∧
      p3.num_allocs + 1 = p.num_allocs ∧ p3.alloc_size + A.size = p.alloc_size ∧
      p3.policy = p.policy ∧ p3.total_size = p.total_size ∧ p3.total_nodes = p.total_nodes := by
  have hn : 1 ≤ p.num_allocs := by
    rw [h.num_allocs]; simp [List.filter_append, List.filter_cons, hA]; omega
  have hs : A.size ≤ p.alloc_size := by
    rw [h.alloc_size]; simp [List.filter_append, List.filter_cons, hA]; omega
  obtain ⟨p2, hred, hH2, hG2, f1, f2, f3, f4, f5⟩ := del_reduce p pre post A h.heap h.gap hA hn hs
  rw [hred] at hr
  have hnoadj := h.no_adj
  rw [List.chain'_split] at hnoadj
  obtain ⟨hna1, hna2⟩ := hnoadj
  have hcpre : List.Chain' (fun a b : Seg => a.alloc = true ∨ b.alloc = true) pre :=
    (List.chain'_append.1 hna1).1
  have hcpost : List.Chain' (fun a b : Seg => a.alloc = true ∨ b.alloc = true) post :=
    (List.chain'_cons'.1 hna2).2
  obtain ⟨n1, n2, n3, n4, n5, n6⟩ :=
    merge_next_segs_props { A with alloc := false } post hcpost
  obtain ⟨m1, m2, m3, m4, m5, m6⟩ :=
    merge_prev_segs_props pre (merge_next_segs { A with alloc := false } post).1 hcpre
  obtain ⟨q1, q2, q3⟩ := merge_next_segs_alloc { A with alloc := false } post
  have hM := merge_prev_segs_alloc pre _ q1
  by_cases c : p2.num_gaps ≤ 30
  · have hlt := Chain_slot_lt _ _ _ _ hH2.chain
    have hvalid : ∀ e ∈ free_entries
          (merge_prev_segs pre (merge_next_segs { A with alloc := false } post).1).1 ++
        free_entries (merge_next_segs { A with alloc := false } post).2,
        GapValid p2.node_heap e := by
      rw [← free_entries_append]
      apply gap_valid_of_lt
      intro s hs
      apply hlt
      unfold del_segs
      rcases List.mem_append.1 hs with h | h
      · simp [h]
      · simp [h]
    obtain ⟨g, hadd, hG3⟩ := GapIx_add p2 _
      (merge_prev_segs pre (merge_next_segs { A with alloc := false } post).1).2.size
      (merge_prev_segs pre (merge_next_segs { A with alloc := false } post).1).2.slot
      hG2 c hvalid
      ⟨_, List.getElem?_eq_getElem (hlt _ (by unfold del_segs; simp))⟩
    rw [hadd] at hr
    simp only [Option.some.injEq, Prod.mk.injEq] at hr
    obtain ⟨e1, e2⟩ := hr
    subst e1
    refine ⟨e2.symm, ⟨hH2, ?_, ?_, ?_, ?_, ?_, ?_⟩, ?_, ?_, f1, f2, f3⟩
    · apply hG3.perm
      unfold del_segs
      rw [free_entries_append, free_entries_cons_free _ _ hM]
      exact List.perm_middle.symm
    · show p2.num_allocs = _
      rw [f4, h.num_allocs]
      unfold del_segs
      simp [List.filter_append, List.filter_cons, hA, hM, m1, n1]
    · show p2.alloc_size = _
      rw [f5, h.alloc_size]
      unfold del_segs
      simp [List.filter_append, List.filter_cons, hA, hM, m1, n1]
      omega
    · unfold del_segs
      rw [List.chain'_split]
      constructor
      · rw [List.chain'_append]
        refine ⟨m2, List.chain'_singleton _, ?_⟩
        intro x hx y hy
        exact Or.inl (m3 x hx)
      · exact List.chain'_cons'.2 ⟨fun y hy => Or.inr (n3 y hy), n2⟩
    · show 4 * p2.used_nodes ≤ 3 * p2.total_nodes + 4
      have hu := h.heap.used_eq
      have hu2 := hH2.used_eq
      have hc := h.cap
      unfold del_segs at hu2
      simp at hu hu2
      rw [f3]
      omega
    · show 40 ≤ p2.total_nodes
      rw [f3]; exact h.total_ge
    · show p2.num_allocs + 1 = p.num_allocs
      omega
    · show p2.alloc_size + A.size = p.alloc_size
      omega
  · have hcap : p2.gap_ix_capacity = 40 := by
      obtain ⟨_, _, _, _, h, _⟩ := hG2; exact h
    rw [add_undefined p2 _ _ hcap (by omega)] at hr
    cases hr

/-- The result of `mem_del_alloc` on an allocated segment of a pool that satisfies the
invariant, when the call is defined. -/
theorem del_post (p p3 : pool_mgr_t) (pre post : List Seg) (A : Seg) (st : alloc_status)
    (h : Inv p (pre ++ A :: post)) (hA : A.alloc = true)
    (hr : mem_del_alloc p (some A.slot) = some (p3, st)) :
    st = alloc_status.ALLOC_OK ∧ Inv p3 (del_segs pre A post) ∧
      p3.num_allocs + 1 = p.num_allocs ∧ p3.alloc_size + A.size = p.alloc_size ∧
      p3.policy = p.policy ∧ p3.total_size = p.total_size ∧ p3.total_nodes = p.total_nodes := by
  obtain ⟨r1, hw, r3, r4, r5, r6, r7⟩ := del_postW p p3 pre post A st h.weak hA hr
  refine ⟨r1, ⟨hw.heap, hw.gap, hw.num_allocs, hw.alloc_size, hw.no_adj, hw.cap, hw.total_ge,
    Or.inl ?_⟩, r3, r4, r5, r6, r7⟩
  have hnoadj := h.no_adj
  rw [List.chain'_split] at hnoadj
  obtain ⟨hna1, hna2⟩ := hnoadj
  have hcpre : List.Chain' (fun a b : Seg => a.alloc = true ∨ b.alloc = true) pre :=
    (List.chain'_append.1 hna1).1
  have hcpost : List.Chain' (fun a b : Seg => a.alloc = true ∨ b.alloc = true) post :=
    (List.chain'_cons'.1 hna2).2
  obtain ⟨n1, n2, n3, n4, n5, n6⟩ :=
    merge_next_segs_props { A with alloc := false } post hcpost
  obtain ⟨m1, m2, m3, m4, m5, m6⟩ :=
    merge_prev_segs_props pre (merge_next_segs { A with alloc := false } post).1 hcpre
  have hpos : ∀ g ∈ pre ++ A :: post, 0 < g.size := by
    rcases h.pos with hp | ⟨s, hp⟩
    · exact hp
    · exfalso
      have hAm : A ∈ [(⟨s, 0, 0, false⟩ : Seg)] := by rw [← hp]; simp
      simp at hAm
      rw [hAm] at hA
      cases hA
  intro g hg
  unfold del_segs at hg
  simp only [List.mem_append, List.mem_cons] at hg
  rcases hg with hg | hg | hg
  · exact hpos g (by simp [m5 g hg])
  · subst hg
    have := hpos A (by simp)
    have h4 : A.size ≤ (merge_next_segs { A with alloc := false } post).1.size := n4
    omega
  · exact hpos g (by simp [n5 g hg])

theorem del_definedW (p : pool_mgr_t) (pre post : List Seg) (A : Seg)
    (h : InvW p (pre ++ A :: post)) (hA : A.alloc = true)
    (hroom : (free_entries (del_segs pre A post)).length ≤ 31) :
    ∃ p3, mem_del_alloc p (some A.slot) = some (p3, alloc_status.ALLOC_OK) := by
  have hn : 1 ≤ p.num_allocs := by
    rw [h.num_allocs]; simp [List.filter_append, List.filter_cons, hA]; omega
  have hs : A.size ≤ p.alloc_size := by
    rw [h.alloc_size]; simp [List.filter_append, List.filter_cons, hA]; omega
  obtain ⟨p2, hred, hH2, hG2, _⟩ := del_reduce p pre post A h.heap h.gap hA hn hs
  obtain ⟨q1, q2, q3⟩ := merge_next_segs_alloc { A with alloc := false } post
  have hM := merge_prev_segs_alloc pre _ q1
  have hlt := Chain_slot_lt _ _ _ _ hH2.chain
  have hnum : p2.num_gaps ≤ 30 := by
    obtain ⟨entries, _, e2, e3, _, _⟩ := hG2
    have := e3.length_eq
    unfold del_segs at hroom
    rw [free_entries_append, free_entries_cons_free _ _ hM] at hroom
    simp only [List.length_append, List.length_cons] at hroom this
    omega
  have hvalid : ∀ e ∈ free_entries
        (merge_prev_segs pre (merge_next_segs { A with alloc := false } post).1).1 ++
      free_entries (merge_next_segs { A with alloc := false } post).2,
      GapValid p2.node_heap e := by
    rw [← free_entries_append]
    apply gap_valid_of_lt
    intro s hs
    apply hlt
    unfold del_segs
    rcases List.mem_append.1 hs with h | h
    · simp [h]
    · simp [h]
  obtain ⟨g, hadd, _⟩ := GapIx_add p2 _
    (merge_prev_segs pre (merge_next_segs { A with alloc := false } post).1).2.size
    (merge_prev_segs pre (merge_next_segs { A with alloc := false } post).1).2.slot
    hG2 hnum hvalid
    ⟨_, List.getElem?_eq_getElem (hlt _ (by unfold del_segs; simp))⟩
  rw [hred, hadd]
  exact ⟨_, rfl⟩

theorem del_defined (p : pool_mgr_t) (pre post : List Seg) (A : Seg)
    (h : Inv p (pre ++ A :: post)) (hA : A.alloc = true)
    (hroom : (free_entries (del_segs pre A post)).length ≤ 31) :
    ∃ p3, mem_del_alloc p (some A.slot) = some (p3, alloc_status.ALLOC_OK) :=
  del_definedW p pre post A h.weak hA hroom

/-- A handle of a used, allocated node of a represented pool is the slot of an allocated
segment of the list. -/
theorem handle_splitW (p : pool_mgr_t) (segs : List Seg)
    (h : HeapOk p.node_heap p.total_nodes p.used_nodes p.total_size segs) (a : Nat) (n : node_t)
    (hn : p.node_heap[a]? = some n) (hu : n.used = 1) (hal : n.allocated = 1) :
    ∃ pre A post, segs = pre ++ A :: post ∧ A.slot = a ∧ A.alloc = true ∧
      n = A.node (lastSlot pre none) (headSlot post none) := by
  obtain ⟨pre, A, post, e, hslot⟩ := used_mem_slots h hn hu
  subst e
  obtain ⟨_, hA, _⟩ := split_facts h
  rw [hslot, hn] at hA
  cases hA
  refine ⟨pre, A, post, rfl, hslot, ?_, rfl⟩
  by_cases c : A.alloc = true
  · exact c
  · simp [Seg.node, c] at hal

/-- A handle of a used, allocated node of a pool that satisfies the invariant is the slot
of an allocated segment of the list. -/
theorem handle_split (p : pool_mgr_t) (segs : List Seg) (h : Inv p segs) (a : Nat) (n : node_t)
    (hn : p.node_heap[a]? = some n) (hu : n.used = 1) (hal : n.allocated = 1) :
    ∃ pre A post, segs = pre ++ A :: post ∧ A.slot = a ∧ A.alloc = true ∧
      n = A.node (lastSlot pre none) (headSlot post none) :=
  handle_splitW p segs h.heap a n hn hu hal

theorem reach_inv (p : pool_mgr_t) (h : Reachable p) : ∃ segs, Inv p segs := by
  induction h with
  | opened size policy => exact ⟨_, open_inv size policy⟩
  | alloc _ hs hr ih =>
    obtain ⟨segs, hi⟩ := ih
    exact alloc_inv _ _ segs _ _ hi hs hr
  | del _ hn hu hal hr ih =>
    obtain ⟨segs, hi⟩ := ih
    obtain ⟨pre, A, post, e, hslot, hA, _⟩ := handle_split _ segs hi _ _ hn hu hal
    subst e
    subst hslot
    exact ⟨_, (del_post _ _ pre post A _ hi hA hr).2.1⟩

theorem reachable_weaken (p : pool_mgr_t) (h : Reachable p) : ReachableAnySize p := by
  induction h with
  | opened size policy => exact ReachableAnySize.opened size policy
  | alloc _ _ hr ih => exact ReachableAnySize.alloc ih hr
  | del _ hn hu hal hr ih => exact ReachableAnySize.del ih hn hu hal hr

/-- The invariant without the size condition holds after calls with any sizes. -/
theorem reach_any_inv (p : pool_mgr_t) (h : ReachableAnySize p) : ∃ segs, InvW p segs := by
  induction h with
  | opened size policy => exact ⟨_, (open_inv size policy).weak⟩
  | alloc _ hr ih =>
    obtain ⟨segs, hi⟩ := ih
    exact alloc_invW _ _ segs _ _ hi hr
  | del _ hn hu hal hr ih =>
    obtain ⟨segs, hi⟩ := ih
    obtain ⟨pre, A, post, e, hslot, hA, _⟩ := handle_splitW _ segs hi.heap _ _ hn hu hal
    subst e
    subst hslot
    exact ⟨_, (del_postW _ _ pre post A _ hi hA hr).2.1⟩

/-! ## Runs of calls -/

theorem run_ops_reachable : ∀ (ops : List pool_op) (p q : pool_mgr_t), Reachable p →
    run_ops p ops = some q → Reachable q := by
  intro ops
  induction ops with
  | nil =>
    intro p q hp h
    simp only [run_ops, Option.some.injEq] at h
    subst h
    exact hp
  | cons op rest ih =>
    intro p q hp h
    cases op with
    | new_alloc size =>
      simp only [run_ops] at h
      by_cases c : 0 < size
      · rw [if_pos c] at h
        cases hr : mem_new_alloc realloc_in_place p size with
        | none => rw [hr] at h; cases h
        | some x =>
          obtain ⟨p2, r⟩ := x
          rw [hr] at h
          exact ih p2 q (Reachable.alloc hp c hr) h
      · rw [if_neg c] at h; cases h
    | del_alloc hd =>
      simp only [run_ops] at h
      cases hn : p.node_heap[hd]? with
      | none => rw [hn] at h; cases h
      | some n =>
        rw [hn] at h
        dsimp only at h
        by_cases c : n.used = 1 ∧ n.allocated = 1
        · rw [if_pos c] at h
          cases hr : mem_del_alloc p (some hd) with
          | none => rw [hr] at h; cases h
          | some x =>
            obtain ⟨p2, st⟩ := x
            rw [hr] at h
            exact ih p2 q (Reachable.del hp hn c.1 c.2 hr) h
        · rw [if_neg c] at h; cases h

theorem sample_pool_reachable (size : Nat) (policy : alloc_policy) (ops : List pool_op)
    (h : (run_ops (pool_mgr_open size policy) ops).isSome = true) :
    Reachable (sample_pool size policy ops) := by
  obtain ⟨q, hq⟩ := Option.isSome_iff_exists.1 h
  apply run_ops_reachable ops _ _ (Reachable.opened size policy)
  unfold sample_pool
  rw [hq]
  rfl

/-! ## The walk over the linked segments -/

theorem walk_chain (heap : List node_t) : ∀ (segs : List Seg) (prev : Option Nat) (fuel : Nat),
    Chain heap prev segs none → segs.length ≤ fuel →
    pool_walk heap fuel (headSlot segs none) = some (seg_nodes prev segs) := by
  intro segs
  induction segs with
  | nil =>
    intro prev fuel _ _
    cases fuel <;> rfl
  | cons g rest ih =>
    intro prev fuel hc hl
    obtain ⟨h1, h2⟩ := hc
    cases fuel with
    | zero => simp at hl
    | succ fuel =>
      have := ih (some g.slot) fuel h2 (by simpa using hl)
      have hn : (g.node prev (headSlot rest none)).next = headSlot rest none := rfl
      show pool_walk heap (fuel + 1) (some g.slot) =
        some (g.node prev (headSlot rest none) :: seg_nodes (some g.slot) rest)
      simp only [pool_walk, h1, hn, this]

theorem seg_nodes_mem_size : ∀ (segs : List Seg) (prev : Option Nat),
    (seg_nodes prev segs).map (fun n => (n.mem, n.size)) =
      segs.map (fun g => (some g.start, g.size)) := by
  intro segs
  induction segs with
  | nil => intro prev; rfl
  | cons g rest ih =>
    intro prev
    simp only [seg_nodes, List.map_cons, ih]
    rfl

theorem seg_nodes_size_alloc : ∀ (segs : List Seg) (prev : Option Nat),
    (seg_nodes prev segs).map (fun n => (n.size, n.allocated)) =
      segs.map (fun g => (g.size, if g.alloc then 1 else 0)) := by
  intro segs
  induction segs with
  | nil => intro prev; rfl
  | cons g rest ih =>
    intro prev
    simp only [seg_nodes, List.map_cons, ih]
    rfl

/-- In a pool that satisfies the invariant the walk from the head visits exactly the nodes
of the segment list. -/
theorem inv_segments (p : pool_mgr_t) (segs : List Seg) (h : Inv p segs) :
    pool_segments p = some (seg_nodes none segs) := by
  have hu := h.heap.used_eq
  have hc := h.cap
  have ht := h.total_ge
  have := walk_chain p.node_heap segs none p.total_nodes h.heap.chain (by omega)
  rw [h.heap.head] at this
  exact this

theorem contig_ge : ∀ (l : List Seg) (st en : Nat), Contig st l en → ∀ g ∈ l, st ≤ g.start := by
  intro l
  induction l with
  | nil => intro st en _ g hg; simp at hg
  | cons a l ih =>
    intro st en h g hg
    obtain ⟨h1, h2⟩ := h
    rcases List.mem_cons.1 hg with e | e
    · subst e; omega
    · have := ih _ _ h2 g e
      omega

theorem contig_adjacent : ∀ (l : List Seg) (st en : Nat), Contig st l en →
    List.Chain' (fun a b : Seg => a.start + a.size = b.start) l := by
  intro l
  induction l with
  | nil => intro st en _; exact List.chain'_nil
  | cons a l ih =>
    intro st en h
    obtain ⟨h1, h2⟩ := h
    refine List.chain'_cons'.2 ⟨?_, ih _ _ h2⟩
    intro y hy
    cases l with
    | nil => simp at hy
    | cons b l =>
      simp only [List.head?_cons, Option.mem_def, Option.some.injEq] at hy
      subst hy
      obtain ⟨h3, _⟩ := h2
      omega

theorem contig_increasing : ∀ (l : List Seg) (st en : Nat), Contig st l en →
    (∀ g ∈ l, 0 < g.size) → (l.map Seg.start).Pairwise (fun a b => a < b) := by
  intro l
  induction l with
  | nil => intro st en _ _; exact List.Pairwise.nil
  | cons a l ih =>
    intro st en h hpos
    obtain ⟨h1, h2⟩ := h
    rw [List.map_cons, List.pairwise_cons]
    refine ⟨?_, ih _ _ h2 (fun g hg => hpos g (List.mem_cons_of_mem _ hg))⟩
    intro s hs
    obtain ⟨g, hg, e⟩ := List.mem_map.1 hs
    subst e
    have := contig_ge l _ _ h2 g hg
    have := hpos a (List.mem_cons_self _ _)
    omega

/-! ## Claims -/

/-- Coverage while the node heap stays where it is.  In every pool reached from
`mem_pool_open` by defined calls of `mem_new_alloc` with positive sizes and of `mem_del_alloc`
on allocated handles, in which the node heap does not grow or grows in place by zeroed
slots (`Reachable`), the walk
from the head along `next` ends, and the segments it visits partition `[0, total_size)`:
the first starts at offset 0, each start plus its size is the start of the next, the
starts increase strictly, and the sizes sum to `total_size`. -/
theorem coverage_invariant (p : pool_mgr_t) (h : Reachable p) :
    ∃ nodes segs, pool_segments p = some nodes ∧
      nodes.map (fun n => (n.mem, n.size)) = segs.map (fun g : Nat × Nat => (some g.1, g.2)) ∧
      (segs.head?).map Prod.fst = some 0 ∧
      List.Chain' (fun a b : Nat × Nat => a.1 + a.2 = b.1) segs ∧
      (segs.map Prod.fst).Pairwise (fun a b => a < b) ∧
      (segs.map Prod.snd).sum = p.total_size := by
  obtain ⟨l, hi⟩ := reach_inv p h
  have hc := hi.heap.contig
  refine ⟨seg_nodes none l, l.map (fun g => (g.start, g.size)), inv_segments p l hi, ?_, ?_, ?_, ?_,
    ?_⟩
  · rw [seg_nodes_mem_size]; simp
  · have hh := hi.heap.head
    cases l with
    | nil => simp [headSlot] at hh
    | cons g rest =>
      obtain ⟨h1, _⟩ := hc
      simp [h1]
  · rw [List.chain'_map]
    exact contig_adjacent l _ _ hc
  · rw [List.map_map]
    rcases hi.pos with hp | ⟨s, hp⟩
    · exact contig_increasing l _ _ hc hp
    · rw [hp]; simp
  · rw [List.map_map]
    have := Contig_sum l _ _ hc
    simpa using this

/-- The coverage invariant at a pool of 100 bytes after three allocations and the release of
the middle one. -/
theorem coverage_invariant_witness :
    ∃ nodes segs,
      pool_segments (sample_pool 100 alloc_policy.FIRST_FIT
        [pool_op.new_alloc 10, pool_op.new_alloc 20, pool_op.new_alloc 30,
          pool_op.del_alloc 1]) = some nodes ∧
      nodes.map (fun n => (n.mem, n.size)) = segs.map (fun g : Nat × Nat => (some g.1, g.2)) ∧
      (segs.head?).map Prod.fst = some 0 ∧
      List.Chain' (fun a b : Nat × Nat => a.1 + a.2 = b.1) segs ∧
      (segs.map Prod.fst).Pairwise (fun a b => a < b) ∧
      (segs.map Prod.snd).sum =
        (sample_pool 100 alloc_policy.FIRST_FIT
          [pool_op.new_alloc 10, pool_op.new_alloc 20, pool_op.new_alloc 30,
            pool_op.del_alloc 1]).total_size :=
  coverage_invariant _ (sample_pool_reachable _ _ _ (by decide))

/-- The handle that `mem_new_alloc_split` returns is the node it was entered with. -/
theorem split_handle (p p2 : pool_mgr_t) (size rem_size node u h : Nat)
    (ha : mem_new_alloc_split p size rem_size node u = some (p2, some h)) : h = node := by
  unfold mem_new_alloc_split at ha
  repeat' split at ha
  all_goals (cases ha <;> rfl)

/-- The handle that `mem_new_alloc_commit` returns is the node it was entered with. -/
theorem commit_handle (p p2 : pool_mgr_t) (size node h : Nat)
    (ha : mem_new_alloc_commit p size node = some (p2, some h)) : h = node := by
  unfold mem_new_alloc_commit at ha
  repeat' split at ha
  all_goals first
    | (cases ha <;> rfl)
    | exact split_handle _ _ _ _ _ _ _ ha

/-- The first fit selection as the loop of lines 299-306 makes it, for every pool and every
outcome of `realloc`: the node returned is a used, free node of sufficient size in the node
heap that the loop scans, and no slot before it holds such a node. -/
theorem first_fit_scan (r : realloc_t) (p p2 : pool_mgr_t) (size h : Nat)
    (hpol : p.policy = alloc_policy.FIRST_FIT)
    (ha : mem_new_alloc r p size = some (p2, some h)) :
    (∃ n, (_mem_resize_node_heap r p).node_heap[h]? = some n ∧
        n.used = 1 ∧ n.allocated = 0 ∧ size ≤ n.size) ∧
      ∀ j m, j < h → (_mem_resize_node_heap r p).node_heap[j]? = some m →
        ¬ (m.used = 1 ∧ m.allocated = 0 ∧ size ≤ m.size) := by
  have hpol2 : (_mem_resize_node_heap r p).policy = alloc_policy.FIRST_FIT := by
    unfold _mem_resize_node_heap
    split
    · split <;> exact hpol
    · exact hpol
  unfold mem_new_alloc at ha
  split at ha
  · cases ha
  split at ha
  · cases ha
  split at ha
  · cases ha
  · cases ha
  · rename_i node hsel
    have e := commit_handle _ _ _ _ _ ha
    subst e
    unfold mem_new_alloc_select at hsel
    rw [hpol2] at hsel
    dsimp only at hsel
    obtain ⟨_, _, ht, hfirst⟩ := scan_first_some_spec _ _ _ _ hsel
    constructor
    · rw [first_fit_test] at ht
      simp only [Option.map_eq_some'] at ht
      obtain ⟨n, hn, hc⟩ := ht
      simp only [Bool.and_eq_true, decide_eq_true_eq] at hc
      exact ⟨n, hn, hc.1.1, hc.1.2, hc.2⟩
    · intro j m hj hm hc
      have := hfirst j (Nat.zero_le _) hj
      rw [first_fit_test, hm] at this
      simp [hc.1, hc.2.1, hc.2.2] at this

/-- C2 (gap index correctness), at a pool of 3000000000 bytes.  After two allocations of one
byte and the release of the first, the free segments are node 0 (start 0, size 1) and node 2
(start 2, size 2999999998), and the two live entries of the gap index are in descending
order of size: the difference `1 - 2999999998`, truncated to `int`, is positive, so
`_mem_sort_gap_ix` leaves the new entry behind the larger one. -/
theorem gap_index_unsorted_large_pool :
    (run_ops (pool_mgr_open 3000000000 alloc_policy.FIRST_FIT)
      [pool_op.new_alloc 1, pool_op.new_alloc 1, pool_op.del_alloc 0]).map
      (fun p => (p.num_gaps, p.gap_ix.take p.num_gaps)) =
      some (2, [⟨2999999998, some 2⟩, ⟨1, some 0⟩]) ∧
    (run_ops (pool_mgr_open 3000000000 alloc_policy.FIRST_FIT)
      [pool_op.new_alloc 1, pool_op.new_alloc 1, pool_op.del_alloc 0]).map
      (fun p => p.node_heap.take 3) =
      some [⟨1, some 0, 1, 0, some 1, none⟩, ⟨1, some 1, 1, 1, some 2, some 0⟩,
        ⟨2999999998, some 2, 1, 0, none, some 1⟩] := by
  decide

/-- C3 (first fit selection), counterexample.  In the pool of 100 bytes reached by three
allocations of 10, the release of the second and an allocation of 5, the free segments are
node 4 (start 15, size 5) and node 3 (start 30, size 70).  A request of 5 bytes under
`FIRST_FIT` returns node 3, which has the lower slot index, not node 4, which has the
lower start address and is large enough.  The node heap does not grow in this run (6 of its
40 slots are used), so no call of it reaches `realloc`. -/
theorem first_fit_not_address_order :
    (run_ops (pool_mgr_open 100 alloc_policy.FIRST_FIT)
      [pool_op.new_alloc 10, pool_op.new_alloc 10, pool_op.new_alloc 10, pool_op.del_alloc 1,
        pool_op.new_alloc 5]).bind
      (fun p => (mem_new_alloc realloc_in_place p 5).map (fun r => (p.policy, r.2))) =
      some (alloc_policy.FIRST_FIT, some 3) ∧
    (run_ops (pool_mgr_open 100 alloc_policy.FIRST_FIT)
      [pool_op.new_alloc 10, pool_op.new_alloc 10, pool_op.new_alloc 10, pool_op.del_alloc 1,
        pool_op.new_alloc 5]).map (fun p => (p.node_heap[3]?, p.node_heap[4]?)) =
      some (some ⟨70, some 30, 1, 0, none, some 2⟩, some ⟨5, some 15, 1, 0, some 2, some 1⟩) := by
  decide

/-- The first fit selection in slot order, in terms of the node heap before the call, while
the node heap stays where it is: in every pool of `Reachable` with policy `FIRST_FIT`, when
`mem_new_alloc` returns a handle, with a growth of the node heap in place by zeroed slots if
there is one, the node it returns was a used, free node of sufficient size, and no slot
with a lower index held such a node. -/
theorem slot_order_in_place (p p2 : pool_mgr_t) (size h : Nat) (hr : Reachable p)
    (hpol : p.policy = alloc_policy.FIRST_FIT)
    (ha : mem_new_alloc realloc_in_place p size = some (p2, some h)) :
    (∃ n, p.node_heap[h]? = some n ∧ n.used = 1 ∧ n.allocated = 0 ∧ size ≤ n.size) ∧
      ∀ j m, j < h → p.node_heap[j]? = some m →
        ¬ (m.used = 1 ∧ m.allocated = 0 ∧ size ≤ m.size) := by
  obtain ⟨segs, hi⟩ := reach_inv p hr
  have hscan := first_fit_scan realloc_in_place p p2 size h hpol ha
  rcases alloc_cases p p2 segs size (some h) hi ha with ⟨e, _⟩ | ⟨pre, N, post, segs2, e, hN, hsz, hh,
    hsel, _⟩
  · cases e
  · subst e
    simp only [Option.some.injEq] at hh
    subst hh
    have hlt : N.slot < p.node_heap.length :=
      Chain_slot_lt _ _ _ _ hi.heap.chain N (by simp)
    have hget := resize_heap_get p hi.heap.heap_len
    have hheap : ∀ j, j ≤ N.slot →
        (_mem_resize_node_heap realloc_in_place p).node_heap[j]? = p.node_heap[j]? := by
      intro j hj
      rw [resize_in_place]
      by_cases c : 4 * p.used_nodes > 3 * p.total_nodes
      · rw [if_pos c]
        dsimp only
        rw [hget, if_pos (by rw [← hi.heap.heap_len]; omega)]
      · rw [if_neg c]
    constructor
    · rw [← hheap _ (le_refl _)]
      exact hscan.1
    · intro j m hj hm
      rw [← hheap j (by omega)] at hm
      exact hscan.2 j m hj hm

/-- C3 (first fit selection), as the code has it.  For every pool with policy `FIRST_FIT`
and every outcome `r` of `realloc`, when `mem_new_alloc` returns a handle, the node it
returns is a used, free node of sufficient size in the node heap that the loop of lines
299-306 scans (the heap after `_mem_resize_node_heap`), and no slot of that heap with a lower
index holds such a node: the segment allocated is the first sufficient free segment in node
heap slot order.  And in every reachable pool, when the node heap does not grow or grows in
place by zeroed slots, the same holds of the node heap as it was before the call. -/
theorem first_fit_slot_order (r : realloc_t) (p p2 : pool_mgr_t) (size h : Nat)
    (hpol : p.policy = alloc_policy.FIRST_FIT)
    (ha : mem_new_alloc r p size = some (p2, some h)) :
    ((∃ n, (_mem_resize_node_heap r p).node_heap[h]? = some n ∧
        n.used = 1 ∧ n.allocated = 0 ∧ size ≤ n.size) ∧
      ∀ j m, j < h → (_mem_resize_node_heap r p).node_heap[j]? = some m →
        ¬ (m.used = 1 ∧ m.allocated = 0 ∧ size ≤ m.size)) ∧
    (Reachable p → r = realloc_in_place ∨ ¬ 4 * p.used_nodes > 3 * p.total_nodes →
      (∃ n, p.node_heap[h]? = some n ∧ n.used = 1 ∧ n.allocated = 0 ∧ size ≤ n.size) ∧
        ∀ j m, j < h → p.node_heap[j]? = some m →
          ¬ (m.used = 1 ∧ m.allocated = 0 ∧ size ≤ m.size)) := by
  refine ⟨first_fit_scan r p p2 size h hpol ha, ?_⟩
  intro hr hc
  rcases hc with e | hng
  · subst e
    exact slot_order_in_place p p2 size h hr hpol ha
  · have hs := first_fit_scan r p p2 size h hpol ha
    rw [resize_no_growth r p hng] at hs
    exact hs

/-- The first fit selection in slot order at a pool of 100 bytes after three allocations of
10 bytes, the release of the second and an allocation of 5 bytes: a request of 5 bytes
returns node 3, here with a `realloc` that would move the node heap. -/
theorem first_fit_slot_order_witness :
    ((∃ n, (_mem_resize_node_heap realloc_moved (sample_pool 100 alloc_policy.FIRST_FIT
        [pool_op.new_alloc 10, pool_op.new_alloc 10, pool_op.new_alloc 10, pool_op.del_alloc 1,
          pool_op.new_alloc 5])).node_heap[3]? = some n ∧
        n.used = 1 ∧ n.allocated = 0 ∧ 5 ≤ n.size) ∧
      ∀ j m, j < 3 → (_mem_resize_node_heap realloc_moved (sample_pool 100 alloc_policy.FIRST_FIT
        [pool_op.new_alloc 10, pool_op.new_alloc 10, pool_op.new_alloc 10, pool_op.del_alloc 1,
          pool_op.new_alloc 5])).node_heap[j]? = some m →
        ¬ (m.used = 1 ∧ m.allocated = 0 ∧ 5 ≤ m.size)) ∧
    (Reachable (sample_pool 100 alloc_policy.FIRST_FIT
        [pool_op.new_alloc 10, pool_op.new_alloc 10, pool_op.new_alloc 10, pool_op.del_alloc 1,
          pool_op.new_alloc 5]) →
      realloc_moved = realloc_in_place ∨
        ¬ 4 * (sample_pool 100 alloc_policy.FIRST_FIT
          [pool_op.new_alloc 10, pool_op.new_alloc 10, pool_op.new_alloc 10, pool_op.del_alloc 1,
            pool_op.new_alloc 5]).used_nodes >
          3 * (sample_pool 100 alloc_policy.FIRST_FIT
          [pool_op.new_alloc 10, pool_op.new_alloc 10, pool_op.new_alloc 10, pool_op.del_alloc 1,
            pool_op.new_alloc 5]).total_nodes →
      (∃ n, (sample_pool 100 alloc_policy.FIRST_FIT
        [pool_op.new_alloc 10, pool_op.new_alloc 10, pool_op.new_alloc 10, pool_op.del_alloc 1,
          pool_op.new_alloc 5]).node_heap[3]? = some n ∧
        n.used = 1 ∧ n.allocated = 0 ∧ 5 ≤ n.size) ∧
      ∀ j m, j < 3 → (sample_pool 100 alloc_policy.FIRST_FIT
        [pool_op.new_alloc 10, pool_op.new_alloc 10, pool_op.new_alloc 10, pool_op.del_alloc 1,
          pool_op.new_alloc 5]).node_heap[j]? = some m →
        ¬ (m.used = 1 ∧ m.allocated = 0 ∧ 5 ≤ m.size)) :=
  first_fit_slot_order realloc_moved _
    ((mem_new_alloc realloc_moved (sample_pool 100 alloc_policy.FIRST_FIT
      [pool_op.new_alloc 10, pool_op.new_alloc 10, pool_op.new_alloc 10, pool_op.del_alloc 1,
        pool_op.new_alloc 5]) 5).getD (pool_mgr_open 0 alloc_policy.FIRST_FIT, none)).1 5 3
    (by decide) (by decide)

set_option maxRecDepth 100000 in
/-- C4 (best fit selection), at a pool of 3000000000 bytes.  After two allocations of one
byte and the release of the first, the free segments are node 0 (size 1) and node 2 (size
2999999998).  A request of one byte under `BEST_FIT` returns node 2, the first entry of the
gap index, although node 0 is a smaller sufficient free segment.  The node heap does not
grow in this run, so the result holds for every outcome `r` that `realloc` could have. -/
theorem best_fit_not_smallest_large_pool : ∀ r : realloc_t,
    (run_ops (pool_mgr_open 3000000000 alloc_policy.BEST_FIT)
      [pool_op.new_alloc 1, pool_op.new_alloc 1, pool_op.del_alloc 0]).bind
      (fun p => (mem_new_alloc r p 1).map (fun x => (p.policy, x.2))) =
      some (alloc_policy.BEST_FIT, some 2) ∧
    (run_ops (pool_mgr_open 3000000000 alloc_policy.BEST_FIT)
      [pool_op.new_alloc 1, pool_op.new_alloc 1, pool_op.del_alloc 0]).map
      (fun p => (p.node_heap[0]?, p.node_heap[2]?)) =
      some (some ⟨1, some 0, 1, 0, some 1, none⟩,
        some ⟨2999999998, some 2, 1, 0, none, some 1⟩) := by
  intro r
  have hng : (run_ops (pool_mgr_open 3000000000 alloc_policy.BEST_FIT)
      [pool_op.new_alloc 1, pool_op.new_alloc 1, pool_op.del_alloc 0]).all
      (fun p => decide (¬ 4 * p.used_nodes > 3 * p.total_nodes)) = true := by decide!
  have h2 :
    (run_ops (pool_mgr_open 3000000000 alloc_policy.BEST_FIT)
      [pool_op.new_alloc 1, pool_op.new_alloc 1, pool_op.del_alloc 0]).bind
      (fun p => (mem_new_alloc realloc_in_place p 1).map (fun x => (p.policy, x.2))) =
      some (alloc_policy.BEST_FIT, some 2) ∧
    (run_ops (pool_mgr_open 3000000000 alloc_policy.BEST_FIT)
      [pool_op.new_alloc 1, pool_op.new_alloc 1, pool_op.del_alloc 0]).map
      (fun p => (p.node_heap[0]?, p.node_heap[2]?)) =
      some (some ⟨1, some 0, 1, 0, some 1, none⟩,
        some ⟨2999999998, some 2, 1, 0, none, some 1⟩) := by
    decide!
  revert hng h2
  generalize run_ops (pool_mgr_open 3000000000 alloc_policy.BEST_FIT)
      [pool_op.new_alloc 1, pool_op.new_alloc 1, pool_op.del_alloc 0] = o
  intro hng h2
  cases o with
  | none => exact h2
  | some p =>
    simp only [Option.all_some, decide_eq_true_eq] at hng
    simp only [Option.some_bind, mem_new_alloc_no_growth r realloc_in_place p 1 hng]
    exact h2

set_option maxRecDepth 100000 in
/-- C7 (allocate/deallocate inverse), at a pool of 3758096389 bytes.  In the pool reached by
allocating 1, 1, 1073741825, 1 and 2684354561 bytes and releasing the third, the first and
the fifth allocation, the live gap index entries are those of nodes 0, 2 and 4, in this
order.  Allocating one byte returns node 0; releasing it at once returns `ALLOC_OK` and
leaves the entries in the order 2, 4, 0: the entry of node 0 (size 1) is not bubbled past
the entry of node 4 (size 2684354561), because the `int`-truncated difference of the sizes
is positive.  The node heap does not grow in this run, so the result holds for every outcome
`r` that `realloc` could have. -/
theorem alloc_del_reorders_gap_index_large_pool : ∀ r : realloc_t,
    (run_ops (pool_mgr_open 3758096389 alloc_policy.FIRST_FIT)
      [pool_op.new_alloc 1, pool_op.new_alloc 1, pool_op.new_alloc 1073741825,
        pool_op.new_alloc 1, pool_op.new_alloc 2684354561, pool_op.del_alloc 2,
        pool_op.del_alloc 0, pool_op.del_alloc 4]).bind
      (fun p => (mem_new_alloc r p 1).bind (fun x => (mem_del_alloc x.1 x.2).map (fun d =>
        (x.2, d.2)))) = some (some 0, alloc_status.ALLOC_OK) ∧
    (run_ops (pool_mgr_open 3758096389 alloc_policy.FIRST_FIT)
      [pool_op.new_alloc 1, pool_op.new_alloc 1, pool_op.new_alloc 1073741825,
        pool_op.new_alloc 1, pool_op.new_alloc 2684354561, pool_op.del_alloc 2,
        pool_op.del_alloc 0, pool_op.del_alloc 4]).bind
      (fun p => (mem_new_alloc r p 1).bind (fun x => (mem_del_alloc x.1 x.2).map (fun d =>
        (p.gap_ix.take p.num_gaps, d.1.gap_ix.take d.1.num_gaps)))) =
      some ([⟨1, some 0⟩, ⟨1073741825, some 2⟩, ⟨2684354561, some 4⟩],
        [⟨1073741825, some 2⟩, ⟨2684354561, some 4⟩, ⟨1, some 0⟩]) := by
  intro r
  have hng : (run_ops (pool_mgr_open 3758096389 alloc_policy.FIRST_FIT)
      [pool_op.new_alloc 1, pool_op.new_alloc 1, pool_op.new_alloc 1073741825,
        pool_op.new_alloc 1, pool_op.new_alloc 2684354561, pool_op.del_alloc 2,
        pool_op.del_alloc 0, pool_op.del_alloc 4]).all
      (fun p => decide (¬ 4 * p.used_nodes > 3 * p.total_nodes)) = true := by decide!
  have h2 :
    (run_ops (pool_mgr_open 3758096389 alloc_policy.FIRST_FIT)
      [pool_op.new_alloc 1, pool_op.new_alloc 1, pool_op.new_alloc 1073741825,
        pool_op.new_alloc 1, pool_op.new_alloc 2684354561, pool_op.del_alloc 2,
        pool_op.del_alloc 0, pool_op.del_alloc 4]).bind
      (fun p => (mem_new_alloc realloc_in_place p 1).bind (fun x => (mem_del_alloc x.1 x.2).map (fun d =>
        (x.2, d.2)))) = some (some 0, alloc_status.ALLOC_OK) ∧
    (run_ops (pool_mgr_open 3758096389 alloc_policy.FIRST_FIT)
      [pool_op.new_alloc 1, pool_op.new_alloc 1, pool_op.new_alloc 1073741825,
        pool_op.new_alloc 1, pool_op.new_alloc 2684354561, pool_op.del_alloc 2,
        pool_op.del_alloc 0, pool_op.del_alloc 4]).bind
      (fun p => (mem_new_alloc realloc_in_place p 1).bind (fun x => (mem_del_alloc x.1 x.2).map (fun d =>
        (p.gap_ix.take p.num_gaps, d.1.gap_ix.take d.1.num_gaps)))) =
      some ([⟨1, some 0⟩, ⟨1073741825, some 2⟩, ⟨2684354561, some 4⟩],
        [⟨1073741825, some 2⟩, ⟨2684354561, some 4⟩, ⟨1, some 0⟩]) := by
    decide!
  revert hng h2
  generalize run_ops (pool_mgr_open 3758096389 alloc_policy.FIRST_FIT)
      [pool_op.new_alloc 1, pool_op.new_alloc 1, pool_op.new_alloc 1073741825,
        pool_op.new_alloc 1, pool_op.new_alloc 2684354561, pool_op.del_alloc 2,
        pool_op.del_alloc 0, pool_op.del_alloc 4] = o
  intro hng h2
  cases o with
  | none => exact h2
  | some p =>
    simp only [Option.all_some, decide_eq_true_eq] at hng
    simp only [Option.some_bind, mem_new_alloc_no_growth r realloc_in_place p 1 hng]
    exact h2

/-- C9 (invalid handle rejection), counterexample.  In the pool of 100 bytes reached by two
allocations of 10 and the release of the first, node 0 is free.  Releasing handle 0 again
returns `ALLOC_OK`, takes `num_allocs` from 1 to 0 and `num_gaps` from 2 to 3.  In the pool
reached by two allocations of 10 and the release of the second, slot 2 is retired (`used` is
0); releasing handle 2 returns `ALLOC_OK`, takes `num_allocs` from 1 to 0 and `num_gaps`
from 1 to 2. -/
theorem stale_handle_accepted :
    (run_ops (pool_mgr_open 100 alloc_policy.FIRST_FIT)
      [pool_op.new_alloc 10, pool_op.new_alloc 10, pool_op.del_alloc 0]).bind
      (fun p => (mem_del_alloc p (some 0)).map (fun r =>
        ((p.node_heap[0]?).map (fun n => (n.used, n.allocated)), r.2))) =
      some (some (1, 0), alloc_status.ALLOC_OK) ∧
    (run_ops (pool_mgr_open 100 alloc_policy.FIRST_FIT)
      [pool_op.new_alloc 10, pool_op.new_alloc 10, pool_op.del_alloc 0]).bind
      (fun p => (mem_del_alloc p (some 0)).map (fun r =>
        ((p.num_allocs, r.1.num_allocs), (p.num_gaps, r.1.num_gaps)))) =
      some ((1, 0), (2, 3)) ∧
    (run_ops (pool_mgr_open 100 alloc_policy.FIRST_FIT)
      [pool_op.new_alloc 10, pool_op.new_alloc 10, pool_op.del_alloc 1]).bind
      (fun p => (mem_del_alloc p (some 2)).map (fun r =>
        ((p.node_heap[2]?).map (fun n => (n.used, n.allocated)), r.2))) =
      some (some (0, 0), alloc_status.ALLOC_OK) ∧
    (run_ops (pool_mgr_open 100 alloc_policy.FIRST_FIT)
      [pool_op.new_alloc 10, pool_op.new_alloc 10, pool_op.del_alloc 1]).bind
      (fun p => (mem_del_alloc p (some 2)).map (fun r =>
        ((p.num_allocs, r.1.num_allocs), (p.num_gaps, r.1.num_gaps)))) =
      some ((1, 0), (1, 2)) := by
  decide

/-- C9 (invalid handle rejection), as the code has it.  For every pool, a handle that is
`NULL` or lies outside the node heap (its address, counted in slots from the start of the
heap, is not below `total_nodes`) makes
`mem_del_alloc` return `ALLOC_FAIL` and leaves the whole pool unchanged. -/
theorem foreign_handle_rejected (p : pool_mgr_t) (h : Option Nat)
    (hout : ∀ i, h = some i → p.total_nodes ≤ i) :
    mem_del_alloc p h = some (p, alloc_status.ALLOC_FAIL) := by
  unfold mem_del_alloc
  cases h with
  | none => rfl
  | some i => simp [hout i rfl]

/-- The rejection of a handle outside the node heap at a fresh pool of 100 bytes. -/
theorem foreign_handle_rejected_witness :
    (∀ i, some 40 = some i → (pool_mgr_open 100 alloc_policy.BEST_FIT).total_nodes ≤ i) ∧
      mem_del_alloc (pool_mgr_open 100 alloc_policy.BEST_FIT) (some 40) =
        some (pool_mgr_open 100 alloc_policy.BEST_FIT, alloc_status.ALLOC_FAIL) :=
  ⟨fun i hi => by cases hi; decide,
    foreign_handle_rejected (pool_mgr_open 100 alloc_policy.BEST_FIT) (some 40)
      (fun i hi => by cases hi; decide)⟩

/-- C10 (close condition), at a pool with `num_allocs = 0` and `num_gaps = 3`.  The pool is
reached from `mem_pool_open(100, FIRST_FIT)` by two allocations of 10 bytes and two releases
of the first handle.  The tests of `mem_pool_close` pass, and the call on a store that holds
this pool in slot 0 returns `ALLOC_OK` and clears the slot, although `num_gaps` is not 1. -/
theorem close_accepts_fragmented_pool :
    ((run_ops (pool_mgr_open 100 alloc_policy.FIRST_FIT)
      [pool_op.new_alloc 10, pool_op.new_alloc 10, pool_op.del_alloc 0]).bind
      (fun p => (mem_del_alloc p (some 0)).bind (fun r =>
        (mem_pool_close ⟨some [some r.1], 1, 20⟩ (some 0)).map (fun c =>
          ((r.1.num_allocs, r.1.num_gaps), (mem_pool_close_check r.1, c.2)))))) =
      some ((0, 3), (alloc_status.ALLOC_OK, alloc_status.ALLOC_OK)) ∧
    ((run_ops (pool_mgr_open 100 alloc_policy.FIRST_FIT)
      [pool_op.new_alloc 10, pool_op.new_alloc 10, pool_op.del_alloc 0]).bind
      (fun p => (mem_del_alloc p (some 0)).bind (fun r =>
        (mem_pool_close ⟨some [some r.1], 1, 20⟩ (some 0)).map (fun c =>
          c.1.pool_store)))) = some (some [none]) := by
  decide

/-- The tests of `mem_pool_close` pass exactly when `num_gaps` is not 0 and `num_allocs`
is 0. -/
theorem close_check_iff (mgr : pool_mgr_t) :
    mem_pool_close_check mgr = alloc_status.ALLOC_OK ↔ mgr.num_gaps ≠ 0 ∧ mgr.num_allocs = 0 := by
  unfold mem_pool_close_check c_not
  by_cases h1 : mgr.num_gaps = 0 <;> by_cases h2 : mgr.num_allocs = 0 <;> simp [h1, h2]

theorem inv_gap_take (p : pool_mgr_t) (segs : List Seg) (h : Inv p segs) :
    (p.gap_ix.take p.num_gaps).Perm (free_entries segs) ∧
      p.num_gaps = (free_entries segs).length ∧
      ∀ e ∈ p.gap_ix, e = gap_zero ∨ e ∈ free_entries segs := by
  obtain ⟨entries, h1, h2, h3, _, _⟩ := h.gap
  refine ⟨?_, ?_, ?_⟩
  · rw [h1, List.take_left' h2]; exact h3
  · rw [← h2]; exact h3.length_eq
  · intro e he
    rw [h1] at he
    rcases List.mem_append.1 he with c | c
    · exact Or.inr (h3.subset c)
    · exact Or.inl (List.eq_of_mem_replicate c)

/-- A failed allocation while the node heap stays where it is.  In every pool of
`Reachable` and for every requested size, when `mem_new_alloc` returns `NULL`, with a growth
of the node heap in place by zeroed slots if there is one, the pool is the pool before the call or that pool
after `_mem_resize_node_heap` alone: no failure return is taken after the gap index or a
node has been changed.  So the walk over the linked segments, every node of the old node
heap, the gap index and the counters `num_allocs`, `alloc_size`, `num_gaps` and `used_nodes`
are as before the call. -/
theorem failed_alloc_unchanged (p p2 : pool_mgr_t) (size : Nat) (hr : Reachable p)
    (ha : mem_new_alloc realloc_in_place p size = some (p2, none)) :
    (p2 = p ∨ p2 = _mem_resize_node_heap realloc_in_place p) ∧
      pool_segments p2 = pool_segments p ∧
      (∀ (i : Nat) (n : node_t), p.node_heap[i]? = some n → p2.node_heap[i]? = some n) ∧
      p2.gap_ix = p.gap_ix ∧ p2.num_allocs = p.num_allocs ∧ p2.alloc_size = p.alloc_size ∧
      p2.num_gaps = p.num_gaps ∧ p2.used_nodes = p.used_nodes := by
  obtain ⟨segs, hi⟩ := reach_inv p hr
  rcases alloc_cases p p2 segs size none hi ha with ⟨_, e | e⟩ | ⟨_, N, _, _, _, _, _, hh, _⟩
  · subst e
    exact ⟨Or.inl rfl, rfl, fun i n h => h, rfl, rfl, rfl, rfl, rfl⟩
  · subst e
    obtain ⟨e1, e2, e3, e4, e5, e6, e7, e8⟩ := resize_fields p
    refine ⟨Or.inr rfl, ?_, ?_, e7, e4, e3, e5, e6⟩
    · rw [inv_segments _ segs (resize_inv p segs hi), inv_segments p segs hi]
    · intro i n hn
      rw [resize_in_place]
      by_cases c : 4 * p.used_nodes > 3 * p.total_nodes
      · rw [if_pos c]
        dsimp only
        have hlt : i < p.node_heap.length := (List.getElem?_eq_some.1 hn).1
        rw [resize_heap_get p hi.heap.heap_len, if_pos (by rw [← hi.heap.heap_len]; exact hlt)]
        exact hn
      · rw [if_neg c]; exact hn
  · cases hh

/-- A failed allocation at a fresh pool of 100 bytes: a request of 200 bytes. -/
theorem failed_alloc_unchanged_witness :
    mem_new_alloc realloc_in_place (pool_mgr_open 100 alloc_policy.BEST_FIT) 200 =
        some (pool_mgr_open 100 alloc_policy.BEST_FIT, none) ∧
      (pool_mgr_open 100 alloc_policy.BEST_FIT = pool_mgr_open 100 alloc_policy.BEST_FIT ∨
        pool_mgr_open 100 alloc_policy.BEST_FIT =
          _mem_resize_node_heap realloc_in_place (pool_mgr_open 100 alloc_policy.BEST_FIT)) :=
  ⟨by decide,
    (failed_alloc_unchanged (pool_mgr_open 100 alloc_policy.BEST_FIT)
      (pool_mgr_open 100 alloc_policy.BEST_FIT) 200 (Reachable.opened _ _) (by decide)).1⟩

theorem seg_alloc_of_node {g : Seg} {pv nx : Option Nat} (h : (g.node pv nx).allocated = 0) :
    g.alloc = false := by
  by_cases c : g.alloc = true
  · simp [Seg.node, c] at h
  · simpa using c

/-- In a pool that satisfies the invariant, a node selected for a positive size is
allocated: the call does not fail after the selection. -/
theorem select_success (p : pool_mgr_t) (segs : List Seg) (size h : Nat) (hi : Inv p segs)
    (hs : 0 < size)
    (hsel : mem_new_alloc_select (_mem_resize_node_heap realloc_in_place p) size = some (some h)) :
    ∃ p2, mem_new_alloc realloc_in_place p size = some (p2, some h) := by
  have hq := resize_inv p segs hi
  obtain ⟨r1, r2⟩ := resize_room p hi.cap hi.total_ge
  obtain ⟨e1, e2, e3, e4, e5, e6, e7, e8⟩ := resize_fields p
  have hg0 : p.num_gaps ≠ 0 := by
    intro h0
    obtain ⟨entries, h1, h2, h3, h4, _⟩ := hq.gap
    rw [e5, h0] at h2
    have hnil : entries = [] := List.length_eq_zero.1 h2
    subst hnil
    have hfe : free_entries segs = [] := (List.Perm.nil_eq h3).symm
    unfold mem_new_alloc_select at hsel
    cases hpol : (_mem_resize_node_heap realloc_in_place p).policy with
    | FIRST_FIT =>
      rw [hpol] at hsel
      dsimp only at hsel
      obtain ⟨_, _, ht, _⟩ := scan_first_some_spec _ _ _ _ hsel
      simp only [first_fit_test, Option.map_eq_some'] at ht
      obtain ⟨n, hn, hc⟩ := ht
      simp only [Bool.and_eq_true, decide_eq_true_eq] at hc
      obtain ⟨pre, N, post, e, hslot⟩ := used_mem_slots hq.heap hn hc.1.1
      subst e
      obtain ⟨_, hN, _⟩ := split_facts hq.heap
      rw [hslot, hn] at hN
      cases hN
      have hNf : N.alloc = false := seg_alloc_of_node hc.1.2
      rw [free_entries_append, free_entries_cons_free _ _ hNf] at hfe
      simp at hfe
    | BEST_FIT =>
      rw [hpol] at hsel
      dsimp only at hsel
      cases hsc : scan_first (best_fit_test (_mem_resize_node_heap realloc_in_place p).gap_ix size)
          (_mem_resize_node_heap realloc_in_place p).gap_ix_capacity 0 with
      | none => rw [hsc] at hsel; cases hsel
      | some r =>
        cases r with
        | none => rw [hsc] at hsel; cases hsel
        | some i =>
          obtain ⟨_, _, ht, _⟩ := scan_first_some_spec _ _ _ _ hsc
          simp only [best_fit_test, Option.map_eq_some'] at ht
          obtain ⟨e, he, hc⟩ := ht
          simp only [decide_eq_true_eq] at hc
          rw [h1, List.nil_append] at he
          have := List.eq_of_mem_replicate (List.getElem?_mem he)
          rw [this] at hc
          simp [gap_zero] at hc
          omega
  have hg0' : (_mem_resize_node_heap realloc_in_place p).num_gaps ≠ 0 := by rw [e5]; exact hg0
  obtain ⟨sel, hsel2, hspec⟩ := select_spec _ segs size hq.heap hq.gap hg0'
  rw [hsel] at hsel2
  simp only [Option.some.injEq] at hsel2
  subst hsel2
  obtain ⟨pre, N, post, e, hslot, hNf, hsz⟩ := hspec h rfl
  subst e
  subst hslot
  have hcommit : ∃ q, mem_new_alloc_commit (_mem_resize_node_heap realloc_in_place p) size N.slot =
      some (q, some N.slot) := by
    by_cases ce : N.size = size
    · obtain ⟨q, _, hc, _⟩ := alloc_commit_exact _ size pre post N hq.heap hq.gap hNf ce
      exact ⟨q, hc⟩
    · obtain ⟨q, _, hc, _⟩ := alloc_commit_split _ size pre post N hq.heap hq.gap hNf
        (by omega) (by omega)
      exact ⟨q, hc⟩
  obtain ⟨q, hc⟩ := hcommit
  refine ⟨q, ?_⟩
  unfold mem_new_alloc
  rw [if_neg hg0, if_neg (by omega), hsel]
  exact hc

/-- A successful allocation while the node heap stays where it is.  In every pool of
`Reachable`, when the policy of `mem_new_alloc` selects the node `h` for a positive size, with
a growth of the node heap in place by zeroed slots if there is one, the call returns the
handle `h`; the node was a free segment with some start `s` and size `old ≥ size`;
afterwards it is allocated with the same start and size `size`, `num_allocs` has grown by 1
and `alloc_size` by `size`, and no gap index entry points to it.  When `old = size` its links are as before, `used_nodes` is
unchanged and `num_gaps` has dropped by 1.  When `size < old`, a node `u` is linked right
after it (its `prev` is `h`, its `next` is the former `next` of `h`, whose `prev` is now
`u`), it is free with start `s + size` and size `old - size`, it has an entry of that size
among the live gap index entries, and `used_nodes` has grown by 1. -/
theorem alloc_postcondition (p : pool_mgr_t) (size h : Nat) (hr : Reachable p)
    (hs : 0 < size)
    (hsel : mem_new_alloc_select (_mem_resize_node_heap realloc_in_place p) size = some (some h)) :
    ∃ p2, mem_new_alloc realloc_in_place p size = some (p2, some h) ∧
    ∃ s old nx pv, p.node_heap[h]? = some ⟨old, some s, 1, 0, nx, pv⟩ ∧ size ≤ old ∧
      p2.num_allocs = p.num_allocs + 1 ∧ p2.alloc_size = p.alloc_size + size ∧
      (∀ e ∈ p2.gap_ix, e.node ≠ some h) ∧
      ((old = size ∧ p2.node_heap[h]? = some ⟨size, some s, 1, 1, nx, pv⟩ ∧
          p2.used_nodes = p.used_nodes ∧ p2.num_gaps + 1 = p.num_gaps) ∨
        (size < old ∧ ∃ u, p2.node_heap[h]? = some ⟨size, some s, 1, 1, some u, pv⟩ ∧
          p2.node_heap[u]? = some ⟨old - size, some (s + size), 1, 0, nx, some h⟩ ∧
          (∀ i : Nat, nx = some i → ∃ m, p2.node_heap[i]? = some m ∧ m.prev = some u) ∧
          ⟨old - size, some u⟩ ∈ p2.gap_ix.take p2.num_gaps ∧
          p2.used_nodes = p.used_nodes + 1 ∧ p2.num_gaps = p.num_gaps)) := by
  obtain ⟨segs, hi⟩ := reach_inv p hr
  obtain ⟨p2, ha⟩ := select_success p segs size h hi hs hsel
  refine ⟨p2, ha, ?_⟩
  rcases alloc_cases p p2 segs size (some h) hi ha with ⟨e, _⟩ | ⟨pre, N, post, segs2, e, hN, hsz, hh,
    _, hpost⟩
  · cases e
  · subst e
    simp only [Option.some.injEq] at hh
    subst hh
    have hi2 := alloc_commit_inv _ p2 size pre post N segs2 (resize_inv p _ hi) hN hs
      (resize_room p hi.cap hi.total_ge).1 hpost
    obtain ⟨hH2, hG2, a1, a2, a3, a4, a5, hcase⟩ := hpost
    obtain ⟨e1, e2, e3, e4, e5, e6, e7, e8⟩ := resize_fields p
    obtain ⟨_, hNrec, _⟩ := split_facts hi.heap
    obtain ⟨g1, g2, g3⟩ := inv_gap_take p2 segs2 hi2
    have hu := hi.heap.used_eq
    have hu2 := hH2.used_eq
    have hnomem : ∀ l : List Seg, (∀ g ∈ l, g.alloc = false → g.slot ≠ N.slot) →
        ∀ e ∈ p2.gap_ix, (e = gap_zero ∨ e ∈ free_entries l) → e.node ≠ some N.slot := by
      intro l hl e _ hc hne
      rcases hc with c | c
      · rw [c] at hne; cases hne
      · obtain ⟨g, hg, hga, he⟩ := mem_free_entries c
        rw [he] at hne
        simp only [Option.some.injEq] at hne
        exact hl g hg hga hne
    obtain ⟨nd1, nd2, _⟩ := nodup_split hi.heap.nodup
    refine ⟨N.start, N.size, headSlot post none, lastSlot pre none, ?_, hsz, by rw [a1, e4],
      by rw [a2, e3], ?_, ?_⟩
    · rw [hNrec]; simp [Seg.node, hN]
    · intro e he
      apply hnomem segs2 _ e he (g3 e he)
      intro g hg hga
      rcases hcase with ⟨_, hsegs, _⟩ | ⟨_, _, u, hsegs⟩
      · rw [hsegs] at hg
        simp only [List.mem_append, List.mem_cons] at hg
        rcases hg with c | c | c
        · exact nd1 g c
        · rw [c] at hga; cases hga
        · exact nd2 g c
      · have hnd := hH2.nodup
        rw [hsegs] at hg hnd
        obtain ⟨md1, md2, _⟩ := nodup_split hnd
        simp only [List.mem_append, List.mem_cons] at hg
        rcases hg with c | c | c | c
        · exact md1 g c
        · rw [c] at hga; cases hga
        · exact md2 g (by simp [c])
        · exact md2 g (by simp [c])
    · rcases hcase with ⟨hex, hsegs, hng⟩ | ⟨hlt, hng, u, hsegs⟩
      · left
        subst hsegs
        obtain ⟨_, hrec, _⟩ := split_facts hH2
        refine ⟨hex, ?_, ?_, by rw [← e5]; exact hng⟩
        · rw [hrec]; rfl
        · simp at hu hu2; omega
      · right
        subst hsegs
        obtain ⟨_, hrec, hrest⟩ := split_facts hH2
        obtain ⟨hurec, hrest2⟩ := hrest
        refine ⟨hlt, u, ?_, ?_, ?_, ?_, ?_, by rw [← e5]; exact hng⟩
        · rw [hrec]; rfl
        · rw [hurec]; rfl
        · intro i hnx
          cases post with
          | nil => simp [headSlot] at hnx
          | cons P rest =>
            simp only [headSlot, Option.some.injEq] at hnx
            subst hnx
            obtain ⟨hP, _⟩ := hrest2
            exact ⟨_, hP, rfl⟩
        · apply g1.symm.subset
          rw [free_entries_append, free_entries_cons_alloc _ _ rfl,
            free_entries_cons_free _ _ rfl]
          simp
        · simp at hu hu2; omega

/-- The postcondition of an allocation of 10 bytes at a fresh pool of 100 bytes. -/
theorem alloc_postcondition_witness :
    ∃ p2, mem_new_alloc realloc_in_place (pool_mgr_open 100 alloc_policy.BEST_FIT) 10 = some (p2, some 0) ∧
      ∃ s old nx pv, (pool_mgr_open 100 alloc_policy.BEST_FIT).node_heap[0]? =
          some ⟨old, some s, 1, 0, nx, pv⟩ ∧ 10 ≤ old ∧
        p2.num_allocs = (pool_mgr_open 100 alloc_policy.BEST_FIT).num_allocs + 1 ∧
        p2.alloc_size = (pool_mgr_open 100 alloc_policy.BEST_FIT).alloc_size + 10 ∧
        (∀ e ∈ p2.gap_ix, e.node ≠ some 0) ∧
        ((old = 10 ∧ p2.node_heap[0]? = some ⟨10, some s, 1, 1, nx, pv⟩ ∧
            p2.used_nodes = (pool_mgr_open 100 alloc_policy.BEST_FIT).used_nodes ∧
            p2.num_gaps + 1 = (pool_mgr_open 100 alloc_policy.BEST_FIT).num_gaps) ∨
          (10 < old ∧ ∃ u, p2.node_heap[0]? = some ⟨10, some s, 1, 1, some u, pv⟩ ∧
            p2.node_heap[u]? = some ⟨old - 10, some (s + 10), 1, 0, nx, some 0⟩ ∧
            (∀ i : Nat, nx = some i → ∃ m, p2.node_heap[i]? = some m ∧ m.prev = some u) ∧
            ⟨old - 10, some u⟩ ∈ p2.gap_ix.take p2.num_gaps ∧
            p2.used_nodes = (pool_mgr_open 100 alloc_policy.BEST_FIT).used_nodes + 1 ∧
            p2.num_gaps = (pool_mgr_open 100 alloc_policy.BEST_FIT).num_gaps)) :=
  alloc_postcondition (pool_mgr_open 100 alloc_policy.BEST_FIT) 10 0 (Reachable.opened _ _)
    (by decide) (by decide)

theorem lastSlot_some {pre : List Seg} {i : Nat} (h : lastSlot pre none = some i) :
    ∃ L F, pre = L ++ [F] ∧ F.slot = i := by
  rcases List.eq_nil_or_concat pre with e | ⟨L, F, e⟩
  · subst e; simp [lastSlot] at h
  · rw [List.concat_eq_append] at e
    subst e
    rw [lastSlot_append] at h
    simp only [lastSlot, Option.some.injEq] at h
    exact ⟨L, F, rfl, h⟩

theorem headSlot_some {post : List Seg} {i : Nat} (h : headSlot post none = some i) :
    ∃ F rest, post = F :: rest ∧ F.slot = i := by
  cases post with
  | nil => simp [headSlot] at h
  | cons F rest =>
    simp only [headSlot, Option.some.injEq] at h
    exact ⟨F, rest, rfl, h⟩

/-- The three-way merge while the node heap stays where it is.  In every pool of
`Reachable`, when the allocated node `a` is linked
between the free nodes `f1` (its `prev`) and `f2` (its `next`), `mem_del_alloc` on `a`
returns `ALLOC_OK`; afterwards `f1` is a free node with its old start and `prev`, the sum of
the three sizes, and the former `next` of `f2` as its `next` (whose `prev` now is `f1`); the
slots of `a` and `f2` are unused; the gap index holds exactly one entry for `f1`, with the
sum of the sizes, and none for `a` or `f2`; `used_nodes` has dropped by 2 and `num_gaps`
by 1. -/
theorem three_way_merge (p : pool_mgr_t) (a f1 f2 : Nat) (A F1 F2 : node_t) (hr : Reachable p)
    (hA : p.node_heap[a]? = some A) (hAu : A.used = 1) (hAa : A.allocated = 1)
    (hAp : A.prev = some f1) (hAn : A.next = some f2)
    (hF1 : p.node_heap[f1]? = some F1) (hF1a : F1.allocated = 0)
    (hF2 : p.node_heap[f2]? = some F2) (hF2a : F2.allocated = 0) :
    ∃ p2, mem_del_alloc p (some a) = some (p2, alloc_status.ALLOC_OK) ∧
      p2.node_heap[f1]? =
        some { F1 with size := F1.size + (A.size + F2.size), next := F2.next } ∧
      (∀ i : Nat, F2.next = some i → ∃ m, p2.node_heap[i]? = some m ∧ m.prev = some f1) ∧
      (∃ n, p2.node_heap[a]? = some n ∧ n.used = 0) ∧
      (∃ n, p2.node_heap[f2]? = some n ∧ n.used = 0) ∧
      p2.gap_ix.filter (fun e => decide (e.node = some f1)) =
        [⟨F1.size + (A.size + F2.size), some f1⟩] ∧
      (∀ e ∈ p2.gap_ix, e.node ≠ some a ∧ e.node ≠ some f2) ∧
      p2.used_nodes + 2 = p.used_nodes ∧ p2.num_gaps + 1 = p.num_gaps := by
  obtain ⟨segs, hi⟩ := reach_inv p hr
  obtain ⟨pre, As, post, e, hslot, hAl, hrec⟩ := handle_split p segs hi a A hA hAu hAa
  subst e
  subst hslot
  rw [hrec] at hAp hAn
  obtain ⟨L, Fs1, e1, hs1⟩ := lastSlot_some (show lastSlot pre none = some f1 from hAp)
  obtain ⟨Fs2, rest, e2, hs2⟩ := headSlot_some (show headSlot post none = some f2 from hAn)
  subst e1 e2 hs1 hs2
  have hi' : Inv p (L ++ Fs1 :: As :: Fs2 :: rest) := by simpa using hi
  obtain ⟨hcL, hF1rec, hrest⟩ := split_facts hi'.heap
  obtain ⟨_, hF2rec, hrest2⟩ := hrest
  simp only [headSlot] at hF1rec hF2rec
  rw [hF1] at hF1rec
  rw [hF2] at hF2rec
  simp only [Option.some.injEq] at hF1rec hF2rec
  have hf1 : Fs1.alloc = false := by
    rw [hF1rec] at hF1a; exact seg_alloc_of_node hF1a
  have hf2 : Fs2.alloc = false := by
    rw [hF2rec] at hF2a; exact seg_alloc_of_node hF2a
  have hsegs : del_segs (L ++ [Fs1]) As (Fs2 :: rest) =
      L ++ { Fs1 with size := Fs1.size + (As.size + Fs2.size) } :: rest := by
    unfold del_segs
    rw [merge_next_segs_free_cons _ _ _ hf2, merge_prev_segs_free_concat _ _ _ hf1]
  obtain ⟨g1, g2, _⟩ := inv_gap_take p _ hi
  have hfe : free_entries ((L ++ [Fs1]) ++ As :: Fs2 :: rest) =
      free_entries L ++ ⟨Fs1.size, some Fs1.slot⟩ :: ⟨Fs2.size, some Fs2.slot⟩ ::
        free_entries rest := by
    rw [free_entries_append, free_entries_append, free_entries_cons_free _ _ hf1,
      free_entries_cons_alloc _ _ hAl, free_entries_cons_free _ _ hf2]
    simp [free_entries]
  have hfe2 : free_entries (L ++ { Fs1 with size := Fs1.size + (As.size + Fs2.size) } :: rest) =
      free_entries L ++ ⟨Fs1.size + (As.size + Fs2.size), some Fs1.slot⟩ :: free_entries rest := by
    rw [free_entries_append,
      free_entries_cons_free { Fs1 with size := Fs1.size + (As.size + Fs2.size) } rest hf1]
  have hng : p.num_gaps ≤ 31 := by
    obtain ⟨_, _, _, _, _, h⟩ := hi.gap; exact h
  have hroom : (free_entries (del_segs (L ++ [Fs1]) As (Fs2 :: rest))).length ≤ 31 := by
    rw [hsegs, hfe2]
    rw [hfe] at g2
    simp only [List.length_append, List.length_cons] at g2 ⊢
    omega
  obtain ⟨p2, hdel⟩ := del_defined p (L ++ [Fs1]) (Fs2 :: rest) As hi hAl hroom
  obtain ⟨_, hi2, _⟩ := del_post p p2 (L ++ [Fs1]) (Fs2 :: rest) As _ hi hAl hdel
  rw [hsegs] at hi2
  obtain ⟨k1, k2, k3⟩ := inv_gap_take p2 _ hi2
  obtain ⟨_, hMrec, hrest3⟩ := split_facts hi2.heap
  obtain ⟨nd1, nd2, nd3, nd4, nd5⟩ := nodup_split hi'.heap.nodup
  obtain ⟨ne2, ne5⟩ := nodup_cons_split nd5
  obtain ⟨nf2, nf5⟩ := nodup_cons_split ne5
  have hslots : ∀ i, (i = As.slot ∨ i = Fs2.slot) →
      i ∉ (L ++ { Fs1 with size := Fs1.size + (As.size + Fs2.size) } :: rest).map Seg.slot := by
    intro i hi3 hm
    rw [mem_slots_split] at hm
    rcases hm with ⟨g, hg, e⟩ | e | ⟨g, hg, e⟩
    · rcases hi3 with c | c
      · exact nd3 g hg As (by simp) (by rw [e, c])
      · exact nd3 g hg Fs2 (by simp) (by rw [e, c])
    · rcases hi3 with c | c
      · exact nd2 As (by simp) (by rw [← c, e])
      · exact nd2 Fs2 (by simp) (by rw [← c, e])
    · rcases hi3 with c | c
      · exact ne2 g (by simp [hg]) (by rw [e, c])
      · exact nf2 g hg (by rw [e, c])
  have hlen : p2.node_heap.length = p.node_heap.length := by
    rw [hi2.heap.heap_len, hi.heap.heap_len]
    exact (del_post p p2 (L ++ [Fs1]) (Fs2 :: rest) As _ hi hAl hdel).2.2.2.2.2.2
  have hunused : ∀ i, (i = As.slot ∨ i = Fs2.slot) → i < p.node_heap.length →
      ∃ n, p2.node_heap[i]? = some n ∧ n.used = 0 := by
    intro i hi3 hlt
    have hlt2 : i < p2.node_heap.length := by rw [hlen]; exact hlt
    exact ⟨_, List.getElem?_eq_getElem hlt2,
      hi2.heap.unused i _ (List.getElem?_eq_getElem hlt2) (hslots i hi3)⟩
  have hu := hi.heap.used_eq
  have hu2 := hi2.heap.used_eq
  refine ⟨p2, hdel, ?_, ?_, hunused _ (Or.inl rfl) (List.getElem?_eq_some.1 hA).1,
    hunused _ (Or.inr rfl) (List.getElem?_eq_some.1 hF2).1, ?_, ?_, ?_, ?_⟩
  · rw [hMrec, hF1rec, hF2rec, hrec]
    rfl
  · intro i hnx
    rw [hF2rec] at hnx
    obtain ⟨P, rest2, e3, hs3⟩ := headSlot_some (show headSlot rest none = some i from hnx)
    subst e3 hs3
    obtain ⟨hP, _⟩ := hrest3
    exact ⟨_, hP, rfl⟩
  · obtain ⟨entries, h1, h2, h3, _, _⟩ := hi2.gap
    rw [h1, List.filter_append]
    have hz : List.filter (fun e => decide (e.node = some Fs1.slot))
        (List.replicate (40 - entries.length) gap_zero) = [] := by
      rw [List.filter_eq_nil_iff]
      intro e he
      rw [List.eq_of_mem_replicate he]
      simp [gap_zero]
    rw [hz, List.append_nil]
    have hp := h3.filter (fun e => decide (e.node = some Fs1.slot))
    rw [hfe2, List.filter_append, List.filter_cons] at hp
    have hl : List.filter (fun e => decide (e.node = some Fs1.slot)) (free_entries L) = [] := by
      rw [List.filter_eq_nil_iff]
      intro e he
      obtain ⟨g, hg, _, hge⟩ := mem_free_entries he
      subst hge
      simp only [decide_eq_true_eq, Option.some.injEq]
      exact nd1 g hg
    have hrs : List.filter (fun e => decide (e.node = some Fs1.slot)) (free_entries rest) = [] := by
      rw [List.filter_eq_nil_iff]
      intro e he
      obtain ⟨g, hg, _, hge⟩ := mem_free_entries he
      subst hge
      simp only [decide_eq_true_eq, Option.some.injEq]
      exact nd2 g (by simp [hg])
    rw [hl, hrs] at hp
    simp only [decide_True, if_true, List.nil_append] at hp
    rw [hF1rec, hF2rec, hrec]
    exact List.perm_singleton.1 hp
  · intro e he
    rcases k3 e he with c | c
    · rw [c]; simp [gap_zero]
    · obtain ⟨g, hg, _, hge⟩ := mem_free_entries c
      subst hge
      have hgm : g.slot ∈
          (L ++ { Fs1 with size := Fs1.size + (As.size + Fs2.size) } :: rest).map Seg.slot :=
        List.mem_map.2 ⟨g, hg, rfl⟩
      constructor
      · intro e2
        simp only [Option.some.injEq] at e2
        exact hslots _ (Or.inl e2) hgm
      · intro e2
        simp only [Option.some.injEq] at e2
        exact hslots _ (Or.inr e2) hgm
  · simp at hu hu2; omega
  · rw [k2, g2, hfe, hfe2]
    simp only [List.length_append, List.length_cons]
    omega

/-- The three-way merge at a pool of 100 bytes: after three allocations of 10 bytes and the
release of the first and the third, node 1 is allocated between the free nodes 0 and 2. -/
theorem three_way_merge_witness :
    ∃ p2, mem_del_alloc (sample_pool 100 alloc_policy.FIRST_FIT
        [pool_op.new_alloc 10, pool_op.new_alloc 10, pool_op.new_alloc 10, pool_op.del_alloc 0,
          pool_op.del_alloc 2]) (some 1) = some (p2, alloc_status.ALLOC_OK) ∧
      p2.node_heap[0]? = some ⟨10 + (10 + 80), some 0, 1, 0, none, none⟩ ∧
      (∀ i : Nat, (none : Option Nat) = some i →
        ∃ m, p2.node_heap[i]? = some m ∧ m.prev = some 0) ∧
      (∃ n, p2.node_heap[1]? = some n ∧ n.used = 0) ∧
      (∃ n, p2.node_heap[2]? = some n ∧ n.used = 0) ∧
      p2.gap_ix.filter (fun e => decide (e.node = some 0)) = [⟨10 + (10 + 80), some 0⟩] ∧
      (∀ e ∈ p2.gap_ix, e.node ≠ some 1 ∧ e.node ≠ some 2) ∧
      p2.used_nodes + 2 = (sample_pool 100 alloc_policy.FIRST_FIT
        [pool_op.new_alloc 10, pool_op.new_alloc 10, pool_op.new_alloc 10, pool_op.del_alloc 0,
          pool_op.del_alloc 2]).used_nodes ∧
      p2.num_gaps + 1 = (sample_pool 100 alloc_policy.FIRST_FIT
        [pool_op.new_alloc 10, pool_op.new_alloc 10, pool_op.new_alloc 10, pool_op.del_alloc 0,
          pool_op.del_alloc 2]).num_gaps :=
  three_way_merge _ 1 0 2 ⟨10, some 10, 1, 1, some 2, some 0⟩ ⟨10, some 0, 1, 0, some 1, none⟩
    ⟨80, some 20, 1, 0, none, some 1⟩ (sample_pool_reachable _ _ _ (by decide)) (by decide) rfl
    rfl rfl rfl (by decide) rfl (by decide) rfl
/-! ## Runs that fill the gap index -/

theorem run_ops_append : ∀ (a b : List pool_op) (p : pool_mgr_t),
    run_ops p (a ++ b) = (run_ops p a).bind (fun q => run_ops q b) := by
  intro a
  induction a with
  | nil => intro b p; rfl
  | cons op rest ih =>
    intro b p
    cases op with
    | new_alloc size =>
      simp only [List.cons_append, run_ops]
      by_cases c : 0 < size
      · simp only [if_pos c]
        cases mem_new_alloc realloc_in_place p size with
        | none => rfl
        | some x => exact ih b x.1
      · simp only [if_neg c]; rfl
    | del_alloc hd =>
      simp only [List.cons_append, run_ops]
      cases p.node_heap[hd]? with
      | none => rfl
      | some n =>
        dsimp only
        by_cases c : n.used = 1 ∧ n.allocated = 1
        · simp only [if_pos c]
          cases mem_del_alloc p (some hd) with
          | none => rfl
          | some x => exact ih b x.1
        · simp only [if_neg c]; rfl

/-! The steps of the run `gap31_ops` are evaluated a few at a time. -/

set_option maxRecDepth 1000000 in
theorem fill_steps_0 : fill_steps_ok 0 16 = true := by decide!

set_option maxRecDepth 1000000 in
theorem fill_steps_16 : fill_steps_ok 16 12 = true := by decide!

set_option maxRecDepth 1000000 in
theorem fill_steps_28 : fill_steps_ok 28 8 = true := by decide!

set_option maxRecDepth 1000000 in
theorem fill_steps_36 : fill_steps_ok 36 8 = true := by decide!

set_option maxRecDepth 1000000 in
theorem fill_steps_44 : fill_steps_ok 44 6 = true := by decide!

set_option maxRecDepth 1000000 in
theorem fill_steps_50 : fill_steps_ok 50 6 = true := by decide!

set_option maxRecDepth 1000000 in
theorem fill_steps_56 : fill_steps_ok 56 6 = true := by decide!

set_option maxRecDepth 1000000 in
theorem free_steps_0 : free_steps_ok 0 6 = true := by decide!

set_option maxRecDepth 1000000 in
theorem free_steps_6 : free_steps_ok 6 6 = true := by decide!

set_option maxRecDepth 1000000 in
theorem free_steps_12 : free_steps_ok 12 6 = true := by decide!

set_option maxRecDepth 1000000 in
theorem free_steps_18 : free_steps_ok 18 6 = true := by decide!

set_option maxRecDepth 1000000 in
theorem free_steps_24 : free_steps_ok 24 6 = true := by decide!

theorem fill_steps_ok_spec (a n : Nat) (h : fill_steps_ok a n = true) (k : Nat) (h1 : a ≤ k)
    (h2 : k < a + n) :
    mem_new_alloc realloc_in_place (fill_state k) 1 = some (fill_state (k + 1), some k) := by
  unfold fill_steps_ok at h
  rw [List.all_eq_true] at h
  exact of_decide_eq_true (h k (List.mem_range'_1.2 ⟨h1, h2⟩))

theorem free_steps_ok_spec (a n : Nat) (h : free_steps_ok a n = true) (j : Nat) (h1 : a ≤ j)
    (h2 : j < a + n) :
    (free_state j).node_heap[2 * j]? =
        some ⟨1, some (2 * j), 1, 1, some (2 * j + 1),
          if j = 0 then none else some (2 * j - 1)⟩ ∧
      mem_del_alloc (free_state j) (some (2 * j)) =
        some (free_state (j + 1), alloc_status.ALLOC_OK) := by
  unfold free_steps_ok at h
  rw [List.all_eq_true] at h
  exact of_decide_eq_true (h j (List.mem_range'_1.2 ⟨h1, h2⟩))

/-- Each of the 62 allocations of the run gives the next written-out state and the handle
of slot `k`. -/
theorem fill_step (k : Nat) (hk : k < 62) :
    mem_new_alloc realloc_in_place (fill_state k) 1 = some (fill_state (k + 1), some k) := by
  by_cases c0 : k < 16
  · exact fill_steps_ok_spec 0 16 fill_steps_0 k (by omega) (by omega)
  by_cases c16 : k < 28
  · exact fill_steps_ok_spec 16 12 fill_steps_16 k (by omega) (by omega)
  by_cases c28 : k < 36
  · exact fill_steps_ok_spec 28 8 fill_steps_28 k (by omega) (by omega)
  by_cases c36 : k < 44
  · exact fill_steps_ok_spec 36 8 fill_steps_36 k (by omega) (by omega)
  by_cases c44 : k < 50
  · exact fill_steps_ok_spec 44 6 fill_steps_44 k (by omega) (by omega)
  by_cases c50 : k < 56
  · exact fill_steps_ok_spec 50 6 fill_steps_50 k (by omega) (by omega)
  exact fill_steps_ok_spec 56 6 fill_steps_56 k (by omega) (by omega)

/-- Each of the 30 releases of the run is the release of a used, allocated node and gives
the next written-out state. -/
theorem free_step (j : Nat) (hj : j < 30) :
    (free_state j).node_heap[2 * j]? =
        some ⟨1, some (2 * j), 1, 1, some (2 * j + 1),
          if j = 0 then none else some (2 * j - 1)⟩ ∧
      mem_del_alloc (free_state j) (some (2 * j)) =
        some (free_state (j + 1), alloc_status.ALLOC_OK) := by
  by_cases c0 : j < 6
  · exact free_steps_ok_spec 0 6 free_steps_0 j (by omega) (by omega)
  by_cases c6 : j < 12
  · exact free_steps_ok_spec 6 6 free_steps_6 j (by omega) (by omega)
  by_cases c12 : j < 18
  · exact free_steps_ok_spec 12 6 free_steps_12 j (by omega) (by omega)
  by_cases c18 : j < 24
  · exact free_steps_ok_spec 18 6 free_steps_18 j (by omega) (by omega)
  exact free_steps_ok_spec 24 6 free_steps_24 j (by omega) (by omega)

theorem run_fill : ∀ (m k : Nat), k + m ≤ 62 →
    run_ops (fill_state k) (List.replicate m (pool_op.new_alloc 1)) =
      some (fill_state (k + m)) := by
  intro m
  induction m with
  | zero => intro k _; rfl
  | succ m ih =>
    intro k h
    simp only [List.replicate_succ, run_ops, Nat.lt_one_iff, if_true, fill_step k (by omega)]
    rw [ih (k + 1) (by omega)]
    congr 2
    omega

theorem run_free : ∀ (m j : Nat), j + m ≤ 30 →
    run_ops (free_state j) ((List.range' j m).map (fun i => pool_op.del_alloc (2 * i))) =
      some (free_state (j + m)) := by
  intro m
  induction m with
  | zero => intro j _; rfl
  | succ m ih =>
    intro j h
    obtain ⟨h1, h2⟩ := free_step j (by omega)
    simp only [List.range'_succ, List.map_cons, run_ops, h1, h2, and_self, if_true]
    rw [ih (j + 1) (by omega)]
    congr 2
    omega

/-- The run `gap31_ops` from a fresh pool of 1000 bytes is defined and ends in the
written-out state `free_state 30`. -/
theorem gap31_run :
    run_ops (pool_mgr_open 1000 alloc_policy.FIRST_FIT) gap31_ops = some (free_state 30) := by
  have h0 : pool_mgr_open 1000 alloc_policy.FIRST_FIT = fill_state 0 := by decide
  have h1 : fill_state 62 = free_state 0 := by decide!
  unfold gap31_ops
  rw [run_ops_append, h0, run_fill 62 0 (by omega)]
  simp only [Option.some_bind, Nat.zero_add]
  rw [h1, List.range_eq_range', run_free 30 0 (by omega)]

set_option maxRecDepth 1000000 in
theorem free_state_last : mem_del_alloc (free_state 30) (some 60) = none := by decide!

set_option maxRecDepth 100000 in
/-- In the pool that the run `gap31_ops` reaches the node heap has grown to 160 slots, the
gap index holds 31 entries in its 40 places, the node in slot 60 is allocated between the
allocated nodes 59 and 61, and the release of the handle 60 is undefined. -/
theorem gap31_pool : ∃ p, sample_pool 1000 alloc_policy.FIRST_FIT gap31_ops = p ∧
    run_ops (pool_mgr_open 1000 alloc_policy.FIRST_FIT) gap31_ops = some p ∧
      p.total_nodes = 160 ∧ p.node_heap.length = 160 ∧ p.used_nodes = 63 ∧
      p.num_gaps = 31 ∧ p.gap_ix_capacity = 40 ∧ p.gap_ix.length = 40 ∧
      p.num_allocs = 32 ∧
      p.node_heap[59]? = some ⟨1, some 59, 1, 1, some 60, some 58⟩ ∧
      p.node_heap[60]? = some ⟨1, some 60, 1, 1, some 61, some 59⟩ ∧
      p.node_heap[61]? = some ⟨1, some 61, 1, 1, some 62, some 60⟩ ∧
      mem_del_alloc p (some 60) = none := by
  refine ⟨free_state 30, ?_, gap31_run, rfl, by decide!, rfl, rfl, rfl, by decide!, rfl,
    by decide!, by decide!, by decide!, free_state_last⟩
  unfold sample_pool
  rw [gap31_run]
  rfl
/-! ## Claims on growth and on the gap index functions -/

/-- C19 (gap index growth).  Whenever `_mem_resize_gap_ix` has to grow the index, the call
has no defined result (it passes the address of the field `gap_ix_capacity` to `realloc`);
and when the index is not full, the number of entries it asks for, twice `num_gaps`, is
below the capacity it would record, twice `gap_ix_capacity`. -/
theorem gap_index_resize_undefined (p : pool_mgr_t)
    (h : 4 * p.num_gaps > 3 * p.gap_ix_capacity) :
    _mem_resize_gap_ix p = none ∧
      (p.num_gaps < p.gap_ix_capacity →
        _mem_resize_gap_ix_request p < _mem_resize_gap_ix_recorded p) := by
  constructor
  · unfold _mem_resize_gap_ix
    rw [if_pos h]
  · intro hlt
    unfold _mem_resize_gap_ix_request _mem_resize_gap_ix_recorded MEM_GAP_IX_EXPAND_FACTOR
    omega

/-- The growth of the gap index at the pool reached by `gap31_ops`, which has 31 entries in
40 places: the call is undefined, and it asks for 62 entries while 80 would be recorded. -/
theorem gap_index_resize_undefined_witness :
    4 * (sample_pool 1000 alloc_policy.FIRST_FIT gap31_ops).num_gaps >
        3 * (sample_pool 1000 alloc_policy.FIRST_FIT gap31_ops).gap_ix_capacity ∧
      _mem_resize_gap_ix (sample_pool 1000 alloc_policy.FIRST_FIT gap31_ops) = none ∧
      _mem_resize_gap_ix_request (sample_pool 1000 alloc_policy.FIRST_FIT gap31_ops) = 62 ∧
      _mem_resize_gap_ix_recorded (sample_pool 1000 alloc_policy.FIRST_FIT gap31_ops) = 80 := by
  obtain ⟨p, hs, _, _, _, _, h5, h6, _⟩ := gap31_pool
  rw [hs]
  have hgrow : 4 * p.num_gaps > 3 * p.gap_ix_capacity := by rw [h5, h6]; decide
  exact ⟨hgrow, (gap_index_resize_undefined p hgrow).1,
    by unfold _mem_resize_gap_ix_request; rw [h5]; rfl,
    by unfold _mem_resize_gap_ix_recorded; rw [h6]; rfl⟩

/-- C17 (gap index insertion), at sizes that differ by more than `2^31`.  In the pool of
3000000000 bytes after two allocations of one byte, the gap index holds the single entry of
node 2 (2999999998 bytes), which is in order.  `_mem_add_to_gap_ix` with the entry of size 1
for node 0 returns `ALLOC_OK` and leaves the entries `(2999999998, node 2), (1, node 0)`,
which are not in ascending order: the difference `1 - 2999999998`, truncated to `int`, is
the positive number 1294967299. -/
theorem gap_index_insert_unsorted_large_size :
    (sample_pool 3000000000 alloc_policy.FIRST_FIT
        [pool_op.new_alloc 1, pool_op.new_alloc 1]).gap_ix.take
      (sample_pool 3000000000 alloc_policy.FIRST_FIT
        [pool_op.new_alloc 1, pool_op.new_alloc 1]).num_gaps = [⟨2999999998, some 2⟩] ∧
    gap_mem (sample_pool 3000000000 alloc_policy.FIRST_FIT
        [pool_op.new_alloc 1, pool_op.new_alloc 1]).node_heap ⟨1, some 0⟩ = some 0 ∧
    (_mem_add_to_gap_ix (sample_pool 3000000000 alloc_policy.FIRST_FIT
        [pool_op.new_alloc 1, pool_op.new_alloc 1]) 1 0).map
      (fun r => (r.1.num_gaps, r.1.gap_ix.take r.1.num_gaps)) =
      some (2, [⟨2999999998, some 2⟩, ⟨1, some 0⟩]) ∧
    (_mem_add_to_gap_ix (sample_pool 3000000000 alloc_policy.FIRST_FIT
        [pool_op.new_alloc 1, pool_op.new_alloc 1]) 1 0).map
      (fun r => (gap_sorted r.1.node_heap (r.1.gap_ix.take r.1.num_gaps), r.2)) =
      some (false, alloc_status.ALLOC_OK) ∧
    size_dif 1 2999999998 = 1294967299 := by
  decide

/-- C18 (gap index removal).  When the gap index holds the live entries `l1 ++ e :: l2` in
its first `num_gaps` places, below its capacity, and zeroed entries behind them, and `e` is
the first entry of the node `nd`, then `_mem_remove_from_gap_ix` returns `ALLOC_OK`, leaves
the live entries `l1 ++ l2` in their order in the first `num_gaps - 1` places, lowers
`num_gaps` by 1, and leaves every place from the new `num_gaps` on zeroed. -/
theorem gap_index_remove (p : pool_mgr_t) (sz nd : Nat) (l1 l2 : List gap_t) (e : gap_t)
    (hg : p.gap_ix =
      l1 ++ e :: l2 ++ List.replicate (p.gap_ix_capacity - p.num_gaps) gap_zero)
    (hn : p.num_gaps = l1.length + 1 + l2.length) (hlt : p.num_gaps < p.gap_ix_capacity)
    (he : e.node = some nd) (hl1 : ∀ x ∈ l1, x.node ≠ some nd) :
    _mem_remove_from_gap_ix p sz nd =
      some ({ p with
              gap_ix := l1 ++ l2 ++
                List.replicate (p.gap_ix_capacity - (p.num_gaps - 1)) gap_zero
              num_gaps := p.num_gaps - 1 }, alloc_status.ALLOC_OK) := by
  have hk : p.gap_ix_capacity - p.num_gaps = (p.gap_ix_capacity - p.num_gaps - 1) + 1 := by
    omega
  have hg2 : p.gap_ix =
      l1 ++ e :: (l2 ++ List.replicate ((p.gap_ix_capacity - p.num_gaps - 1) + 1) gap_zero) := by
    rw [← hk, hg]; simp
  have hc : p.gap_ix_capacity = p.gap_ix.length := by
    rw [hg]; simp; omega
  rw [remove_eq p sz nd l1 l2 e (p.gap_ix_capacity - p.num_gaps - 1) hg2 hc hn he hl1]
  have e1 : p.gap_ix_capacity - p.num_gaps - 1 + 2 = p.gap_ix_capacity - (p.num_gaps - 1) := by
    omega
  have e2 : l1.length + l2.length = p.num_gaps - 1 := by omega
  rw [e1, e2, List.append_assoc]

/-- The removal of the entry of node 3 from the gap index of a pool of 100 bytes that holds
the entries of the free nodes 1 (10 bytes) and 3 (70 bytes). -/
theorem gap_index_remove_witness :
    _mem_remove_from_gap_ix (sample_pool 100 alloc_policy.FIRST_FIT
        [pool_op.new_alloc 10, pool_op.new_alloc 10, pool_op.new_alloc 10,
          pool_op.del_alloc 1]) 70 3 =
      some ({ sample_pool 100 alloc_policy.FIRST_FIT
                [pool_op.new_alloc 10, pool_op.new_alloc 10, pool_op.new_alloc 10,
                  pool_op.del_alloc 1] with
              gap_ix := [⟨10, some 1⟩] ++ [] ++ List.replicate (40 - (2 - 1)) gap_zero
              num_gaps := 2 - 1 }, alloc_status.ALLOC_OK) :=
  gap_index_remove (sample_pool 100 alloc_policy.FIRST_FIT
      [pool_op.new_alloc 10, pool_op.new_alloc 10, pool_op.new_alloc 10, pool_op.del_alloc 1])
    70 3 [⟨10, some 1⟩] [] ⟨70, some 3⟩ (by decide) (by decide) (by decide) rfl (by decide)
/-! ## Counters, adjacency and inspection -/

theorem invW_segments (p : pool_mgr_t) (segs : List Seg) (h : InvW p segs) :
    pool_segments p = some (seg_nodes none segs) := by
  have hu := h.heap.used_eq
  have hc := h.cap
  have ht := h.total_ge
  have := walk_chain p.node_heap segs none p.total_nodes h.heap.chain (by omega)
  rw [h.heap.head] at this
  exact this

theorem seg_nodes_filter_alloc : ∀ (segs : List Seg) (prev : Option Nat),
    ((seg_nodes prev segs).filter (fun n => decide (n.allocated = 1))).map node_t.size =
      (segs.filter (fun g => g.alloc)).map Seg.size := by
  intro segs
  induction segs with
  | nil => intro prev; rfl
  | cons g rest ih =>
    intro prev
    cases hg : g.alloc with
    | true => simp [seg_nodes, List.filter_cons, Seg.node, hg, ih]
    | false => simp [seg_nodes, List.filter_cons, Seg.node, hg, ih]

theorem seg_nodes_flag : ∀ (segs : List Seg) (prev : Option Nat),
    ∀ n ∈ seg_nodes prev segs, n.allocated = 0 ∨ n.allocated = 1 := by
  intro segs
  induction segs with
  | nil => intro prev n hn; simp [seg_nodes] at hn
  | cons g rest ih =>
    intro prev n hn
    simp only [seg_nodes, List.mem_cons] at hn
    rcases hn with e | e
    · subst e
      cases hg : g.alloc <;> simp [Seg.node, hg]
    · exact ih _ n e

theorem seg_nodes_no_adj : ∀ (segs : List Seg) (prev : Option Nat),
    List.Chain' (fun a b : Seg => a.alloc = true ∨ b.alloc = true) segs →
    List.Chain' (fun a b : node_t => ¬ (a.allocated = 0 ∧ b.allocated = 0))
      (seg_nodes prev segs) := by
  intro segs
  induction segs with
  | nil => intro prev _; exact List.chain'_nil
  | cons g rest ih =>
    intro prev h
    cases rest with
    | nil => simp [seg_nodes]
    | cons g2 rest2 =>
      obtain ⟨h1, h2⟩ := List.chain'_cons.1 h
      have := ih (some g.slot) h2
      simp only [seg_nodes] at this ⊢
      refine List.chain'_cons.2 ⟨?_, this⟩
      rcases h1 with e | e
      · simp [Seg.node, e]
      · simp [Seg.node, e]

/-- A pool that satisfies the invariant and has no allocation consists of one free segment
that spans the arena, and its gap index holds one entry. -/
theorem no_allocs_single (p : pool_mgr_t) (segs : List Seg) (h : InvW p segs)
    (h0 : p.num_allocs = 0) : segs = [⟨0, 0, p.total_size, false⟩] ∧ p.num_gaps = 1 := by
  have hall : ∀ g ∈ segs, g.alloc = false := by
    have hl := h.num_allocs
    rw [h0] at hl
    have hnil := List.length_eq_zero.1 hl.symm
    intro g hg
    by_contra c
    have : g ∈ segs.filter (fun g => g.alloc) := by
      rw [List.mem_filter]; exact ⟨hg, by simpa using c⟩
    rw [hnil] at this
    simp at this
  have hhead := h.heap.head
  have hcont := h.heap.contig
  have hna := h.no_adj
  cases segs with
  | nil => simp [headSlot] at hhead
  | cons g rest =>
    cases rest with
    | cons g2 rest2 =>
      exfalso
      obtain ⟨h1, _⟩ := List.chain'_cons.1 hna
      have a1 := hall g (by simp)
      have a2 := hall g2 (by simp)
      rw [a1, a2] at h1
      simp at h1
    | nil =>
      have a1 := hall g (by simp)
      simp only [headSlot, Option.some.injEq] at hhead
      obtain ⟨c1, c2⟩ := hcont
      simp only [Contig] at c2
      have hg : g = ⟨0, 0, p.total_size, false⟩ := by
        cases g
        simp only at a1 hhead c1 c2
        subst a1 hhead c1
        simp at c2
        simp [c2]
      refine ⟨by rw [hg], ?_⟩
      obtain ⟨entries, _, e2, e3, _, _⟩ := h.gap
      rw [← e2, e3.length_eq, hg]
      rfl

/-- The counters while the node heap stays where it is.  In every pool reached from
`mem_pool_open` by defined calls of `mem_new_alloc` with positive sizes and of `mem_del_alloc`
on allocated handles, in which the node heap does not grow or grows in place by zeroed
slots (`Reachable`), the walk
over the linked list ends, every node on it has the flag `allocated` 0 or 1, `alloc_size` is
the sum of the sizes of the allocated nodes and `num_allocs` is their number. -/
theorem counter_consistency (p : pool_mgr_t) (h : Reachable p) :
    ∃ nodes, pool_segments p = some nodes ∧
      (∀ n ∈ nodes, n.allocated = 0 ∨ n.allocated = 1) ∧
      p.alloc_size =
        ((nodes.filter (fun n => decide (n.allocated = 1))).map node_t.size).sum ∧
      p.num_allocs = (nodes.filter (fun n => decide (n.allocated = 1))).length := by
  obtain ⟨segs, hi⟩ := reach_inv p h
  refine ⟨seg_nodes none segs, inv_segments p segs hi, seg_nodes_flag segs none, ?_, ?_⟩
  · rw [seg_nodes_filter_alloc, hi.alloc_size]
  · have := congrArg List.length (seg_nodes_filter_alloc segs none)
    simp only [List.length_map] at this
    rw [this, hi.num_allocs]

/-- The counters of a pool of 100 bytes after three allocations and the release of the
middle one. -/
theorem counter_consistency_witness :
    ∃ nodes, pool_segments (sample_pool 100 alloc_policy.BEST_FIT
        [pool_op.new_alloc 10, pool_op.new_alloc 20, pool_op.new_alloc 30,
          pool_op.del_alloc 1]) = some nodes ∧
      (∀ n ∈ nodes, n.allocated = 0 ∨ n.allocated = 1) ∧
      (sample_pool 100 alloc_policy.BEST_FIT
        [pool_op.new_alloc 10, pool_op.new_alloc 20, pool_op.new_alloc 30,
          pool_op.del_alloc 1]).alloc_size =
        ((nodes.filter (fun n => decide (n.allocated = 1))).map node_t.size).sum ∧
      (sample_pool 100 alloc_policy.BEST_FIT
        [pool_op.new_alloc 10, pool_op.new_alloc 20, pool_op.new_alloc 30,
          pool_op.del_alloc 1]).num_allocs =
        (nodes.filter (fun n => decide (n.allocated = 1))).length :=
  counter_consistency _ (sample_pool_reachable _ _ _ (by decide))

/-- Free neighbours while the node heap stays where it is.  In every pool reached from
`mem_pool_open` by defined calls of `mem_new_alloc` with any size and of `mem_del_alloc` on
allocated handles, in which the node heap does not grow or grows in place by zeroed slots
(`ReachableAnySize`), the walk
over the linked list ends and no two consecutive nodes on it are both free; and when
`num_allocs` is 0 the list is one free node at offset 0 of size `total_size`, and
`num_gaps` is 1. -/
theorem no_adjacent_free (p : pool_mgr_t) (h : ReachableAnySize p) :
    ∃ nodes, pool_segments p = some nodes ∧
      List.Chain' (fun a b : node_t => ¬ (a.allocated = 0 ∧ b.allocated = 0)) nodes ∧
      (p.num_allocs = 0 →
        nodes = [⟨p.total_size, some 0, 1, 0, none, none⟩] ∧ p.num_gaps = 1) := by
  obtain ⟨segs, hi⟩ := reach_any_inv p h
  refine ⟨seg_nodes none segs, invW_segments p segs hi, seg_nodes_no_adj segs none hi.no_adj, ?_⟩
  intro h0
  obtain ⟨e, hg⟩ := no_allocs_single p segs hi h0
  rw [e]
  exact ⟨rfl, hg⟩

theorem run_ops_any_size_reachable : ∀ (ops : List pool_op) (p q : pool_mgr_t),
    ReachableAnySize p → run_ops_any_size p ops = some q → ReachableAnySize q := by
  intro ops
  induction ops with
  | nil =>
    intro p q hp h
    simp only [run_ops_any_size, Option.some.injEq] at h
    subst h
    exact hp
  | cons op rest ih =>
    intro p q hp h
    cases op with
    | new_alloc size =>
      simp only [run_ops_any_size] at h
      cases hr : mem_new_alloc realloc_in_place p size with
      | none => rw [hr] at h; cases h
      | some x =>
        obtain ⟨p2, r⟩ := x
        rw [hr] at h
        exact ih p2 q (ReachableAnySize.alloc hp hr) h
    | del_alloc hd =>
      simp only [run_ops_any_size] at h
      cases hn : p.node_heap[hd]? with
      | none => rw [hn] at h; cases h
      | some n =>
        rw [hn] at h
        dsimp only at h
        by_cases c : n.used = 1 ∧ n.allocated = 1
        · rw [if_pos c] at h
          cases hr : mem_del_alloc p (some hd) with
          | none => rw [hr] at h; cases h
          | some x =>
            obtain ⟨p2, st⟩ := x
            rw [hr] at h
            exact ih p2 q (ReachableAnySize.del hp hn c.1 c.2 hr) h
        · rw [if_neg c] at h; cases h

/-- The adjacency property at the pool of 100 bytes reached by an allocation of size 0, an
allocation of 10 bytes and the release of both: one free node of 100 bytes. -/
theorem no_adjacent_free_witness :
    ∃ p, run_ops_any_size (pool_mgr_open 100 alloc_policy.FIRST_FIT)
        [pool_op.new_alloc 0, pool_op.new_alloc 10, pool_op.del_alloc 0,
          pool_op.del_alloc 1] = some p ∧
      ∃ nodes, pool_segments p = some nodes ∧
        List.Chain' (fun a b : node_t => ¬ (a.allocated = 0 ∧ b.allocated = 0)) nodes ∧
        (p.num_allocs = 0 →
          nodes = [⟨p.total_size, some 0, 1, 0, none, none⟩] ∧ p.num_gaps = 1) := by
  cases hr : run_ops_any_size (pool_mgr_open 100 alloc_policy.FIRST_FIT)
      [pool_op.new_alloc 0, pool_op.new_alloc 10, pool_op.del_alloc 0, pool_op.del_alloc 1] with
  | none => revert hr; decide
  | some p =>
    exact ⟨p, rfl, no_adjacent_free p
      (run_ops_any_size_reachable _ _ p (ReachableAnySize.opened _ _) hr)⟩

theorem inspect_loop_chain (heap : List node_t) : ∀ (segs : List Seg) (prev : Option Nat)
    (room : Nat) (done : List pool_segment_t) (m : Nat),
    Chain heap prev segs none → segs.length ≤ room → segs.length ≤ m →
    mem_inspect_pool_loop heap room (headSlot segs none) done.length
        (done ++ List.replicate m ⟨0, 0⟩) =
      some (done ++ (seg_nodes prev segs).map (fun n => ⟨n.size, n.allocated⟩) ++
        List.replicate (m - segs.length) ⟨0, 0⟩) := by
  intro segs
  induction segs with
  | nil =>
    intro prev room done m _ _ _
    cases room <;> simp [headSlot, mem_inspect_pool_loop, seg_nodes]
  | cons g rest ih =>
    intro prev room done m hc hr hm
    obtain ⟨h1, h2⟩ := hc
    cases room with
    | zero => simp at hr
    | succ room =>
      cases m with
      | zero => simp at hm
      | succ m =>
        have := ih (some g.slot) room (done ++ [⟨g.size, if g.alloc then 1 else 0⟩]) m h2
          (by simpa using hr) (by simpa using hm)
        have hset : set? (done ++ List.replicate (m + 1) (⟨0, 0⟩ : pool_segment_t)) done.length
            ⟨g.size, if g.alloc then 1 else 0⟩ =
            some (done ++ [⟨g.size, if g.alloc then 1 else 0⟩] ++ List.replicate m ⟨0, 0⟩) := by
          unfold set?
          rw [if_pos (by simp), List.replicate_succ, set_append_cons_length]
          simp
        show mem_inspect_pool_loop heap (room + 1) (some g.slot) done.length _ = _
        simp only [mem_inspect_pool_loop, h1]
        have hn : (g.node prev (headSlot rest none)).next = headSlot rest none := rfl
        have hsz : (g.node prev (headSlot rest none)).size = g.size := rfl
        have hal : (g.node prev (headSlot rest none)).allocated = if g.alloc then 1 else 0 := rfl
        rw [hn, hsz, hal, hset]
        simp only [List.length_append, List.length_singleton, List.append_assoc,
          List.singleton_append, List.cons_append, List.nil_append] at this
        simp only [this, seg_nodes, List.map_cons, hsz, hal, List.length_cons,
          Nat.add_sub_add_right, List.append_assoc, List.singleton_append, List.cons_append,
          List.nil_append]

theorem seg_nodes_length : ∀ (segs : List Seg) (prev : Option Nat),
    (seg_nodes prev segs).length = segs.length := by
  intro segs
  induction segs with
  | nil => intro prev; rfl
  | cons g rest ih => intro prev; simp [seg_nodes, ih]

/-- The inspection while the node heap stays where it is.  In every pool of `Reachable` the
walk over the linked list from the head
ends, and `mem_inspect_pool` returns: it reports as `num_segments` the number of nodes on
the list, and the array it hands back holds, at index `k`, the size and the flag `allocated`
of the `k`-th node along `next`, and nothing else.  The start addresses of these nodes
increase strictly and the reported sizes sum to `total_size`.  The function has no store into
the pool. -/
theorem inspect_pool_segments (p : pool_mgr_t) (h : Reachable p) :
    ∃ nodes, pool_segments p = some nodes ∧
      mem_inspect_pool p =
        some (nodes.map (fun n => ⟨n.size, n.allocated⟩), nodes.length) ∧
      (nodes.map node_t.mem).Pairwise (fun a b => mem_lt a b = true) ∧
      ((nodes.map (fun n => (⟨n.size, n.allocated⟩ : pool_segment_t))).map
        pool_segment_t.size).sum = p.total_size := by
  obtain ⟨segs, hi⟩ := reach_inv p h
  have hu := hi.heap.used_eq
  refine ⟨seg_nodes none segs, inv_segments p segs hi, ?_, ?_, ?_⟩
  · have := inspect_loop_chain p.node_heap segs none p.used_nodes [] p.used_nodes
      hi.heap.chain (by omega) (by omega)
    rw [hi.heap.head] at this
    simp only [List.length_nil, List.nil_append] at this
    unfold mem_inspect_pool
    rw [this, seg_nodes_length, hu]
    simp
  · have hm : (seg_nodes none segs).map node_t.mem = segs.map (fun g => some g.start) := by
      have := congrArg (List.map Prod.fst) (seg_nodes_mem_size segs none)
      simpa [List.map_map, Function.comp] using this
    rw [hm]
    rcases hi.pos with hp | ⟨s, hp⟩
    · have := contig_increasing segs _ _ hi.heap.contig hp
      rw [List.pairwise_map] at this ⊢
      exact this.imp (fun hab => by simpa [mem_lt] using hab)
    · rw [hp]; simp
  · have hm : (seg_nodes none segs).map node_t.size = segs.map Seg.size := by
      have := congrArg (List.map Prod.snd) (seg_nodes_mem_size segs none)
      simpa [List.map_map, Function.comp] using this
    rw [List.map_map]
    have hc : (pool_segment_t.size ∘ fun n : node_t => (⟨n.size, n.allocated⟩ : pool_segment_t))
        = node_t.size := rfl
    rw [hc, hm]
    have := Contig_sum segs _ _ hi.heap.contig
    simpa using this

/-- The inspection of a pool of 100 bytes after three allocations and the release of the
middle one. -/
theorem inspect_pool_segments_witness :
    ∃ nodes, pool_segments (sample_pool 100 alloc_policy.FIRST_FIT
        [pool_op.new_alloc 10, pool_op.new_alloc 20, pool_op.new_alloc 30,
          pool_op.del_alloc 1]) = some nodes ∧
      mem_inspect_pool (sample_pool 100 alloc_policy.FIRST_FIT
        [pool_op.new_alloc 10, pool_op.new_alloc 20, pool_op.new_alloc 30,
          pool_op.del_alloc 1]) =
        some (nodes.map (fun n => ⟨n.size, n.allocated⟩), nodes.length) ∧
      (nodes.map node_t.mem).Pairwise (fun a b => mem_lt a b = true) ∧
      ((nodes.map (fun n => (⟨n.size, n.allocated⟩ : pool_segment_t))).map
        pool_segment_t.size).sum = (sample_pool 100 alloc_policy.FIRST_FIT
        [pool_op.new_alloc 10, pool_op.new_alloc 20, pool_op.new_alloc 30,
          pool_op.del_alloc 1]).total_size :=
  inspect_pool_segments _ (sample_pool_reachable _ _ _ (by decide))

/-! ## Opening and closing a pool -/

theorem pool_mgr_open_segments (size : Nat) (policy : alloc_policy) :
    pool_segments (pool_mgr_open size policy) = some [⟨size, some 0, 1, 0, none, none⟩] := by
  rw [inv_segments _ _ (open_inv size policy)]
  rfl

/-- C12 (open postcondition).  With the pool store not initialised, `mem_pool_open` returns
`NULL` and leaves the store as it is.  With an initialised store that has room (its
capacity is the length of its array, positive, and not below `pool_store_size`),
`mem_pool_open` returns a handle and leaves a store that has room again.  Whenever it returns a handle, the handle is the slot
`pool_store_size` of the store, which now points to the new manager, `pool_store_size` has
grown by 1, and the new pool has the given size and policy, zeroed counters, `num_gaps` and
`used_nodes` 1, the single free segment `(offset 0, size)` without `prev` and `next` on its
list, and the single gap index entry `(size, node 0)` followed by zeroed entries. -/
theorem open_postcondition (s : mem_store) (size : Nat) (policy : alloc_policy) :
    (s.pool_store = none → mem_pool_open s size policy = some (s, none)) ∧
    (∀ store, s.pool_store = some store → store.length = s.pool_store_capacity →
      0 < s.pool_store_capacity → s.pool_store_size ≤ s.pool_store_capacity →
      ∃ s2 store2, mem_pool_open s size policy = some (s2, some s.pool_store_size) ∧
        s2.pool_store = some store2 ∧ store2.length = s2.pool_store_capacity ∧
        0 < s2.pool_store_capacity ∧ s2.pool_store_size ≤ s2.pool_store_capacity) ∧
    (∀ s2 h, mem_pool_open s size policy = some (s2, some h) →
      h = s.pool_store_size ∧ s2.pool_store_size = s.pool_store_size + 1 ∧
      ∃ mgr, store_mgr s2 h = some mgr ∧
        mgr.total_size = size ∧ mgr.policy = policy ∧ mgr.alloc_size = 0 ∧
        mgr.num_allocs = 0 ∧ mgr.num_gaps = 1 ∧ mgr.used_nodes = 1 ∧
        pool_segments mgr = some [⟨size, some 0, 1, 0, none, none⟩] ∧
        mgr.gap_ix = ⟨size, some 0⟩ :: List.replicate 39 gap_zero ∧
        mgr.gap_ix_capacity = 40) := by
  refine ⟨?_, ?_, ?_⟩
  · intro h
    unfold mem_pool_open
    rw [h]
  · intro store hs hlen hpos hle
    unfold mem_pool_open
    rw [hs]
    dsimp only
    unfold _mem_resize_pool_store
    by_cases c : 4 * s.pool_store_size > 3 * s.pool_store_capacity
    · simp only [if_pos c, set?]
      rw [if_pos (by simp [hlen]; omega)]
      refine ⟨_, _, rfl, rfl, ?_, ?_, ?_⟩
      · simp [hlen]
      · dsimp only; omega
      · dsimp only; omega
    · simp only [if_neg c, hs, set?]
      rw [if_pos (by omega)]
      refine ⟨_, _, rfl, rfl, ?_, ?_, ?_⟩
      · simp [hlen]
      · exact hpos
      · dsimp only; omega
  · intro s2 h ho
    unfold mem_pool_open at ho
    cases hs : s.pool_store with
    | none => rw [hs] at ho; simp at ho
    | some store =>
      rw [hs] at ho
      dsimp only at ho
      cases hst : (_mem_resize_pool_store s store).pool_store with
      | none => rw [hst] at ho; cases ho
      | some store1 =>
        rw [hst] at ho
        dsimp only at ho
        have hsz : (_mem_resize_pool_store s store).pool_store_size = s.pool_store_size := by
          unfold _mem_resize_pool_store
          split <;> rfl
        rw [hsz] at ho
        unfold set? at ho
        by_cases c : s.pool_store_size < store1.length
        · rw [if_pos c] at ho
          simp only [Option.some.injEq, Prod.mk.injEq] at ho
          obtain ⟨e1, e2⟩ := ho
          subst e1 e2
          refine ⟨rfl, rfl, pool_mgr_open size policy, ?_, rfl, rfl, rfl, rfl, rfl, rfl,
            pool_mgr_open_segments size policy, rfl, rfl⟩
          unfold store_mgr
          dsimp only
          rw [List.getElem?_set_self c]
        · rw [if_neg c] at ho
          cases ho

/-- The first `mem_pool_open` after `mem_init`, for a pool of 100 bytes: it returns the
handle 0 with the postcondition; and before `mem_init` it returns `NULL`. -/
theorem open_postcondition_witness :
    (∃ s2, mem_pool_open (mem_init mem_store_start).1 100 alloc_policy.BEST_FIT =
        some (s2, some 0) ∧ s2.pool_store_size = 1 ∧
      ∃ mgr, store_mgr s2 0 = some mgr ∧ mgr.total_size = 100 ∧
        mgr.policy = alloc_policy.BEST_FIT ∧ mgr.num_gaps = 1 ∧
        pool_segments mgr = some [⟨100, some 0, 1, 0, none, none⟩]) ∧
      mem_pool_open mem_store_start 100 alloc_policy.BEST_FIT = some (mem_store_start, none) := by
  obtain ⟨s2, _, h, _⟩ :=
    (open_postcondition (mem_init mem_store_start).1 100 alloc_policy.BEST_FIT).2.1
      (List.replicate 20 none) rfl rfl (by decide) (by decide)
  obtain ⟨_, h2, mgr, h3, h4, h5, _, _, h8, _, h10, _⟩ :=
    (open_postcondition (mem_init mem_store_start).1 100 alloc_policy.BEST_FIT).2.2 s2 _ h
  exact ⟨⟨s2, h, h2, mgr, h3, h4, h5, h8, h10⟩,
    (open_postcondition mem_store_start 100 alloc_policy.BEST_FIT).1 rfl⟩

theorem close_check_not_freed (mgr : pool_mgr_t) (h : mgr.num_allocs ≠ 0) :
    mem_pool_close_check mgr = alloc_status.ALLOC_NOT_FREED := by
  unfold mem_pool_close_check c_not
  by_cases h1 : mgr.num_gaps = 0 <;> simp [h1, h]

theorem close_check_ok (mgr : pool_mgr_t) (h1 : mgr.num_gaps ≠ 0) (h2 : mgr.num_allocs = 0) :
    mem_pool_close_check mgr = alloc_status.ALLOC_OK :=
  (close_check_iff mgr).2 ⟨h1, h2⟩

/-- The close of a pool after one allocation and after its release, with the allocation
written for the outcome `realloc_in_place`; the node heap of a fresh pool does not grow. -/
theorem single_alloc_close_in_place (size n : Nat) (policy : alloc_policy) (hn : 0 < n)
    (hle : n ≤ size) :
    ∃ s1 p1 h p2 s3,
      mem_pool_open (mem_init mem_store_start).1 size policy = some (s1, some 0) ∧
      store_mgr s1 0 = some (pool_mgr_open size policy) ∧
      mem_new_alloc realloc_in_place (pool_mgr_open size policy) n = some (p1, some h) ∧
      (n = size → p1.num_gaps = 0) ∧
      mem_pool_close (store_with s1 0 p1) (some 0) =
        some (store_with s1 0 p1, alloc_status.ALLOC_NOT_FREED) ∧
      mem_del_alloc p1 (some h) = some (p2, alloc_status.ALLOC_OK) ∧
      mem_pool_close (store_with s1 0 p2) (some 0) = some (s3, alloc_status.ALLOC_OK) ∧
      ∃ store, s3.pool_store = some store ∧ store[0]? = some none := by
  have hi0 := open_inv size policy
  have hres : _mem_resize_node_heap realloc_in_place (pool_mgr_open size policy) = pool_mgr_open size policy := by
    rw [resize_in_place]
    rw [if_neg (by simp [pool_mgr_open, MEM_NODE_HEAP_INIT_CAPACITY])]
  have hsel : mem_new_alloc_select (_mem_resize_node_heap realloc_in_place (pool_mgr_open size policy)) n =
      some (some 0) := by
    rw [hres]
    cases policy <;>
      simp [mem_new_alloc_select, pool_mgr_open, scan_first, first_fit_test, best_fit_test,
        MEM_NODE_HEAP_INIT_CAPACITY, MEM_GAP_IX_INIT_CAPACITY, hle]
  obtain ⟨p1, ha⟩ := select_success _ _ n 0 hi0 hn hsel
  rcases alloc_cases _ p1 _ n (some 0) hi0 ha with
    ⟨e, _⟩ | ⟨pre, N, post, segs2, e, hN, hsz, hh, _, hpost⟩
  · cases e
  · have hpre : pre = [] := by
      cases pre with
      | nil => rfl
      | cons a l => simp at e
    subst hpre
    simp only [List.nil_append, List.cons.injEq] at e
    obtain ⟨e1, e2⟩ := e
    subst e1 e2
    have hi1 := alloc_commit_inv _ p1 n [] [] _ segs2 (resize_inv _ _ hi0) hN hn
      (resize_room _ hi0.cap hi0.total_ge).1 hpost
    obtain ⟨_, _, a1, _, _, _, _, hcase⟩ := hpost
    rw [hres] at a1 hcase
    have hna1 : p1.num_allocs = 1 := by rw [a1]; rfl
    have hsegs : ∃ post2, segs2 = [] ++ (⟨0, 0, n, true⟩ : Seg) :: post2 ∧ post2.length ≤ 1 := by
      rcases hcase with ⟨_, hs2, _⟩ | ⟨_, _, u, hs2⟩
      · exact ⟨[], by simpa using hs2, by simp⟩
      · exact ⟨[⟨u, 0 + n, size - n, false⟩], by simpa using hs2, by simp⟩
    obtain ⟨post2, hs2, hl2⟩ := hsegs
    subst hs2
    have hroom : (free_entries (del_segs [] ⟨0, 0, n, true⟩ post2)).length ≤ 31 := by
      refine le_trans (free_entries_length_le _) ?_
      have := (merge_next_segs_props (⟨0, 0, n, false⟩ : Seg) post2
        (by
          cases post2 with
          | nil => exact List.chain'_nil
          | cons a l =>
            cases l with
            | nil => exact List.chain'_singleton _
            | cons b l2 => simp at hl2)).2.2.2.2.2
      simp only [del_segs, merge_prev_segs, List.getLast?_nil, List.nil_append,
        List.length_cons]
      omega
    obtain ⟨p2, hd⟩ := del_defined p1 [] post2 ⟨0, 0, n, true⟩ hi1 rfl hroom
    obtain ⟨_, hi2, d1, _⟩ := del_post p1 p2 [] post2 ⟨0, 0, n, true⟩ _ hi1 rfl hd
    have hna2 : p2.num_allocs = 0 := by omega
    obtain ⟨_, hg2⟩ := no_allocs_single p2 _ hi2.weak hna2
    have hopen : mem_pool_open (mem_init mem_store_start).1 size policy =
        some (⟨some ((List.replicate 20 none).set 0 (some (pool_mgr_open size policy))), 1, 20⟩,
          some 0) := rfl
    have hc1 : mem_pool_close_check p1 = alloc_status.ALLOC_NOT_FREED :=
      close_check_not_freed p1 (by omega)
    have hc2 : mem_pool_close_check p2 = alloc_status.ALLOC_OK :=
      close_check_ok p2 (by omega) hna2
    refine ⟨⟨some ((List.replicate 20 none).set 0 (some (pool_mgr_open size policy))), 1, 20⟩,
      p1, 0, p2, ⟨some (List.replicate 20 none), 1, 20⟩, hopen, rfl, ha, ?_, ?_, hd, ?_,
      ⟨_, rfl, rfl⟩⟩
    · intro hns
      rcases hcase with ⟨_, _, hg⟩ | ⟨hlt, _⟩
      · have : (pool_mgr_open size policy).num_gaps = 1 := rfl
        omega
      · simp only at hlt; omega
    · simp [mem_pool_close, store_with, hc1]
    · simp [mem_pool_close, store_with, hc2]

/-- C11 (non-empty close rejection).  For every policy and every request `0 < n ≤ size`:
after `mem_init`, `mem_pool_open(size, policy)` returns the handle of store slot 0;
`mem_new_alloc` of `n` bytes on the new pool succeeds, whatever `realloc` would do (with
`num_gaps` 0 when `n = size`);
`mem_pool_close` then returns `ALLOC_NOT_FREED` and leaves the store as it is;
`mem_del_alloc` on the handle returns `ALLOC_OK`; and `mem_pool_close` then returns
`ALLOC_OK` and leaves `NULL` in slot 0 of the store. -/
theorem close_after_single_alloc (size n : Nat) (policy : alloc_policy) (hn : 0 < n)
    (hle : n ≤ size) :
    ∃ s1 p1 h p2 s3,
      mem_pool_open (mem_init mem_store_start).1 size policy = some (s1, some 0) ∧
      store_mgr s1 0 = some (pool_mgr_open size policy) ∧
      (∀ r, mem_new_alloc r (pool_mgr_open size policy) n = some (p1, some h)) ∧
      (n = size → p1.num_gaps = 0) ∧
      mem_pool_close (store_with s1 0 p1) (some 0) =
        some (store_with s1 0 p1, alloc_status.ALLOC_NOT_FREED) ∧
      mem_del_alloc p1 (some h) = some (p2, alloc_status.ALLOC_OK) ∧
      mem_pool_close (store_with s1 0 p2) (some 0) = some (s3, alloc_status.ALLOC_OK) ∧
      ∃ store, s3.pool_store = some store ∧ store[0]? = some none := by
  obtain ⟨s1, p1, h, p2, s3, a1, a2, a3, a4, a5, a6, a7, a8⟩ :=
    single_alloc_close_in_place size n policy hn hle
  refine ⟨s1, p1, h, p2, s3, a1, a2, ?_, a4, a5, a6, a7, a8⟩
  intro r
  rw [mem_new_alloc_no_growth r realloc_in_place _ n
    (by simp [pool_mgr_open, MEM_NODE_HEAP_INIT_CAPACITY])]
  exact a3

/-- The claim at a pool of 100 bytes with the best fit policy and a request of the whole
pool. -/
theorem close_after_single_alloc_witness :
    ∃ s1 p1 h p2 s3,
      mem_pool_open (mem_init mem_store_start).1 100 alloc_policy.BEST_FIT =
        some (s1, some 0) ∧
      store_mgr s1 0 = some (pool_mgr_open 100 alloc_policy.BEST_FIT) ∧
      (∀ r, mem_new_alloc r (pool_mgr_open 100 alloc_policy.BEST_FIT) 100 =
        some (p1, some h)) ∧
      (100 = 100 → p1.num_gaps = 0) ∧
      mem_pool_close (store_with s1 0 p1) (some 0) =
        some (store_with s1 0 p1, alloc_status.ALLOC_NOT_FREED) ∧
      mem_del_alloc p1 (some h) = some (p2, alloc_status.ALLOC_OK) ∧
      mem_pool_close (store_with s1 0 p2) (some 0) = some (s3, alloc_status.ALLOC_OK) ∧
      ∃ store, s3.pool_store = some store ∧ store[0]? = some none :=
  close_after_single_alloc 100 100 alloc_policy.BEST_FIT (by decide) (by decide)

/-! ## Node accounting -/

theorem walk_slots_chain (heap : List node_t) : ∀ (segs : List Seg) (prev : Option Nat)
    (fuel : Nat), Chain heap prev segs none → segs.length ≤ fuel →
    pool_walk_slots heap fuel (headSlot segs none) = some (segs.map Seg.slot) := by
  intro segs
  induction segs with
  | nil =>
    intro prev fuel _ _
    cases fuel <;> rfl
  | cons g rest ih =>
    intro prev fuel hc hl
    obtain ⟨h1, h2⟩ := hc
    cases fuel with
    | zero => simp at hl
    | succ fuel =>
      have := ih (some g.slot) fuel h2 (by simpa using hl)
      have hn : (g.node prev (headSlot rest none)).next = headSlot rest none := rfl
      show pool_walk_slots heap (fuel + 1) (some g.slot) = some (g.slot :: rest.map Seg.slot)
      simp only [pool_walk_slots, h1, hn, this]

/-- The links of a represented list: each node points to its successor, which points back;
the first node has the given `prev` and the last has no `next`. -/
theorem chain_links (heap : List node_t) : ∀ (segs : List Seg) (prev : Option Nat),
    Chain heap prev segs none →
    List.Chain' (fun a b : Nat => ∃ na nb, heap[a]? = some na ∧ heap[b]? = some nb ∧
      na.next = some b ∧ nb.prev = some a) (segs.map Seg.slot) ∧
    (∀ a ∈ (segs.map Seg.slot).head?, ∃ n, heap[a]? = some n ∧ n.prev = prev) ∧
    (∀ a ∈ (segs.map Seg.slot).getLast?, ∃ n, heap[a]? = some n ∧ n.next = none) := by
  intro segs
  induction segs with
  | nil => intro prev _; simp
  | cons g rest ih =>
    intro prev hc
    obtain ⟨h1, h2⟩ := hc
    obtain ⟨i1, i2, i3⟩ := ih (some g.slot) h2
    refine ⟨?_, ?_, ?_⟩
    · rw [List.map_cons]
      refine List.chain'_cons'.2 ⟨?_, i1⟩
      intro b hb
      obtain ⟨nb, hnb, hpb⟩ := i2 b hb
      refine ⟨_, nb, h1, hnb, ?_, hpb⟩
      cases rest with
      | nil => simp at hb
      | cons g2 r2 =>
        simp only [List.map_cons, List.head?_cons, Option.mem_def, Option.some.injEq] at hb
        subst hb
        rfl
    · intro a ha
      simp only [List.map_cons, List.head?_cons, Option.mem_def, Option.some.injEq] at ha
      subst ha
      exact ⟨_, h1, rfl⟩
    · intro a ha
      cases rest with
      | nil =>
        simp only [List.map_cons, List.map_nil, List.getLast?_singleton, Option.mem_def,
          Option.some.injEq] at ha
        subst ha
        exact ⟨_, h1, rfl⟩
      | cons g2 r2 =>
        apply i3 a
        simpa [List.getLast?_cons_cons] using ha

/-- The number of elements of an array that pass a test, when the indices of these elements
are exactly the members of a list without repetition. -/
theorem countP_eq_length_of_slots (heap : List node_t) (q : node_t → Bool) (slots : List Nat)
    (hnd : slots.Nodup) (hlt : ∀ i ∈ slots, i < heap.length)
    (hiff : ∀ (i : Nat) (n : node_t), heap[i]? = some n → (q n = true ↔ i ∈ slots)) :
    heap.countP q = slots.length := by
  have hmap : heap = (List.range heap.length).map (fun i => heap.getD i node_zero) := by
    apply List.ext_getElem
    · simp
    · intro i h1 h2
      simp [List.getD_eq_getElem?_getD, List.getElem?_eq_getElem h1]
  have h1 : heap.countP q =
      (List.range heap.length).countP (fun i => q (heap.getD i node_zero)) := by
    conv_lhs => rw [hmap]
    rw [List.countP_map]
    rfl
  have h2 : (List.range heap.length).countP (fun i => q (heap.getD i node_zero)) =
      (List.range heap.length).countP (fun i => decide (i ∈ slots)) := by
    apply List.countP_congr
    intro i hi
    have hil : i < heap.length := List.mem_range.1 hi
    have := hiff i _ (List.getElem?_eq_getElem hil)
    simp only [List.getD_eq_getElem?_getD, List.getElem?_eq_getElem hil, Option.getD_some,
      decide_eq_true_eq]
    exact this
  rw [h1, h2, List.countP_eq_length_filter]
  apply List.Perm.length_eq
  rw [List.perm_ext_iff_of_nodup ((List.nodup_range _).filter _) hnd]
  intro a
  simp only [List.mem_filter, List.mem_range, decide_eq_true_eq]
  exact ⟨fun h => h.2, fun h => ⟨hlt a h, h⟩⟩

/-- The search for an unused slot of `mem_new_alloc` (lines 345-350) finds one in a
represented node heap with room, after the node `node` of the list has been converted. -/
theorem unused_search_finds (heap h1 : List node_t) (tn un ts : Nat) (segs : List Seg)
    (hH : HeapOk heap tn un ts segs) (hroom : un < tn) (node : Nat) (f : node_t → node_t)
    (hnode : node ∈ segs.map Seg.slot) (hupd : upd heap node f = some h1) :
    ∃ u n, scan_first (unused_test h1) tn 0 = some (some u) ∧ h1[u]? = some n ∧
      n.used = 0 := by
  obtain ⟨g, hg, hgs⟩ := List.mem_map.1 hnode
  obtain ⟨n0, hn0, _⟩ := Chain_used _ _ _ _ hH.chain g hg
  rw [hgs] at hn0
  obtain ⟨h2, e2, hlen, hget⟩ := upd_spec f hn0
  rw [hupd] at e2
  cases e2
  have hdef : ∀ j, 0 ≤ j → j < 0 + tn → ∃ b, unused_test h1 j = some b := by
    intro j _ hj
    have : j < h1.length := by rw [hlen, hH.heap_len]; omega
    rw [unused_test, List.getElem?_eq_getElem this]
    exact ⟨_, rfl⟩
  obtain ⟨r, hr⟩ := scan_first_defined _ _ _ hdef
  cases r with
  | some u =>
    obtain ⟨_, _, ht, _⟩ := scan_first_some_spec _ _ _ _ hr
    simp only [unused_test, Option.map_eq_some'] at ht
    obtain ⟨nu, hnu, hd⟩ := ht
    exact ⟨u, nu, hr, hnu, by simpa using hd⟩
  | none =>
    exfalso
    have hall := scan_first_none_spec _ _ _ hr
    obtain ⟨j, hj, hjn⟩ := exists_not_mem_of_length_lt (segs.map Seg.slot) tn
      (by have := hH.used_eq; simp; omega)
    have hjl : j < heap.length := by rw [hH.heap_len]; exact hj
    have hj0 := hH.unused j _ (List.getElem?_eq_getElem hjl) hjn
    have hne : j ≠ node := fun e => hjn (e ▸ hnode)
    have := hall j (Nat.zero_le _) (by omega)
    simp [unused_test, hget, hne, List.getElem?_eq_getElem hjl, hj0] at this

/-- Node accounting while the node heap stays where it is.  In every pool reached from
`mem_pool_open` by defined calls of `mem_new_alloc` with any size and of `mem_del_alloc` on
allocated handles, in which the node heap does not grow or grows in place by zeroed slots
(`ReachableAnySize`):
the walk along `next` from slot 0 ends; it visits no slot twice; it visits `used_nodes`
slots, which are exactly the slots of the node heap with `used == 1`, and their number is
`used_nodes`; each visited node points to its successor, which points back, the head has no
`prev` and the last node no `next`; after `_mem_resize_node_heap`, `used_nodes` is below
`total_nodes`; `mem_inspect_pool` returns after one step per node of the list, with
`used_nodes` records in its array of `used_nodes` elements; and when the policy of
`mem_new_alloc` has selected a node, the search for an unused slot finds one. -/
theorem node_accounting (p : pool_mgr_t) (h : ReachableAnySize p) :
    ∃ slots nodes,
      pool_walk_slots p.node_heap p.total_nodes (some 0) = some slots ∧
      pool_segments p = some nodes ∧
      slots.head? = some 0 ∧ slots.Nodup ∧ slots.length = p.used_nodes ∧
      nodes.length = p.used_nodes ∧
      p.node_heap.length = p.total_nodes ∧
      (∀ (i : Nat) (n : node_t), p.node_heap[i]? = some n → (n.used = 1 ↔ i ∈ slots)) ∧
      p.node_heap.countP (fun n => decide (n.used = 1)) = p.used_nodes ∧
      List.Chain' (fun a b : Nat => ∃ na nb, p.node_heap[a]? = some na ∧
        p.node_heap[b]? = some nb ∧ na.next = some b ∧ nb.prev = some a) slots ∧
      (∃ n, p.node_heap[0]? = some n ∧ n.prev = none) ∧
      (∀ a ∈ slots.getLast?, ∃ n, p.node_heap[a]? = some n ∧ n.next = none) ∧
      (_mem_resize_node_heap realloc_in_place p).used_nodes < (_mem_resize_node_heap realloc_in_place p).total_nodes ∧
      mem_inspect_pool p =
        some (nodes.map (fun n => ⟨n.size, n.allocated⟩), p.used_nodes) ∧
      (∀ (size node : Nat) (h1 : List node_t), p.num_gaps ≠ 0 →
        mem_new_alloc_select (_mem_resize_node_heap realloc_in_place p) size = some (some node) →
        upd (_mem_resize_node_heap realloc_in_place p).node_heap node
          (fun x => { x with size := size, used := 1, allocated := 1 }) = some h1 →
        ∃ u n, scan_first (unused_test h1) (_mem_resize_node_heap realloc_in_place p).total_nodes 0 =
            some (some u) ∧ h1[u]? = some n ∧ n.used = 0) := by
  obtain ⟨segs, hi⟩ := reach_any_inv p h
  have hH := hi.heap
  have hu := hH.used_eq
  have hcap := hi.cap
  have htot := hi.total_ge
  have hwalk := walk_slots_chain p.node_heap segs none p.total_nodes hH.chain (by omega)
  rw [hH.head] at hwalk
  have hhead : (segs.map Seg.slot).head? = some 0 := by
    have := hH.head
    cases segs with
    | nil => simp [headSlot] at this
    | cons g rest => simpa [headSlot] using this
  obtain ⟨l1, l2, l3⟩ := chain_links p.node_heap segs none hH.chain
  have hlt := Chain_slot_lt _ _ _ _ hH.chain
  have hiff : ∀ (i : Nat) (n : node_t), p.node_heap[i]? = some n →
      (n.used = 1 ↔ i ∈ segs.map Seg.slot) := by
    intro i n hn
    constructor
    · intro hu1
      obtain ⟨pre, N, post, e, hs⟩ := used_mem_slots hH hn hu1
      rw [e, mem_slots_split]
      exact Or.inr (Or.inl hs.symm)
    · intro hm
      obtain ⟨g, hg, hgs⟩ := List.mem_map.1 hm
      obtain ⟨n2, hn2, hu2, _⟩ := Chain_used _ _ _ _ hH.chain g hg
      rw [hgs, hn] at hn2
      cases hn2
      exact hu2
  obtain ⟨r1, r2⟩ := resize_room p hcap htot
  have hq := resize_invW p segs hi
  refine ⟨segs.map Seg.slot, seg_nodes none segs, hwalk, invW_segments p segs hi, hhead,
    hH.nodup, by simp [hu], by rw [seg_nodes_length, hu], hH.heap_len, hiff, ?_, l1,
    l2 0 hhead, l3, by omega, ?_, ?_⟩
  · rw [countP_eq_length_of_slots p.node_heap _ (segs.map Seg.slot) hH.nodup ?_ ?_]
    · simp [hu]
    · intro i hm
      obtain ⟨g, hg, hgs⟩ := List.mem_map.1 hm
      rw [← hgs]
      exact hlt g hg
    · intro i n hn
      rw [decide_eq_true_eq]
      exact hiff i n hn
  · have := inspect_loop_chain p.node_heap segs none p.used_nodes [] p.used_nodes
      hH.chain (by omega) (by omega)
    rw [hH.head] at this
    simp only [List.length_nil, List.nil_append] at this
    unfold mem_inspect_pool
    rw [this, hu]
    simp
  · intro size node h1 hg0 hsel hupd
    have hg0' : (_mem_resize_node_heap realloc_in_place p).num_gaps ≠ 0 := by
      rw [(resize_fields p).2.2.2.2.1]; exact hg0
    obtain ⟨sel, hs1, hspec⟩ := select_spec _ segs size hq.heap hq.gap hg0'
    rw [hsel] at hs1
    cases hs1
    obtain ⟨pre, N, post, e, hslot, _, _⟩ := hspec node rfl
    have hnode : node ∈ segs.map Seg.slot := by
      rw [e, mem_slots_split]; exact Or.inr (Or.inl hslot.symm)
    exact unused_search_finds _ h1 _ _ _ segs hq.heap (by omega) node _ hnode hupd

/-- The node accounting at the pool of 100 bytes reached by an allocation of size 0,
allocations of 10 and 20 bytes and the release of the second handle. -/
theorem node_accounting_witness :
    ∃ p, run_ops_any_size (pool_mgr_open 100 alloc_policy.BEST_FIT)
        [pool_op.new_alloc 0, pool_op.new_alloc 10, pool_op.new_alloc 20,
          pool_op.del_alloc 1] = some p ∧
      ∃ slots nodes,
        pool_walk_slots p.node_heap p.total_nodes (some 0) = some slots ∧
        pool_segments p = some nodes ∧
        slots.head? = some 0 ∧ slots.Nodup ∧ slots.length = p.used_nodes ∧
        nodes.length = p.used_nodes ∧
        p.node_heap.length = p.total_nodes ∧
        (∀ (i : Nat) (n : node_t), p.node_heap[i]? = some n → (n.used = 1 ↔ i ∈ slots)) ∧
        p.node_heap.countP (fun n => decide (n.used = 1)) = p.used_nodes ∧
        List.Chain' (fun a b : Nat => ∃ na nb, p.node_heap[a]? = some na ∧
          p.node_heap[b]? = some nb ∧ na.next = some b ∧ nb.prev = some a) slots ∧
        (∃ n, p.node_heap[0]? = some n ∧ n.prev = none) ∧
        (∀ a ∈ slots.getLast?, ∃ n, p.node_heap[a]? = some n ∧ n.next = none) ∧
        (_mem_resize_node_heap realloc_in_place p).used_nodes < (_mem_resize_node_heap realloc_in_place p).total_nodes ∧
        mem_inspect_pool p =
          some (nodes.map (fun n => ⟨n.size, n.allocated⟩), p.used_nodes) ∧
        (∀ (size node : Nat) (h1 : List node_t), p.num_gaps ≠ 0 →
          mem_new_alloc_select (_mem_resize_node_heap realloc_in_place p) size = some (some node) →
          upd (_mem_resize_node_heap realloc_in_place p).node_heap node
            (fun x => { x with size := size, used := 1, allocated := 1 }) = some h1 →
          ∃ u n, scan_first (unused_test h1) (_mem_resize_node_heap realloc_in_place p).total_nodes 0 =
              some (some u) ∧ h1[u]? = some n ∧ n.used = 0) := by
  cases hr : run_ops_any_size (pool_mgr_open 100 alloc_policy.BEST_FIT)
      [pool_op.new_alloc 0, pool_op.new_alloc 10, pool_op.new_alloc 20, pool_op.del_alloc 1] with
  | none => exact absurd hr (by decide)
  | some p =>
    exact ⟨p, rfl, node_accounting p
      (run_ops_any_size_reachable _ _ p (ReachableAnySize.opened _ _) hr)⟩

/-! ## Runs in which `realloc` moves the node heap -/

theorem run_calls_append : ∀ (a b : List pool_call) (p : pool_mgr_t),
    run_calls p (a ++ b) = (run_calls p a).bind (fun q => run_calls q b) := by
  intro a
  induction a with
  | nil => intro b p; rfl
  | cons c rest ih =>
    intro b p
    cases c with
    | new_alloc r size =>
      simp only [List.cons_append, run_calls]
      cases mem_new_alloc r p size with
      | none => rfl
      | some x => exact ih b x.1
    | del_alloc hd =>
      simp only [List.cons_append, run_calls]
      cases mem_del_alloc p (some hd) with
      | none => rfl
      | some x => exact ih b x.1

/-- Each of the first 30 allocations of one byte in a fresh pool of 1000 bytes leaves the node
heap as it is, whatever `realloc` would do, and gives the next written-out state. -/
theorem fill_step_any (r : realloc_t) (k : Nat) (hk : k < 30) :
    mem_new_alloc r (fill_state k) 1 = some (fill_state (k + 1), some k) := by
  have hg : ¬ 4 * (fill_state k).used_nodes > 3 * (fill_state k).total_nodes := by
    have h1 : (fill_state k).used_nodes = k + 1 := rfl
    have h2 : (fill_state k).total_nodes = 40 := by
      show fill_capacity k = 40
      unfold fill_capacity
      rw [if_pos (by omega)]
    omega
  rw [mem_new_alloc_no_growth r realloc_in_place _ _ hg]
  exact fill_step k (by omega)

theorem run_calls_fill (r : realloc_t) : ∀ (m k : Nat), k + m ≤ 30 →
    run_calls (fill_state k) (List.replicate m (pool_call.new_alloc r 1)) =
      some (fill_state (k + m)) := by
  intro m
  induction m with
  | zero => intro k _; rfl
  | succ m ih =>
    intro k h
    simp only [List.replicate_succ, run_calls, fill_step_any r k (by omega)]
    rw [ih (k + 1) (by omega)]
    congr 2
    omega

/-- A run that starts with 30 allocations of one byte in a fresh pool of 1000 bytes goes on
from the written-out state `fill_state 30`: the nodes 0 to 29 are allocated, node 30 is the
free remainder, and 31 of the 40 slots of the node heap are used. -/
theorem run_calls_fill30 (r : realloc_t) (rest : List pool_call) :
    run_calls (pool_mgr_open 1000 alloc_policy.FIRST_FIT)
        (List.replicate 30 (pool_call.new_alloc r 1) ++ rest) =
      run_calls (fill_state 30) rest := by
  have h0 : pool_mgr_open 1000 alloc_policy.FIRST_FIT = fill_state 0 := by decide
  rw [run_calls_append, h0, run_calls_fill r 30 0 (by omega)]
  rfl

/-- A walk over the linked list that reaches a node whose `next` is an address outside the
node heap has no defined result, however many steps it is given. -/
theorem walk_leaves_heap (heap : List node_t) (a b : Nat) (n : node_t)
    (ha : heap[a]? = some n) (hn : n.next = some b) (hb : heap[b]? = none) :
    ∀ fuel, pool_walk heap fuel (some a) = none := by
  intro fuel
  cases fuel with
  | zero => rfl
  | succ f =>
    have h2 : pool_walk heap f (some b) = none := by
      cases f with
      | zero => rfl
      | succ g => simp only [pool_walk, hb]
    simp only [pool_walk, ha, hn, h2]

theorem walk_slots_leaves_heap (heap : List node_t) (a b : Nat) (n : node_t)
    (ha : heap[a]? = some n) (hn : n.next = some b) (hb : heap[b]? = none) :
    ∀ fuel, pool_walk_slots heap fuel (some a) = none := by
  intro fuel
  cases fuel with
  | zero => rfl
  | succ f =>
    have h2 : pool_walk_slots heap f (some b) = none := by
      cases f with
      | zero => rfl
      | succ g => simp only [pool_walk_slots, hb]
    simp only [pool_walk_slots, ha, hn, h2]

theorem inspect_loop_leaves_heap (heap : List node_t) (a b : Nat) (n : node_t)
    (ha : heap[a]? = some n) (hn : n.next = some b) (hb : heap[b]? = none) :
    ∀ (room k : Nat) (pool_segs : List pool_segment_t),
      mem_inspect_pool_loop heap room (some a) k pool_segs = none := by
  intro room k pool_segs
  cases room with
  | zero => rfl
  | succ f =>
    simp only [mem_inspect_pool_loop, ha]
    cases hs : set? pool_segs k ⟨n.size, n.allocated⟩ with
    | none => rfl
    | some s1 =>
      dsimp only
      rw [hn]
      cases f with
      | zero => rfl
      | succ g => simp only [mem_inspect_pool_loop, hb]

/-- A handle that is the address of no slot of the node heap is not found by the lookup of
`mem_del_alloc`: the call returns `ALLOC_FAIL` and changes nothing. -/
theorem del_outside_heap (p : pool_mgr_t) (h : Nat) (hh : p.total_nodes ≤ h) :
    mem_del_alloc p (some h) = some (p, alloc_status.ALLOC_FAIL) := by
  unfold mem_del_alloc
  simp only [if_pos hh]

/-! The steps of the runs that move the node heap, checked against the written-out states. -/

set_option maxRecDepth 1000000 in
theorem moved_step_31 :
    mem_new_alloc realloc_moved (fill_state 30) 1 = some (moved_state node_zero 31, some 30) := by
  decide!

set_option maxRecDepth 1000000 in
theorem moved_dirty_step_31 :
    mem_new_alloc realloc_moved_dirty (fill_state 30) 1 =
      some (moved_state node_dirty 31, some 30) := by
  decide!

set_option maxRecDepth 1000000 in
theorem moved_dirty_steps : moved_steps_ok realloc_moved_dirty node_dirty = true := by decide!

theorem moved_dirty_step (k : Nat) (h1 : 31 ≤ k) (h2 : k < 39) :
    mem_new_alloc realloc_moved_dirty (moved_state node_dirty k) 1 =
      some (moved_state node_dirty (k + 1), some k) := by
  have h := moved_dirty_steps
  unfold moved_steps_ok at h
  rw [List.all_eq_true] at h
  exact of_decide_eq_true (h k (List.mem_range'_1.2 ⟨h1, by omega⟩))

set_option maxRecDepth 1000000 in
theorem moved_dirty_step_40 :
    mem_new_alloc realloc_moved_dirty (moved_state node_dirty 39) 1 =
      some ({ moved_state node_dirty 39 with
          num_allocs := 40
          alloc_size := 40
          num_gaps := 0
          gap_ix := List.replicate 40 gap_zero
          node_heap :=
            (moved_state node_dirty 39).node_heap.set 39 ⟨1, some 39, 1, 1, none, some 38⟩ },
        none) := by
  decide!

/-- The run of 31 allocations of one byte in a fresh pool of 1000 bytes, the last of which
moves the node heap, ends in the written-out state `moved_state node_zero 31`. -/
theorem moved_run :
    run_calls (pool_mgr_open 1000 alloc_policy.FIRST_FIT)
      (List.replicate 31 (pool_call.new_alloc realloc_moved 1)) =
        some (moved_state node_zero 31) := by
  rw [List.replicate_succ' 30, run_calls_fill30]
  simp only [run_calls, moved_step_31]

theorem run_calls_moved_dirty : ∀ (m k : Nat), 31 ≤ k → k + m ≤ 39 →
    run_calls (moved_state node_dirty k)
        (List.replicate m (pool_call.new_alloc realloc_moved_dirty 1)) =
      some (moved_state node_dirty (k + m)) := by
  intro m
  induction m with
  | zero => intro k _ _; rfl
  | succ m ih =>
    intro k h1 h2
    simp only [List.replicate_succ, run_calls, moved_dirty_step k h1 (by omega)]
    rw [ih (k + 1) (by omega) (by omega)]
    congr 2
    omega

/-- The run of 39 allocations of one byte in a fresh pool of 1000 bytes in which the `realloc`
of the 31st moves the node heap and the added slots hold the bytes `0xFF` ends in the
written-out state `moved_state node_dirty 39`. -/
theorem moved_dirty_run :
    run_calls (pool_mgr_open 1000 alloc_policy.FIRST_FIT)
      (List.replicate 39 (pool_call.new_alloc realloc_moved_dirty 1)) =
        some (moved_state node_dirty 39) := by
  rw [List.replicate_add 30 9, run_calls_fill30, List.replicate_succ]
  simp only [run_calls, moved_dirty_step_31]
  exact run_calls_moved_dirty 8 31 (by omega) (by omega)

set_option maxRecDepth 1000000 in
/-- The written-out state after the 31st allocation: the nodes 0, 1 and 29 hold addresses
of the freed array, which are the addresses of no slot of the new one. -/
theorem moved_state_nodes :
    (moved_state node_zero 31).node_heap.length = 80 ∧
      (moved_state node_zero 31).node_heap[0]? = some ⟨1, some 0, 1, 1, some 81, none⟩ ∧
      (moved_state node_zero 31).node_heap[1]? = some ⟨1, some 1, 1, 1, some 82, some 80⟩ ∧
      (moved_state node_zero 31).node_heap[29]? = some ⟨1, some 29, 1, 1, some 110, some 108⟩ ∧
      (moved_state node_zero 31).node_heap[30]? = some ⟨1, some 30, 1, 1, some 31, some 109⟩ ∧
      (moved_state node_zero 31).node_heap[31]? = some ⟨969, some 31, 1, 0, none, some 30⟩ ∧
      (moved_state node_zero 31).node_heap[81]? = none := by
  decide!

set_option maxRecDepth 1000000 in
theorem moved_dirty_state_nodes :
    (moved_state node_dirty 39).node_heap.length = 80 ∧
      (moved_state node_dirty 39).node_heap[0]? = some ⟨1, some 0, 1, 1, some 81, none⟩ ∧
      (moved_state node_dirty 39).node_heap[39]? = some ⟨961, some 39, 1, 0, none, some 38⟩ ∧
      (moved_state node_dirty 39).node_heap[81]? = none ∧
      (moved_state node_dirty 39).node_heap.countP (fun n => decide (n.used = 1)) = 40 ∧
      (moved_state node_dirty 39).node_heap.countP (fun n => decide (n.used = 0)) = 0 ∧
      mem_new_alloc_select (moved_state node_dirty 39) 1 = some (some 39) ∧
      (upd (moved_state node_dirty 39).node_heap 39
          (fun x => { x with size := 1, used := 1, allocated := 1 })).bind
        (fun h1 => scan_first (unused_test h1) (moved_state node_dirty 39).total_nodes 0) =
          some none := by
  decide!

/-- C1 (coverage invariant), at a run that moves the node heap.  After 31 allocations of one
byte in a fresh pool of 1000 bytes, the `realloc` of the last having moved the node heap, the
head node still holds as `next` the address that node 1 had in the freed array: 81, counted
from the start of the new array, whose 80 slots have the addresses 0 to 79.  The walk from
the head along `next` leaves the node heap after the first segment and has no defined
result, whatever number of steps it is given: the linked segment sequence is not a partition
of `[0, total_size)`. -/
theorem coverage_lost_when_heap_moves :
    ∃ p, run_calls (pool_mgr_open 1000 alloc_policy.FIRST_FIT)
        (List.replicate 31 (pool_call.new_alloc realloc_moved 1)) = some p ∧
      p.total_size = 1000 ∧ p.total_nodes = 80 ∧ p.node_heap.length = 80 ∧
      p.node_heap[0]? = some ⟨1, some 0, 1, 1, some 81, none⟩ ∧
      p.node_heap[81]? = none ∧
      (∀ fuel, pool_walk p.node_heap fuel (some 0) = none) ∧
      pool_segments p = none := by
  obtain ⟨h1, h2, _, _, _, _, h7⟩ := moved_state_nodes
  exact ⟨moved_state node_zero 31, moved_run, rfl, rfl, h1, h2, h7,
    walk_leaves_heap _ 0 81 _ h2 rfl h7, walk_leaves_heap _ 0 81 _ h2 rfl h7 80⟩

/-- C13 (counter consistency), at a run that moves the node heap.  After 31 allocations of
one byte in a fresh pool of 1000 bytes, the `realloc` of the last having moved the node heap,
`num_allocs` and `alloc_size` are 31, while the linked list from the head holds one allocated
node of one byte inside the node heap and then leaves it: the walk over the list has no
defined result, so the counters are not the number and the sum of the sizes of the allocated
segments on it. -/
theorem counters_exceed_list_when_heap_moves :
    ∃ p, run_calls (pool_mgr_open 1000 alloc_policy.FIRST_FIT)
        (List.replicate 31 (pool_call.new_alloc realloc_moved 1)) = some p ∧
      p.num_allocs = 31 ∧ p.alloc_size = 31 ∧
      (∃ n, p.node_heap[0]? = some n ∧ n.allocated = 1 ∧ n.size = 1 ∧ n.next = some 81) ∧
      p.total_nodes = 80 ∧ p.node_heap[81]? = none ∧
      pool_segments p = none := by
  obtain ⟨_, h2, _, _, _, _, h7⟩ := moved_state_nodes
  exact ⟨moved_state node_zero 31, moved_run, rfl, rfl, ⟨_, h2, rfl, rfl, rfl⟩, rfl, h7,
    walk_leaves_heap _ 0 81 _ h2 rfl h7 80⟩

/-- C14 (inspection), at a run that moves the node heap.  After 31 allocations of one byte
in a fresh pool of 1000 bytes, the `realloc` of the last having moved the node heap, the loop
of `mem_inspect_pool` stores the record of the head node and then reads through its `next`,
an address in the freed array: the call has no defined result, whatever the size of its
array, and reports no record for 31 of the 32 segments. -/
theorem inspect_undefined_when_heap_moves :
    ∃ p, run_calls (pool_mgr_open 1000 alloc_policy.FIRST_FIT)
        (List.replicate 31 (pool_call.new_alloc realloc_moved 1)) = some p ∧
      p.used_nodes = 32 ∧
      (∀ (room k : Nat) (pool_segs : List pool_segment_t),
        mem_inspect_pool_loop p.node_heap room (some 0) k pool_segs = none) ∧
      mem_inspect_pool p = none := by
  obtain ⟨_, h2, _, _, _, _, h7⟩ := moved_state_nodes
  have hl := inspect_loop_leaves_heap _ 0 81 _ h2 rfl h7
  refine ⟨moved_state node_zero 31, moved_run, rfl, hl, ?_⟩
  unfold mem_inspect_pool
  rw [hl]

/-- C20 (no adjacent free segments), at a run that moves the node heap.  After 31
allocations of one byte in a fresh pool of 1000 bytes, the `realloc` of the last having moved
the node heap, node 1 holds as `prev` and `next` the addresses 80 and 82 of the freed array,
and the walk from the head along `next` has no defined result: the pool has no list of
consecutive segments of which the property could hold. -/
theorem list_adjacency_undefined_when_heap_moves :
    ∃ p, run_calls (pool_mgr_open 1000 alloc_policy.FIRST_FIT)
        (List.replicate 31 (pool_call.new_alloc realloc_moved 1)) = some p ∧
      p.num_gaps = 1 ∧ p.num_allocs = 31 ∧ p.total_nodes = 80 ∧
      p.node_heap[1]? = some ⟨1, some 1, 1, 1, some 82, some 80⟩ ∧
      (∀ fuel, pool_walk p.node_heap fuel (some 0) = none) ∧
      (∀ fuel, pool_walk_slots p.node_heap fuel (some 0) = none) := by
  obtain ⟨_, h2, h3, _, _, _, h7⟩ := moved_state_nodes
  exact ⟨moved_state node_zero 31, moved_run, rfl, rfl, rfl, h3,
    walk_leaves_heap _ 0 81 _ h2 rfl h7, walk_slots_leaves_heap _ 0 81 _ h2 rfl h7⟩

set_option maxRecDepth 1000000 in
/-- C15 (growth stability), at the first growth of the node heap.  In the pool after 30
allocations of one byte in a fresh pool of 1000 bytes, the handle `h` of each of them is the
address of node `h`, an allocated segment of one byte at offset `h`.  The 31st allocation
grows the node heap from 40 to 80 slots; when `realloc` moves the array, the handle `h` is
the address `h + 80` counted from the new start, at which the node heap has no node, and
`mem_del_alloc` on it returns `ALLOC_FAIL`; and node `h` holds as `next` and `prev` the
addresses of its old neighbours, `h + 81` and `h + 79`, instead of `h + 1` and `h - 1`. -/
theorem growth_invalidates_handles_and_links :
    ∃ p p2, run_calls (pool_mgr_open 1000 alloc_policy.FIRST_FIT)
        (List.replicate 30 (pool_call.new_alloc realloc_moved 1)) = some p ∧
      mem_new_alloc realloc_moved p 1 = some (p2, some 30) ∧
      p.total_nodes = 40 ∧ p2.total_nodes = 80 ∧
      ∀ h, h < 30 →
        p.node_heap[h]? =
          some ⟨1, some h, 1, 1, some (h + 1), if h = 0 then none else some (h - 1)⟩ ∧
        p2.node_heap[h]? =
          some ⟨1, some h, 1, 1, some (h + 81), if h = 0 then none else some (h + 79)⟩ ∧
        realloc_moved.ptr p.total_nodes h = h + 80 ∧
        p2.node_heap[h + 80]? = none ∧
        mem_del_alloc p2 (some (h + 80)) = some (p2, alloc_status.ALLOC_FAIL) := by
  refine ⟨fill_state 30, moved_state node_zero 31, ?_, moved_step_31, rfl, rfl, ?_⟩
  · have h := run_calls_fill30 realloc_moved []
    rw [List.append_nil] at h
    rw [h]
    rfl
  · decide!

/-- C16 (deallocation postcondition), at a run that moves the node heap.  After 31
allocations of one byte in a fresh pool of 1000 bytes, the `realloc` of the last having moved
the node heap, node 29 is an allocated segment of one byte.  Its handle, returned by the 30th
allocation, is the address 109 counted from the new start of the node heap.  `mem_del_alloc`
on it returns `ALLOC_FAIL` and leaves the pool as it is: the segment stays allocated and
`num_allocs` and `alloc_size` stay 31. -/
theorem del_rejects_allocated_segment_after_growth :
    ∃ p, run_calls (pool_mgr_open 1000 alloc_policy.FIRST_FIT)
        (List.replicate 31 (pool_call.new_alloc realloc_moved 1)) = some p ∧
      p.node_heap[29]? = some ⟨1, some 29, 1, 1, some 110, some 108⟩ ∧
      realloc_moved.ptr 40 29 = 109 ∧ p.total_nodes = 80 ∧
      mem_del_alloc p (some 109) = some (p, alloc_status.ALLOC_FAIL) ∧
      p.num_allocs = 31 ∧ p.alloc_size = 31 := by
  obtain ⟨_, _, _, h4, _, _, _⟩ := moved_state_nodes
  exact ⟨moved_state node_zero 31, moved_run, h4, rfl, rfl,
    del_outside_heap _ 109 (by show 80 ≤ 109; omega), rfl, rfl⟩

/-- C21 (node accounting), at a run that grows the node heap.  After 39 allocations of one
byte in a fresh pool of 1000 bytes, the `realloc` of the 31st having moved the node heap and
left the bytes `0xFF` in the added slots, `used_nodes` is 40 and below `total_nodes`, which
is 80, and the next allocation does not grow the heap; its policy selects node 39, and the
search for an unused slot finds none, because no slot of the node heap has `used == 0`.
The walk from the head along `next` has no defined result, so `mem_inspect_pool` does not
end after `used_nodes` steps. -/
theorem unused_search_fails_after_growth :
    ∃ p, run_calls (pool_mgr_open 1000 alloc_policy.FIRST_FIT)
        (List.replicate 39 (pool_call.new_alloc realloc_moved_dirty 1)) = some p ∧
      p.num_gaps = 1 ∧ p.used_nodes = 40 ∧ p.total_nodes = 80 ∧ p.node_heap.length = 80 ∧
      (∀ r, _mem_resize_node_heap r p = p) ∧
      mem_new_alloc_select p 1 = some (some 39) ∧
      (upd p.node_heap 39 (fun x => { x with size := 1, used := 1, allocated := 1 })).bind
        (fun h1 => scan_first (unused_test h1) p.total_nodes 0) = some none ∧
      p.node_heap.countP (fun n => decide (n.used = 0)) = 0 ∧
      (∀ fuel, pool_walk_slots p.node_heap fuel (some 0) = none) ∧
      mem_inspect_pool p = none := by
  obtain ⟨h1, h2, _, h4, _, h6, h7, h8⟩ := moved_dirty_state_nodes
  have hl := inspect_loop_leaves_heap _ 0 81 _ h2 rfl h4
  refine ⟨moved_state node_dirty 39, moved_dirty_run, rfl, rfl, rfl, h1, ?_, h7, h8, h6,
    walk_slots_leaves_heap _ 0 81 _ h2 rfl h4, ?_⟩
  · intro r
    exact resize_no_growth r _ (by show ¬ 4 * 40 > 3 * 80; omega)
  · unfold mem_inspect_pool
    rw [hl]

set_option maxRecDepth 1000000 in
/-- A request of 2000 bytes after 30 allocations of one byte in a fresh pool of 1000 bytes:
the call grows the node heap and then returns `NULL` at line 320.  When `realloc` has moved
the array, the head node and the gap index hold addresses of the freed array. -/
theorem failed_growth_pool :
    mem_new_alloc realloc_moved (fill_state 30) 2000 =
        some (_mem_resize_node_heap realloc_moved (fill_state 30), none) ∧
      (pool_segments (fill_state 30)).map List.length = some 31 ∧
      (fill_state 30).gap_ix[0]? = some ⟨970, some 30⟩ ∧
      (_mem_resize_node_heap realloc_moved (fill_state 30)).total_nodes = 80 ∧
      (_mem_resize_node_heap realloc_moved (fill_state 30)).node_heap[0]? =
        some ⟨1, some 0, 1, 1, some 81, none⟩ ∧
      (_mem_resize_node_heap realloc_moved (fill_state 30)).node_heap[81]? = none ∧
      (_mem_resize_node_heap realloc_moved (fill_state 30)).gap_ix[0]? =
        some ⟨970, some 110⟩ := by
  decide!

set_option maxRecDepth 1000000 in
/-- C6 (atomicity of a failed allocation), at two runs that grow the node heap.  After 39
allocations of one byte in a fresh pool of 1000 bytes, the `realloc` of the 31st having moved
the node heap and left the bytes `0xFF` in the added slots, the 40th allocation of one byte
returns `NULL`, whatever `realloc` would do, and has changed the pool: `num_allocs` and
`alloc_size` have grown from 39 to 40, `num_gaps` has dropped from 1 to 0, the gap index
entry of node 39 is zeroed, and node 39, the free segment of 961 bytes, has become an
allocated segment of one byte.  The return is that of line 354, after the search for an unused
slot.  And after 30 allocations of one byte, a request of 2000 bytes returns `NULL` at line
320, after `_mem_resize_node_heap` has grown the node heap: when `realloc` has moved the
array, the list that had 31 segments before the call cannot be walked after it, and the gap
index entry of node 30 holds the address that the node had in the freed array. -/
theorem failed_alloc_after_mutation :
    (∃ p p2, run_calls (pool_mgr_open 1000 alloc_policy.FIRST_FIT)
        (List.replicate 39 (pool_call.new_alloc realloc_moved_dirty 1)) = some p ∧
      (∀ r, mem_new_alloc r p 1 = some (p2, none)) ∧
      p.num_allocs = 39 ∧ p2.num_allocs = 40 ∧
      p.alloc_size = 39 ∧ p2.alloc_size = 40 ∧
      p.num_gaps = 1 ∧ p2.num_gaps = 0 ∧
      p.gap_ix[0]? = some ⟨961, some 39⟩ ∧ p2.gap_ix[0]? = some ⟨0, none⟩ ∧
      p.node_heap[39]? = some ⟨961, some 39, 1, 0, none, some 38⟩ ∧
      p2.node_heap[39]? = some ⟨1, some 39, 1, 1, none, some 38⟩ ∧
      p2.used_nodes = p.used_nodes ∧ p2.total_nodes = p.total_nodes) ∧
    ∃ q q2, run_calls (pool_mgr_open 1000 alloc_policy.FIRST_FIT)
        (List.replicate 30 (pool_call.new_alloc realloc_moved 1)) = some q ∧
      mem_new_alloc realloc_moved q 2000 = some (q2, none) ∧
      (pool_segments q).map List.length = some 31 ∧
      q.gap_ix[0]? = some ⟨970, some 30⟩ ∧
      q2.total_nodes = 80 ∧
      q2.node_heap[0]? = some ⟨1, some 0, 1, 1, some 81, none⟩ ∧
      q2.gap_ix[0]? = some ⟨970, some 110⟩ ∧
      q2.node_heap[110]? = none ∧
      pool_segments q2 = none := by
  obtain ⟨_, _, h3, _, _, _, _, _⟩ := moved_dirty_state_nodes
  obtain ⟨g1, g2, g3, g4, g5, g6, g7⟩ := failed_growth_pool
  refine ⟨⟨moved_state node_dirty 39,
    { moved_state node_dirty 39 with
      num_allocs := 40
      alloc_size := 40
      num_gaps := 0
      gap_ix := List.replicate 40 gap_zero
      node_heap :=
        (moved_state node_dirty 39).node_heap.set 39 ⟨1, some 39, 1, 1, none, some 38⟩ },
    moved_dirty_run, ?_, rfl, rfl, rfl, rfl, rfl, rfl, rfl, rfl, h3, by decide!, rfl, rfl⟩,
    fill_state 30, _mem_resize_node_heap realloc_moved (fill_state 30), ?_, g1, g2, g3, g4, g5,
    g7, by decide!, ?_⟩
  · intro r
    rw [mem_new_alloc_no_growth r realloc_moved_dirty _ _ (by show ¬ 4 * 40 > 3 * 80; omega)]
    exact moved_dirty_step_40
  · have h := run_calls_fill30 realloc_moved []
    rw [List.append_nil] at h
    rw [h]
    rfl
  · unfold pool_segments
    exact walk_leaves_heap _ 0 81 _ g5 rfl g6 _

set_option maxRecDepth 1000000 in
set_option maxHeartbeats 4000000 in
/-- The release of the first allocation after 30 allocations of one byte in a fresh pool of
1000 bytes, and the next allocation of one byte, which moves the node heap: the gap index
entries before and after, and the nodes 0 and 30. -/
theorem stale_gap_pool : ∃ p p2,
    run_calls (fill_state 30) [pool_call.del_alloc 0] = some p ∧
      mem_new_alloc realloc_moved p 1 = some (p2, some 0) ∧
      p.total_nodes = 40 ∧ p.used_nodes = 31 ∧
      p.num_allocs = 29 ∧ p.alloc_size = 29 ∧ p.num_gaps = 2 ∧
      p.gap_ix.take 3 = [⟨1, some 0⟩, ⟨970, some 30⟩, ⟨0, none⟩] ∧
      p.node_heap[0]? = some ⟨1, some 0, 1, 0, some 1, none⟩ ∧
      p.node_heap[30]? = some ⟨970, some 30, 1, 0, none, some 29⟩ ∧
      p2.total_nodes = 80 ∧ p2.used_nodes = 31 ∧
      p2.num_allocs = 30 ∧ p2.alloc_size = 30 ∧ p2.num_gaps = 1 ∧
      p2.gap_ix.take 3 = [⟨1, some 80⟩, ⟨0, none⟩, ⟨0, none⟩] ∧
      p2.node_heap[0]? = some ⟨1, some 0, 1, 1, some 81, none⟩ ∧
      p2.node_heap[30]? = some ⟨970, some 30, 1, 0, none, some 109⟩ ∧
      p2.node_heap[80]? = none := by
  refine ⟨(run_calls (fill_state 30) [pool_call.del_alloc 0]).getD (fill_state 30),
    ((mem_new_alloc realloc_moved
      ((run_calls (fill_state 30) [pool_call.del_alloc 0]).getD (fill_state 30)) 1).getD
        (fill_state 30, none)).1,
    ?_, ?_, ?_, ?_, ?_, ?_, ?_, ?_, ?_, ?_, ?_, ?_, ?_, ?_, ?_, ?_, ?_, ?_, ?_⟩ <;> decide!

/-- C5 (postcondition of a successful allocation), at a call that moves the node heap.  In
the pool after 30 allocations of one byte in a fresh pool of 1000 bytes and the release of
the first, the free segments are node 0 (offset 0, one byte) and node 30 (offset 30, 970
bytes), and the gap index holds their two entries.  The next allocation of one byte grows the
node heap; when `realloc` moves the array, the call selects node 0, returns its handle and
makes it an allocated segment of one byte, but `_mem_remove_from_gap_ix` finds no entry with
the new address of node 0 and zeroes the last live entry instead.  Afterwards the one live
entry of the gap index is the entry of the segment just allocated, with the address that
node 0 had in the freed array (80, the address of no node), and the free segment of 970
bytes has no entry. -/
theorem alloc_leaves_stale_gap_entry :
    ∃ p p2, run_calls (pool_mgr_open 1000 alloc_policy.FIRST_FIT)
        (List.replicate 30 (pool_call.new_alloc realloc_moved 1) ++ [pool_call.del_alloc 0]) =
          some p ∧
      mem_new_alloc realloc_moved p 1 = some (p2, some 0) ∧
      p.num_gaps = 2 ∧ p.gap_ix.take 3 = [⟨1, some 0⟩, ⟨970, some 30⟩, ⟨0, none⟩] ∧
      p.node_heap[0]? = some ⟨1, some 0, 1, 0, some 1, none⟩ ∧
      p.node_heap[30]? = some ⟨970, some 30, 1, 0, none, some 29⟩ ∧
      p.total_nodes = 40 ∧ p2.total_nodes = 80 ∧
      p2.node_heap[0]? = some ⟨1, some 0, 1, 1, some 81, none⟩ ∧
      p2.node_heap[30]? = some ⟨970, some 30, 1, 0, none, some 109⟩ ∧
      p2.num_allocs = p.num_allocs + 1 ∧ p2.alloc_size = p.alloc_size + 1 ∧
      p2.num_gaps = 1 ∧ p2.gap_ix.take 3 = [⟨1, some 80⟩, ⟨0, none⟩, ⟨0, none⟩] ∧
      realloc_moved.ptr 40 0 = 80 ∧ p2.node_heap[80]? = none := by
  obtain ⟨p, p2, h1, h2, h3, h4, h5, h6, h7, h8, h9, h10, h11, h12, h13, h14, h15, h16, h17, h18,
    h19⟩ := stale_gap_pool
  refine ⟨p, p2, ?_, h2, h7, h8, h9, h10, h3, h11, h17, h18, by rw [h13, h5],
    by rw [h14, h6], h15, h16, rfl, h19⟩
  rw [run_calls_fill30]
  exact h1

set_option maxRecDepth 1000000 in
set_option maxHeartbeats 4000000 in
/-- After 30 allocations of one byte in a fresh pool of 1000 bytes, the release of the
handles 0, 2 and 3 and an allocation of 5 bytes, the nodes 0, 1 and 2 are a free segment of
one byte, an allocated segment of one byte and a free segment of two bytes, linked in this
order, and the release of node 1 returns `ALLOC_OK`.  A second allocation of 5 bytes moves the
node heap. -/
theorem stale_merge_pool : ∃ p p2,
    run_calls (fill_state 30) [pool_call.del_alloc 0, pool_call.del_alloc 2,
        pool_call.del_alloc 3, pool_call.new_alloc realloc_moved 5] = some p ∧
      mem_new_alloc realloc_moved p 5 = some (p2, some 3) ∧
      p.total_nodes = 40 ∧ p.used_nodes = 31 ∧
      p.node_heap[0]? = some ⟨1, some 0, 1, 0, some 1, none⟩ ∧
      p.node_heap[1]? = some ⟨1, some 1, 1, 1, some 2, some 0⟩ ∧
      p.node_heap[2]? = some ⟨2, some 2, 1, 0, some 4, some 1⟩ ∧
      (mem_del_alloc p (some 1)).map (fun x =>
          (x.2, x.1.node_heap[0]?, x.1.num_gaps, x.1.used_nodes)) =
        some (alloc_status.ALLOC_OK, some ⟨4, some 0, 1, 0, some 4, none⟩, p.num_gaps - 1,
          p.used_nodes - 2) ∧
      p2.total_nodes = 80 ∧
      p2.node_heap[0]? = some ⟨1, some 0, 1, 0, some 81, none⟩ ∧
      p2.node_heap[1]? = some ⟨1, some 1, 1, 1, some 82, some 80⟩ ∧
      p2.node_heap[2]? = some ⟨2, some 2, 1, 0, some 84, some 81⟩ ∧
      p2.node_heap[81]? = none ∧
      p2.num_gaps = p.num_gaps ∧ p2.used_nodes = p.used_nodes + 1 := by
  refine ⟨(run_calls (fill_state 30) [pool_call.del_alloc 0, pool_call.del_alloc 2,
      pool_call.del_alloc 3, pool_call.new_alloc realloc_moved 5]).getD (fill_state 30),
    ((mem_new_alloc realloc_moved
      ((run_calls (fill_state 30) [pool_call.del_alloc 0, pool_call.del_alloc 2,
        pool_call.del_alloc 3, pool_call.new_alloc realloc_moved 5]).getD (fill_state 30))
      5).getD (fill_state 30, none)).1,
    ?_, ?_, ?_, ?_, ?_, ?_, ?_, ?_, ?_, ?_, ?_, ?_, ?_, ?_, ?_⟩ <;> decide!

/-- C8 (three-way merge), at a pool whose node heap has moved.  After 30 allocations of one
byte in a fresh pool of 1000 bytes, the release of the handles 0, 2 and 3 and an allocation
of 5 bytes, the segments at the offsets 0, 1 and 2 are free (one byte), allocated (one
byte) and free (two bytes), linked in this order, and the release of the middle one, whose
handle is the address of node 1, would return `ALLOC_OK` and leave one free segment of 4
bytes.  A further allocation of 5 bytes grows the node heap; when `realloc` moves the array,
the three segments are as before, but the handle of the middle one is the address 81 counted
from the new start of the node heap, the address of no node: `mem_del_alloc` on it returns
`ALLOC_FAIL` and merges nothing. -/
theorem three_way_merge_rejected_after_growth :
    ∃ p p2, run_calls (pool_mgr_open 1000 alloc_policy.FIRST_FIT)
        (List.replicate 30 (pool_call.new_alloc realloc_moved 1) ++
          [pool_call.del_alloc 0, pool_call.del_alloc 2, pool_call.del_alloc 3,
            pool_call.new_alloc realloc_moved 5]) = some p ∧
      mem_new_alloc realloc_moved p 5 = some (p2, some 3) ∧
      p.node_heap[0]? = some ⟨1, some 0, 1, 0, some 1, none⟩ ∧
      p.node_heap[1]? = some ⟨1, some 1, 1, 1, some 2, some 0⟩ ∧
      p.node_heap[2]? = some ⟨2, some 2, 1, 0, some 4, some 1⟩ ∧
      (mem_del_alloc p (some 1)).map (fun x =>
          (x.2, x.1.node_heap[0]?, x.1.num_gaps, x.1.used_nodes)) =
        some (alloc_status.ALLOC_OK, some ⟨4, some 0, 1, 0, some 4, none⟩, p.num_gaps - 1,
          p.used_nodes - 2) ∧
      p.total_nodes = 40 ∧ p2.total_nodes = 80 ∧
      p2.node_heap[0]? = some ⟨1, some 0, 1, 0, some 81, none⟩ ∧
      p2.node_heap[1]? = some ⟨1, some 1, 1, 1, some 82, some 80⟩ ∧
      p2.node_heap[2]? = some ⟨2, some 2, 1, 0, some 84, some 81⟩ ∧
      realloc_moved.ptr 40 1 = 81 ∧
      mem_del_alloc p2 (some 81) = some (p2, alloc_status.ALLOC_FAIL) := by
  obtain ⟨p, p2, h1, h2, h3, h4, h5, h6, h7, h8, h9, h10, h11, h12, h13, h14, h15⟩ :=
    stale_merge_pool
  refine ⟨p, p2, ?_, h2, h5, h6, h7, h8, h3, h9, h10, h11, h12, rfl,
    del_outside_heap _ 81 (by rw [h9]; omega)⟩
  rw [run_calls_fill30]
  exact h1

end MemPool
